import Mathlib

/-!
# list_t: a doubly-linked list in C (`Library/list_t.c`)

The C program keeps its nodes and list handles on the heap and links them with
raw pointers.  The embedding below keeps that heap explicit:

* a pointer is an `Option Nat` (`none` is `NULL`);
* `Mem` holds the store of `listNode` cells, the store of `listBase` handles and
  the next address `malloc` hands out;
* every function of the C file becomes a function from `Mem` to
  `Option (result × Mem)`; `none` stands for undefined behaviour (a `NULL` or
  dangling dereference) or for a loop that never leaves a cyclic chain (the
  loops carry a fuel of `brk + 1` iterations, more than any chain of distinct
  live cells can need);
* `int` values are `Int` (the node count is assumed to stay below `INT_MAX`),
  the `unsigned int sync` counter is a `Nat` reduced modulo `2 ^ 32`;
* `malloc` always succeeds and returns a fresh address, `free` retires a cell for
  good; the element type `T` of the absent header is a type parameter.
-/

namespace ListT

/-- Modelled from the spec: the result type `bool_t` of the header `list_t.h`,
which is not part of the sources; an integer-valued C type with the two
constants `FALSE` and `TRUE`. -/
abbrev bool_t := Int

/-- Modelled from the spec: the failure indicator `FALSE` of `list_t.h`. -/
def FALSE : bool_t := 0

/-- Modelled from the spec: the success indicator `TRUE` of `list_t.h`. -/
def TRUE : bool_t := 1

/-- A `nodePointer` of the C file: the address of a node, or `NULL`. -/
abbrev nodePointer := Option Nat

/-- A `list_t` of the C file: the address of a `listBase`, or `NULL`. -/
abbrev list_t := Option Nat

/-- The `struct listElem` of the C file. -/
structure listNode (T : Type) where
  previous : nodePointer
  info : T
  next : nodePointer
  deriving DecidableEq

/-- The `struct listBase` of the C file. -/
structure listBase where
  head : nodePointer
  tail : nodePointer
  length : Int
  sync : Nat
  deriving DecidableEq

/-- The heap: live nodes, live list handles, and the next fresh address. -/
structure Mem (T : Type) where
  node : Nat → Option (listNode T)
  base : Nat → Option listBase
  brk : Nat

variable {T : Type}

/-- The increment `sync++` of an `unsigned int`. -/
def syncPlus (s : Nat) : Nat := (s + 1) % 2 ^ 32

namespace Mem

/-- The heap with nothing allocated. -/
def empty : Mem T := ⟨fun _ => none, fun _ => none, 0⟩

/-- Reading `*p` for a node pointer. -/
def deref (m : Mem T) (p : nodePointer) : Option (listNode T) := p.bind m.node

/-- Reading `p->previous`. -/
def previousOf (m : Mem T) (p : nodePointer) : Option nodePointer :=
  (m.deref p).map listNode.previous

/-- Reading `p->next`. -/
def nextOf (m : Mem T) (p : nodePointer) : Option nodePointer :=
  (m.deref p).map listNode.next

/-- Reading `p->info`. -/
def infoOf (m : Mem T) (p : nodePointer) : Option T :=
  (m.deref p).map listNode.info

/-- The assignment `p->previous = v`. -/
def setPrevious (m : Mem T) (p : nodePointer) (v : nodePointer) : Option (Mem T) :=
  match p with
  | none => none
  | some a =>
    match m.node a with
    | none => none
    | some n => some { m with node := Function.update m.node a (some { n with previous := v }) }

/-- The assignment `p->next = v`. -/
def setNext (m : Mem T) (p : nodePointer) (v : nodePointer) : Option (Mem T) :=
  match p with
  | none => none
  | some a =>
    match m.node a with
    | none => none
    | some n => some { m with node := Function.update m.node a (some { n with next := v }) }

/-- The assignment `p->info = v`. -/
def setInfo (m : Mem T) (p : nodePointer) (v : T) : Option (Mem T) :=
  match p with
  | none => none
  | some a =>
    match m.node a with
    | none => none
    | some n => some { m with node := Function.update m.node a (some { n with info := v }) }

/-- The call `free(p)` on a node pointer: a no-op on `NULL`, undefined on a
pointer that is not live. -/
def free (m : Mem T) (p : nodePointer) : Option (Mem T) :=
  match p with
  | none => some m
  | some a =>
    match m.node a with
    | none => none
    | some _ => some { m with node := Function.update m.node a none }

/-- The allocation `malloc(sizeof(listNode))` followed by `newNode->info = item`.
The two link fields of the fresh cell are uninitialised in C; they are `NULL`
here, and the code assigns them before it reads them. -/
def malloc (m : Mem T) (item : T) : Nat × Mem T :=
  (m.brk, { m with node := Function.update m.node m.brk (some ⟨none, item, none⟩),
                   brk := m.brk + 1 })

/-- Storing the fields of the handle at address `l`. -/
def setBase (m : Mem T) (l : Nat) (L : listBase) : Mem T :=
  { m with base := Function.update m.base l (some L) }

end Mem

/-! ## Generic functions -/

/-- The function `create`: a fresh handle with no nodes, length 0 and sync 0. -/
def create (m : Mem T) : list_t × Mem T :=
  (some m.brk, { m with base := Function.update m.base m.brk (some ⟨none, none, 0, 0⟩),
                        brk := m.brk + 1 })

/-- The `while (TRUE)` loop of `clear`, started at `list->head->next`. -/
def clear_loop : Nat → Mem T → nodePointer → Option (Mem T)
  | 0, _, _ => none
  | fuel + 1, m, iterator => do
    let p ← m.previousOf iterator
    let m ← m.free p
    let nx ← m.nextOf iterator
    if nx = none then m.free iterator
    else clear_loop fuel m nx

/-- The function `clear`. -/
def clear (list : list_t) (m : Mem T) : Option (bool_t × Mem T) :=
  match list with
  | none => some (FALSE, m)
  | some l => do
    let L ← m.base l
    if L.length = 0 then some (TRUE, m)
    else
      let L : listBase := { L with sync := syncPlus L.sync }
      if L.length = 1 then do
        let m ← m.free L.head
        some (TRUE, m.setBase l { L with length := 0, head := none, tail := none })
      else do
        let nx ← m.nextOf L.head
        let m ← clear_loop (m.brk + 1) m nx
        some (TRUE, m.setBase l { L with length := 0, head := none, tail := none })

/-- The function `get_last`; the second component is the value stored through
`result`, if any. -/
def get_last (list : list_t) (m : Mem T) : Option (bool_t × Option T) :=
  match list with
  | none => some (FALSE, none)
  | some l => do
    let L ← m.base l
    if L.length = 0 then some (FALSE, none)
    else do
      let v ← m.infoOf L.tail
      some (TRUE, some v)

/-- The function `size`. -/
def size (list : list_t) (m : Mem T) : Option Int :=
  match list with
  | none => some (-1)
  | some l => do
    let L ← m.base l
    some L.length

/-- The head-relative loop shared by `get`, `add_at`, `remove_at` and
`replace_at`: `while (iterator != NULL) { if (position == index) ...;
MOVE_NEXT_W_INDEX(position); }`.  The result is the node at which the test
succeeds, or `NULL` when the loop runs off the chain. -/
def seekNext (m : Mem T) (index : Int) : Nat → nodePointer → Int → Option nodePointer
  | _, none, _ => some none
  | 0, some _, _ => none
  | fuel + 1, some a, position =>
    if position = index then some (some a)
    else do
      let nx ← m.nextOf (some a)
      seekNext m index fuel nx (position + 1)

/-- The tail-relative loop shared by `get`, `add_at` and `remove_at`:
`while (iterator != NULL) { if (position == index) ...;
MOVE_BACK_W_INDEX(position); }`. -/
def seekBack (m : Mem T) (index : Int) : Nat → nodePointer → Int → Option nodePointer
  | _, none, _ => some none
  | 0, some _, _ => none
  | fuel + 1, some a, position =>
    if position = index then some (some a)
    else do
      let p ← m.previousOf (some a)
      seekBack m index fuel p (position - 1)

/-- The function `get`; the second component is the value stored through
`result`, if any. -/
def get (list : list_t) (index : Int) (m : Mem T) : Option (bool_t × Option T) :=
  match list with
  | none => none
  | some l => do
    let L ← m.base l
    if index < 0 ∨ index ≥ L.length then some (FALSE, none)
    else
      let fromHead : Bool := index ≤ Int.tdiv L.length 2
      if fromHead then do
        let iterator ← seekNext m index (m.brk + 1) L.head 0
        if iterator = none then some (FALSE, none)
        else do
          let v ← m.infoOf iterator
          some (TRUE, some v)
      else do
        let iterator ← seekBack m index (m.brk + 1) L.tail (L.length - 1)
        if iterator = none then some (FALSE, none)
        else do
          let v ← m.infoOf iterator
          some (TRUE, some v)

variable [DecidableEq T]

/-- The loop of `index_of`. -/
def index_of_loop (m : Mem T) (item : T) : Nat → nodePointer → Int → Option Int
  | _, none, _ => some (-1)
  | 0, some _, _ => none
  | fuel + 1, some a, index => do
    let v ← m.infoOf (some a)
    if v = item then some index
    else do
      let nx ← m.nextOf (some a)
      index_of_loop m item fuel nx (index + 1)

/-- The function `index_of`. -/
def index_of (item : T) (list : list_t) (m : Mem T) : Option Int :=
  match list with
  | none => some (-1)
  | some l => do
    let L ← m.base l
    if L.length = 0 then some (-1)
    else index_of_loop m item (m.brk + 1) L.head 0

/-- The loop of `last_index_of`. -/
def last_index_of_loop (m : Mem T) (item : T) : Nat → nodePointer → Int → Option Int
  | _, none, _ => some (-1)
  | 0, some _, _ => none
  | fuel + 1, some a, index => do
    let v ← m.infoOf (some a)
    if v = item then some index
    else do
      let p ← m.previousOf (some a)
      last_index_of_loop m item fuel p (index - 1)

/-- The function `last_index_of`. -/
def last_index_of (item : T) (list : list_t) (m : Mem T) : Option Int :=
  match list with
  | none => some (-1)
  | some l => do
    let L ← m.base l
    if L.length = 0 then some (-1)
    else last_index_of_loop m item (m.brk + 1) L.tail (L.length - 1)

/-- The function `add`. -/
def add (item : T) (list : list_t) (m : Mem T) : Option (bool_t × Mem T) :=
  match list with
  | none => some (FALSE, m)
  | some l => do
    let L ← m.base l
    let (a, m) := m.malloc item
    let newNode : nodePointer := some a
    let m ← m.setNext newNode none
    if L.length = 0 then do
      let m ← m.setPrevious newNode none
      some (TRUE, m.setBase l
        { head := newNode, tail := newNode, length := L.length + 1, sync := syncPlus L.sync })
    else do
      let m ← m.setPrevious newNode L.tail
      let m ← m.setNext L.tail newNode
      some (TRUE, m.setBase l
        { L with tail := newNode, length := L.length + 1, sync := syncPlus L.sync })

/-- The block run by `add_at` at the node `iterator` where `position == index`:
it links `newNode` in front of `iterator`. -/
def add_at_link (m : Mem T) (newNode iterator : nodePointer) : Option (Mem T) := do
  let p ← m.previousOf iterator
  let m ← m.setPrevious newNode p
  let q ← m.previousOf newNode
  let m ← m.setNext q newNode
  let m ← m.setNext newNode iterator
  m.setPrevious iterator newNode

/-- The function `add_at`. -/
def add_at (item : T) (list : list_t) (index : Int) (m : Mem T) : Option (bool_t × Mem T) :=
  match list with
  | none => some (FALSE, m)
  | some l => do
    let L ← m.base l
    if L.length = 0 ∨ index < 0 ∨ index ≥ L.length then some (FALSE, m)
    else if index = 0 then add item list m
    else
      let fromHead : Bool := index ≤ Int.tdiv L.length 2
      let (a, m) := m.malloc item
      let newNode : nodePointer := some a
      do
        let iterator ←
          if fromHead then seekNext m index (m.brk + 1) L.head 0
          else seekBack m index (m.brk + 1) L.tail (L.length - 1)
        let m ← if iterator = none then some m else add_at_link m newNode iterator
        some (TRUE, m.setBase l { L with sync := syncPlus L.sync, length := L.length + 1 })

/-- The loop of `remove_item`: the first node, head to tail, whose `info`
equals `item`, or `NULL` when the loop runs off the chain. -/
def remove_item_loop (m : Mem T) (item : T) : Nat → nodePointer → Option nodePointer
  | _, none => some none
  | 0, some _ => none
  | fuel + 1, some a => do
    let v ← m.infoOf (some a)
    if v = item then some (some a)
    else do
      let nx ← m.nextOf (some a)
      remove_item_loop m item fuel nx

/-- The block `iterator->previous->next = iterator->next;
iterator->next->previous = iterator->previous;` of `remove_item`, `remove_at`
and `remove_all_items`. -/
def unlink (m : Mem T) (iterator : nodePointer) : Option (Mem T) := do
  let p ← m.previousOf iterator
  let nx ← m.nextOf iterator
  let m ← m.setNext p nx
  let nx ← m.nextOf iterator
  let p ← m.previousOf iterator
  m.setPrevious nx p

/-- The block run by `remove_item` at the matching node `iterator`. -/
def remove_item_found (l : Nat) (m : Mem T) (iterator : nodePointer) :
    Option (bool_t × Mem T) := do
  let p ← m.previousOf iterator
  let nx ← m.nextOf iterator
  let m ←
    if p = none then do
      let m ← m.setPrevious nx none
      let L ← m.base l
      let nx ← m.nextOf iterator
      some (m.setBase l { L with head := nx })
    else if nx = none then do
      let m ← m.setNext p none
      let L ← m.base l
      let p ← m.previousOf iterator
      some (m.setBase l { L with tail := p })
    else unlink m iterator
  let m ← m.free iterator
  let L ← m.base l
  some (TRUE, m.setBase l { L with length := L.length - 1, sync := syncPlus L.sync })

/-- The function `remove_item`. -/
def remove_item (item : T) (list : list_t) (m : Mem T) : Option (bool_t × Mem T) :=
  match list with
  | none => some (FALSE, m)
  | some l => do
    let L ← m.base l
    if L.length = 0 then some (FALSE, m)
    else if L.length = 1 then do
      let v ← m.infoOf L.head
      if v = item then do
        let m ← m.free L.head
        some (TRUE, m.setBase l
          { head := none, tail := none, length := 0, sync := syncPlus L.sync })
      else some (FALSE, m)
    else do
      let iterator ← remove_item_loop m item (m.brk + 1) L.head
      if iterator = none then some (FALSE, m)
      else remove_item_found l m iterator

/-- The function `remove_at`. -/
def remove_at (list : list_t) (index : Int) (m : Mem T) : Option (bool_t × Mem T) :=
  match list with
  | none => some (FALSE, m)
  | some l => do
    let L ← m.base l
    if L.length = 0 then some (FALSE, m)
    else if index < 0 ∨ index ≥ L.length then some (FALSE, m)
    else if index = 0 ∧ L.length = 1 then do
      let m ← m.free L.head
      some (TRUE, m.setBase l
        { head := none, tail := none, length := 0, sync := syncPlus L.sync })
    else if index = 0 ∧ L.length > 1 then do
      let temp := L.head
      let nx ← m.nextOf temp
      let m ← m.setPrevious nx none
      let m ← m.free temp
      some (TRUE, m.setBase l
        { L with head := nx, length := L.length - 1, sync := syncPlus L.sync })
    else if index = L.length - 1 then do
      let temp := L.tail
      let p ← m.previousOf L.tail
      let m ← m.setNext p none
      let m ← m.free temp
      some (TRUE, m.setBase l
        { L with tail := p, length := L.length - 1, sync := syncPlus L.sync })
    else
      let fromHead : Bool := index ≤ Int.tdiv L.length 2
      do
        let iterator ←
          if fromHead then seekNext m index (m.brk + 1) L.head 0
          else seekBack m index (m.brk + 1) L.tail (L.length - 1)
        let m ← if iterator = none then some m
                 else do
                   let m ← unlink m iterator
                   m.free iterator
        some (TRUE, m.setBase l { L with sync := syncPlus L.sync, length := L.length - 1 })

/-- The loop of `remove_all_items`. -/
def remove_all_items_loop (item : T) (l : Nat) :
    Nat → Mem T → nodePointer → Int → Option (Int × Mem T)
  | _, m, none, total => some (if total = 0 then -1 else total, m)
  | 0, _, some _, _ => none
  | fuel + 1, m, some a, total => do
    let iterator : nodePointer := some a
    let v ← m.infoOf iterator
    if v = item then do
      let L ← m.base l
      if L.length = 1 then do
        let r ← clear (some l) m
        some (total + 1, r.2)
      else do
        let nx ← m.nextOf iterator
        if nx = none then do
          let p ← m.previousOf iterator
          let m ← m.setNext p none
          let p ← m.previousOf iterator
          let m ← m.free iterator
          some (total + 1, m.setBase l
            { L with tail := p, length := L.length - 1, sync := syncPlus L.sync })
        else do
          let p ← m.previousOf iterator
          let m ←
            if p = none then do
              let nx ← m.nextOf iterator
              let m := m.setBase l { L with head := nx }
              let nx ← m.nextOf iterator
              m.setPrevious nx none
            else unlink m iterator
          let L ← m.base l
          let m := m.setBase l { L with length := L.length - 1 }
          let temp := iterator
          let nx ← m.nextOf iterator
          let m ← m.free temp
          let L ← m.base l
          let m := m.setBase l { L with sync := syncPlus L.sync }
          remove_all_items_loop item l fuel m nx (total + 1)
    else do
      let nx ← m.nextOf iterator
      remove_all_items_loop item l fuel m nx total

/-- The function `remove_all_items`. -/
def remove_all_items (item : T) (list : list_t) (m : Mem T) : Option (Int × Mem T) :=
  match list with
  | none => some (-1, m)
  | some l => do
    let L ← m.base l
    if L.length = 0 then some (-1, m)
    else if L.length = 1 then do
      let v ← m.infoOf L.head
      if v = item then do
        let r ← clear list m
        some (1, r.2)
      else some (-1, m)
    else remove_all_items_loop item l (m.brk + 1) m L.head 0

/-- The function `replace_at`.  `conv` is the C conversion of a `T` to `bool_t`
that the statement `return iterator->info;` of the tail-relative branch applies.
In that branch the block after the `if` is not guarded, so the loop body runs
at most once, on the tail node. -/
def replace_at (conv : T → bool_t) (item : T) (list : list_t) (index : Int) (m : Mem T) :
    Option (bool_t × Mem T) :=
  match list with
  | none => some (FALSE, m)
  | some l => do
    let L ← m.base l
    if index < 0 ∨ index ≥ L.length then some (FALSE, m)
    else
      let fromHead : Bool := index ≤ Int.tdiv L.length 2
      if fromHead then do
        let iterator ← seekNext m index (m.brk + 1) L.head 0
        if iterator = none then some (FALSE, m)
        else do
          let m ← m.setInfo iterator item
          some (TRUE, m.setBase l { L with sync := syncPlus L.sync })
      else
        let position := L.length - 1
        let iterator := L.tail
        if iterator = none then some (FALSE, m)
        else if position = index then do
          let v ← m.infoOf iterator
          some (conv v, m)
        else do
          let m ← m.setInfo iterator item
          some (TRUE, m.setBase l { L with sync := syncPlus L.sync })

/-- The function `swap`.  The results of the two `get` calls and of the two
`replace_at` calls are not inspected; a `get` that stores nothing leaves its
`temp` uninitialised. -/
def swap (conv : T → bool_t) (list : list_t) (index1 index2 : Int) (m : Mem T) :
    Option (bool_t × Mem T) :=
  match list with
  | none => some (FALSE, m)
  | some l => do
    let L ← m.base l
    if L.length = 0 then some (FALSE, m)
    else if index1 < 0 ∨ index1 ≥ L.length ∨ index2 < 0 ∨ index2 ≥ L.length
        ∨ index1 = index2 then some (FALSE, m)
    else do
      let g1 ← get list index1 m
      let temp1 ← g1.2
      let g2 ← get list index2 m
      let temp2 ← g2.2
      let r1 ← replace_at conv temp2 list index1 m
      let r2 ← replace_at conv temp1 list index2 r1.2
      some (TRUE, r2.2)

/-- The values met from `iterator` on by following `next` (the walk of
`to_array`, `copy` and `print`). -/
def elements_loop (m : Mem T) : Nat → nodePointer → Option (List T)
  | _, none => some []
  | 0, some _ => none
  | fuel + 1, some a => do
    let v ← m.infoOf (some a)
    let nx ← m.nextOf (some a)
    let rest ← elements_loop m fuel nx
    some (v :: rest)

/-- The sequence a list holds: the values met from `head` by following `next`. -/
def elements (list : list_t) (m : Mem T) : Option (List T) :=
  match list with
  | none => none
  | some l => do
    let L ← m.base l
    elements_loop m (m.brk + 1) L.head

/-- The generation counter `list->sync`. -/
def sync_of (list : list_t) (m : Mem T) : Option Nat :=
  match list with
  | none => none
  | some l => (m.base l).map listBase.sync

/-! ## Value replacement -/

/-- The function `replace_item`.  Its loop is the search loop of `remove_item`
(first node, head to tail, whose `info` equals the target). -/
def replace_item (target replacement : T) (list : list_t) (m : Mem T) :
    Option (bool_t × Mem T) :=
  match list with
  | none => some (FALSE, m)
  | some l => do
    let L ← m.base l
    if L.length = 0 then some (FALSE, m)
    else do
      let iterator ← remove_item_loop m target (m.brk + 1) L.head
      if iterator = none then some (FALSE, m)
      else do
        let m ← m.setInfo iterator replacement
        some (TRUE, m.setBase l { L with sync := syncPlus L.sync })

/-- The loop of `replace_all_items`. -/
def replace_all_items_loop (target replacement : T) :
    Nat → Mem T → nodePointer → Int → Option (Int × Mem T)
  | _, m, none, total => some (total, m)
  | 0, _, some _, _ => none
  | fuel + 1, m, some a, total => do
    let iterator : nodePointer := some a
    let v ← m.infoOf iterator
    if v = target then do
      let m ← m.setInfo iterator replacement
      let nx ← m.nextOf iterator
      replace_all_items_loop target replacement fuel m nx (total + 1)
    else do
      let nx ← m.nextOf iterator
      replace_all_items_loop target replacement fuel m nx total

/-- The function `replace_all_items`. -/
def replace_all_items (target replacement : T) (list : list_t) (m : Mem T) :
    Option (Int × Mem T) :=
  match list with
  | none => some (-1, m)
  | some l => do
    let L ← m.base l
    if L.length = 0 then some (-1, m)
    else do
      let r ← replace_all_items_loop target replacement (m.brk + 1) m L.head 0
      let total := r.1
      let m := r.2
      if total ≠ 0 then do
        let L ← m.base l
        some (total, m.setBase l { L with sync := syncPlus L.sync })
      else some (-1, m)

/-! ## Lists built from lists -/

/-- The loop `while (iterator != NULL) { if (<test>) add(iterator->info, outList);
MOVE_NEXT; }` of `copy`, `remove_where`, `intersect` and `except`.  The test is
evaluated on `iterator->info` and may read the heap (`LIST_CONTAINS`); for
`copy` it is constantly true. -/
def collect_loop (test : Mem T → T → Option Bool) (outList : list_t) :
    Nat → Mem T → nodePointer → Option (Mem T)
  | _, m, none => some m
  | 0, _, some _ => none
  | fuel + 1, m, some a => do
    let iterator : nodePointer := some a
    let v ← m.infoOf iterator
    let b ← test m v
    let m ← if b then (add v outList m).map Prod.snd else some m
    let nx ← m.nextOf iterator
    collect_loop test outList fuel m nx

/-- The function `copy`. -/
def copy (source : list_t) (m : Mem T) : Option (list_t × Mem T) :=
  match source with
  | none => some (none, m)
  | some s =>
    let (outList, m) := create m
    do
      let S ← m.base s
      if S.length = 0 then some (outList, m)
      else do
        let m ← collect_loop (fun _ _ => some true) outList (m.brk + 1) m S.head
        some (outList, m)

/-- The counting loop of `take_range`: `while (elements > 0) { add(iterator->info,
outList); iterator = iterator->next; elements--; }`, on the number of rounds. -/
def take_range_loop (outList : list_t) : Nat → Mem T → nodePointer → Option (Mem T)
  | 0, m, _ => some m
  | elements + 1, m, iterator => do
    let v ← m.infoOf iterator
    let r ← add v outList m
    let nx ← r.2.nextOf iterator
    take_range_loop outList elements r.2 nx

/-- The function `take_range`.  Its two positioning loops are `seekNext` and
`seekBack` with `break` as the action. -/
def take_range (list : list_t) (start end_ : Int) (m : Mem T) : Option (list_t × Mem T) :=
  match list with
  | none => some (none, m)
  | some l => do
    let L ← m.base l
    if L.length = 0 then some (none, m)
    else if start < 0 ∨ end_ < 0 ∨ start ≥ L.length ∨ end_ ≥ L.length ∨ start ≥ end_ then
      some (none, m)
    else
      let (outList, m) := create m
      let fromHead : Bool := start ≤ Int.tdiv L.length 2
      do
        let iterator ←
          if fromHead then seekNext m start (m.brk + 1) L.head 0
          else seekBack m start (m.brk + 1) L.tail (L.length - 1)
        let elements := end_ + 1 - start
        let m ← take_range_loop outList elements.toNat m iterator
        some (outList, m)

/-- The function `remove_where`; a predicate holds when it returns a non-zero
value. -/
def remove_where (list : list_t) (expression : T → bool_t) (m : Mem T) :
    Option (list_t × Mem T) :=
  match list with
  | none => some (none, m)
  | some l => do
    let L ← m.base l
    if L.length = 0 then some (none, m)
    else
      let (outList, m) := create m
      do
        let m ← collect_loop (fun _ v => some (decide (expression v = 0))) outList
          (m.brk + 1) m L.head
        some (outList, m)

/-- The loop of the macro `LIST_CONTAINS`, for the value `v` of `iterator->info`. -/
def LIST_CONTAINS_loop (expression : T → T → bool_t) (m : Mem T) (v : T) :
    Nat → nodePointer → Option Bool
  | _, none => some false
  | 0, some _ => none
  | fuel + 1, some a => do
    let backupIterator : nodePointer := some a
    let w ← m.infoOf backupIterator
    if expression v w ≠ 0 then some true
    else do
      let nx ← m.nextOf backupIterator
      LIST_CONTAINS_loop expression m v fuel nx

/-- The macro `LIST_CONTAINS(list)`: the final value of `found`. -/
def LIST_CONTAINS (expression : T → T → bool_t) (list : Nat) (m : Mem T) (v : T) :
    Option Bool := do
  let L ← m.base list
  LIST_CONTAINS_loop expression m v (m.brk + 1) L.head

/-- The function `intersect`. -/
def intersect (list1 list2 : list_t) (expression : T → T → bool_t) (m : Mem T) :
    Option (list_t × Mem T) :=
  match list1, list2 with
  | some l1, some l2 => do
    let L1 ← m.base l1
    let L2 ← m.base l2
    if L1.length = 0 ∨ L2.length = 0 then some (create m)
    else
      let (outList, m) := create m
      do
        let m ← collect_loop (LIST_CONTAINS expression l2) outList (m.brk + 1) m L1.head
        some (outList, m)
  | _, _ => some (none, m)

/-- The function `except`. -/
def except (list1 list2 : list_t) (expression : T → T → bool_t) (m : Mem T) :
    Option (list_t × Mem T) :=
  match list1, list2 with
  | some l1, some l2 => do
    let L1 ← m.base l1
    if L1.length = 0 then some (create m)
    else do
      let L2 ← m.base l2
      if L2.length = 0 then copy list1 m
      else
        let (outList, m) := create m
        do
          let m ← collect_loop (fun m v => (LIST_CONTAINS expression l2 m v).map not) outList
            (m.brk + 1) m L1.head
          some (outList, m)
  | _, _ => some (none, m)

/-- The loop of `sequence_equals`. -/
def sequence_equals_loop (expression : T → T → bool_t) (m : Mem T) :
    Nat → nodePointer → nodePointer → Option bool_t
  | _, none, _ => some TRUE
  | 0, some _, _ => none
  | fuel + 1, some a, iterator2 => do
    let iterator1 : nodePointer := some a
    let v1 ← m.infoOf iterator1
    let v2 ← m.infoOf iterator2
    if expression v1 v2 = 0 then some FALSE
    else do
      let n1 ← m.nextOf iterator1
      let n2 ← m.nextOf iterator2
      sequence_equals_loop expression m fuel n1 n2

/-- The function `sequence_equals`. -/
def sequence_equals (list1 list2 : list_t) (expression : T → T → bool_t) (m : Mem T) :
    Option bool_t :=
  match list1, list2 with
  | some l1, some l2 => do
    let L1 ← m.base l1
    let L2 ← m.base l2
    if L1.length ≠ L2.length then some FALSE
    else sequence_equals_loop expression m (m.brk + 1) L1.head L2.head
  | none, none => some TRUE
  | _, _ => some FALSE

/-! ## Exchange sort -/

/-- Modelled from the spec: the three-way comparison result `comparation` of the
header `list_t.h`, which is not part of the sources. -/
inductive comparation where
  | LOWER
  | EQUAL
  | GREATER
  deriving DecidableEq

/-- The `while (TRUE)` loop of `orderHelper`; `sorted` records a swap in the
current pass. -/
def orderHelper_loop (expression : T → T → comparation) (reverse : bool_t) (outList : Nat) :
    Nat → Mem T → nodePointer → Bool → Option (Mem T)
  | 0, _, _, _ => none
  | fuel + 1, m, iterator, sorted => do
    let a ← m.infoOf iterator
    let nx ← m.nextOf iterator
    let b ← m.infoOf nx
    let result := expression a b
    let result :=
      if reverse ≠ 0 ∧ result ≠ comparation.EQUAL then
        (if result = comparation.GREATER then comparation.LOWER else comparation.GREATER)
      else result
    let ms ←
      if result = comparation.GREATER then do
        let backup ← m.infoOf iterator
        let nx ← m.nextOf iterator
        let v ← m.infoOf nx
        let m ← m.setInfo iterator v
        let nx ← m.nextOf iterator
        let m ← m.setInfo nx backup
        some (m, true)
      else some (m, sorted)
    let m := ms.1
    let sorted := ms.2
    let nx ← m.nextOf iterator
    let nn ← m.nextOf nx
    let loopEnd : Bool := nn = none
    if loopEnd ∧ sorted then do
      let L ← m.base outList
      orderHelper_loop expression reverse outList fuel m L.head false
    else if loopEnd then some m
    else orderHelper_loop expression reverse outList fuel m nx sorted

/-- The function `orderHelper`.  The loop is given `(brk + 1) ^ 3` rounds, more
than the passes of an exchange sort on a chain of live cells can take. -/
def orderHelper (list : list_t) (expression : T → T → comparation) (reverse : bool_t)
    (m : Mem T) : Option (list_t × Mem T) := do
  let r ← copy list m
  let outList := r.1
  let m := r.2
  let l ← list
  let L ← m.base l
  if L.length = 1 then some (outList, m)
  else do
    let o ← outList
    let O ← m.base o
    let m ← orderHelper_loop expression reverse o ((m.brk + 1) ^ 3) m O.head false
    some (outList, m)

/-- The function `in_place_order_by`. -/
def in_place_order_by (list : list_t) (expression : T → T → comparation) (m : Mem T) :
    Option (list_t × Mem T) :=
  match list with
  | none => some (none, m)
  | some l => do
    let L ← m.base l
    if L.length = 0 then some (none, m)
    else orderHelper list expression FALSE m

/-- The function `in_place_order_by_descending`. -/
def in_place_order_by_descending (list : list_t) (expression : T → T → comparation)
    (m : Mem T) : Option (list_t × Mem T) :=
  match list with
  | none => some (none, m)
  | some l => do
    let L ← m.base l
    if L.length = 0 then some (none, m)
    else orderHelper list expression TRUE m

/-! ## Iterator -/

/-- The `struct listIterator` of the C file.  An iterator object is reached only
through its own pointer, so it is passed by value: a `list_iterator_t` is the
object itself, or `NULL`, and a function that writes to it returns the new
object. -/
structure listIterator where
  pointer : nodePointer
  list : list_t
  position : Int
  sync : Nat
  started : bool_t
  deriving DecidableEq

/-- A `list_iterator_t` of the C file. -/
abbrev list_iterator_t := Option listIterator

/-- Reading `iterator->list->sync`. -/
def listIterator.list_sync (it : listIterator) (m : Mem T) : Option Nat := do
  let l ← it.list
  let L ← m.base l
  some L.sync

/-- The function `get_iterator`. -/
def get_iterator (list : list_t) (m : Mem T) : Option list_iterator_t :=
  match list with
  | none => some none
  | some l => do
    let L ← m.base l
    if L.length = 0 then some none
    else some (some ⟨L.head, list, 0, L.sync, FALSE⟩)

/-- The function `is_synced`. -/
def is_synced (iterator : list_iterator_t) (m : Mem T) : Option bool_t :=
  match iterator with
  | none => some FALSE
  | some it => do
    let s ← it.list_sync m
    some (if it.sync = s then TRUE else FALSE)

/-- The function `get_current`; the second component is the value stored
through `result`, if any. -/
def get_current (iterator : list_iterator_t) (m : Mem T) : Option (bool_t × Option T) :=
  match iterator with
  | none => some (FALSE, none)
  | some it => do
    let s ← it.list_sync m
    if it.sync ≠ s then some (FALSE, none)
    else do
      let v ← m.infoOf it.pointer
      some (TRUE, some v)

/-- The function `checkGoForward`. -/
def checkGoForward (iterator : list_iterator_t) (m : Mem T) : Option bool_t :=
  match iterator with
  | none => some FALSE
  | some it => do
    let s ← it.list_sync m
    if it.sync ≠ s then some FALSE
    else do
      let nx ← m.nextOf it.pointer
      some (if nx ≠ none then TRUE else FALSE)

/-- The function `can_go_forward`. -/
def can_go_forward (iterator : list_iterator_t) (m : Mem T) : Option bool_t :=
  checkGoForward iterator m

/-- The function `checkGoBack`. -/
def checkGoBack (iterator : list_iterator_t) (m : Mem T) : Option bool_t :=
  match iterator with
  | none => some FALSE
  | some it => do
    let s ← it.list_sync m
    if it.sync ≠ s then some FALSE
    else do
      let p ← m.previousOf it.pointer
      some (if p ≠ none then TRUE else FALSE)

/-- The function `can_go_back`. -/
def can_go_back (iterator : list_iterator_t) (m : Mem T) : Option bool_t :=
  checkGoBack iterator m

/-- The function `move_next`; the second component is the iterator object after
the call. -/
def move_next (iterator : list_iterator_t) (m : Mem T) : Option (bool_t × list_iterator_t) := do
  let c ← checkGoForward iterator m
  if c = 0 then some (FALSE, iterator)
  else do
    let it ← iterator
    let nx ← m.nextOf it.pointer
    some (TRUE, some { it with pointer := nx, position := it.position + 1, started := TRUE })

/-- The function `move_back`; the second component is the iterator object after
the call. -/
def move_back (iterator : list_iterator_t) (m : Mem T) : Option (bool_t × list_iterator_t) := do
  let c ← checkGoBack iterator m
  if c = 0 then some (FALSE, iterator)
  else do
    let it ← iterator
    let p ← m.previousOf it.pointer
    some (TRUE, some { it with pointer := p, position := it.position - 1 })

/-- The function `next`: the returned flag, the value stored through `result`
(if any) and the iterator object after the call. -/
def next (iterator : list_iterator_t) (m : Mem T) :
    Option (bool_t × Option T × list_iterator_t) :=
  match iterator with
  | none => some (FALSE, none, none)
  | some it => do
    let s ← it.list_sync m
    if it.sync ≠ s then some (FALSE, none, iterator)
    else if it.started = FALSE then do
      let it1 : listIterator := { it with started := TRUE }
      let v ← m.infoOf it1.pointer
      some (TRUE, some v, some it1)
    else do
      let r ← move_next iterator m
      if r.1 = FALSE then some (FALSE, none, r.2)
      else do
        let it2 ← r.2
        let v ← m.infoOf it2.pointer
        some (TRUE, some v, r.2)

/-- The function `actual_position`. -/
def actual_position (iterator : list_iterator_t) (m : Mem T) : Option Int :=
  match iterator with
  | none => some (-1)
  | some it => do
    let s ← it.list_sync m
    if it.sync ≠ s then some (-1)
    else some it.position

/-- The function `elements_left`. -/
def elements_left (iterator : list_iterator_t) (m : Mem T) : Option Int :=
  match iterator with
  | none => some (-1)
  | some it => do
    let s ← it.list_sync m
    if it.sync ≠ s then some (-1)
    else do
      let l ← it.list
      let L ← m.base l
      some (L.length - it.position)

/-- The `while (TRUE)` loop of `for_each_remaining`; `seen` collects the values
handed to the visitor `expression`, in order. -/
def for_each_remaining_loop (m : Mem T) :
    Nat → listIterator → List T → Option (listIterator × List T)
  | 0, _, _ => none
  | fuel + 1, it, seen => do
    let v ← m.infoOf it.pointer
    let nx ← m.nextOf it.pointer
    if nx = none then some (it, seen ++ [v])
    else
      let it1 : listIterator := { it with pointer := nx, position := it.position + 1 }
      for_each_remaining_loop m fuel it1 (seen ++ [v])

/-- The function `for_each_remaining`: the returned count, the iterator object
after the call and the values handed to the visitor. -/
def for_each_remaining (iterator : list_iterator_t) (m : Mem T) :
    Option (Int × list_iterator_t × List T) :=
  match iterator with
  | none => some (-1, none, [])
  | some it => do
    let s ← it.list_sync m
    if it.sync ≠ s then some (-1, iterator, [])
    else do
      let it1 : listIterator := { it with started := TRUE }
      let start := it1.position
      let r ← for_each_remaining_loop m (m.brk + 1) it1 []
      some (r.1.position - start, some r.1, r.2)

/-- The function `restart`; the second component is the iterator object after
the call. -/
def restart (iterator : list_iterator_t) (m : Mem T) : Option (bool_t × list_iterator_t) :=
  match iterator with
  | none => some (FALSE, none)
  | some it => do
    let l ← it.list
    let L ← m.base l
    some (TRUE, some ⟨L.head, it.list, 0, L.sync, FALSE⟩)

/-! ## Stack functions -/

/-- The inline function `GetFirst`; the second component is the value stored
through `result`, if any. -/
def GetFirst (list : list_t) (m : Mem T) : Option (bool_t × Option T) :=
  match list with
  | none => some (FALSE, none)
  | some l => do
    let L ← m.base l
    if L.length = 0 then some (FALSE, none)
    else do
      let v ← m.infoOf L.head
      some (TRUE, some v)

/-- The function `peek`. -/
def peek (stack : list_t) (m : Mem T) : Option (bool_t × Option T) :=
  GetFirst stack m

/-- The function `push`. -/
def push (item : T) (stack : list_t) (m : Mem T) : Option (bool_t × Mem T) :=
  match stack with
  | none => some (FALSE, m)
  | some s => do
    let S ← m.base s
    if S.length = 0 then add item stack m
    else
      let (a, m) := m.malloc item
      let newNode : nodePointer := some a
      do
        let m ← m.setPrevious newNode none
        let m ← m.setPrevious S.head newNode
        let m ← m.setNext newNode S.head
        some (TRUE, m.setBase s
          { S with head := newNode, length := S.length + 1, sync := syncPlus S.sync })

/-- The function `pop`; the second component is the value stored through
`result`, if any. -/
def pop (stack : list_t) (m : Mem T) : Option (bool_t × Option T × Mem T) :=
  match stack with
  | none => some (FALSE, none, m)
  | some s => do
    let S ← m.base s
    if S.length = 0 then some (FALSE, none, m)
    else do
      let v ← m.infoOf S.head
      if S.length = 1 then do
        let m ← m.free S.head
        some (TRUE, some v, m.setBase s
          { head := none, tail := none, length := S.length - 1, sync := syncPlus S.sync })
      else do
        let temp := S.head
        let nx ← m.nextOf temp
        let m ← m.setPrevious nx none
        let m ← m.free temp
        some (TRUE, some v, m.setBase s
          { S with head := nx, length := S.length - 1, sync := syncPlus S.sync })

/-! ## Predicate scans -/

/-- The loop of `any`. -/
def any_loop (expression : T → bool_t) (m : Mem T) : Nat → nodePointer → Option bool_t
  | _, none => some FALSE
  | 0, some _ => none
  | fuel + 1, some a => do
    let iterator : nodePointer := some a
    let v ← m.infoOf iterator
    if expression v ≠ 0 then some TRUE
    else do
      let nx ← m.nextOf iterator
      any_loop expression m fuel nx

/-- The function `any`. -/
def any (list : list_t) (expression : T → bool_t) (m : Mem T) : Option bool_t :=
  match list with
  | none => some FALSE
  | some l => do
    let L ← m.base l
    if L.length = 0 then some FALSE
    else any_loop expression m (m.brk + 1) L.head

/-- The loop of `all`. -/
def all_loop (expression : T → bool_t) (m : Mem T) : Nat → nodePointer → Option bool_t
  | _, none => some TRUE
  | 0, some _ => none
  | fuel + 1, some a => do
    let iterator : nodePointer := some a
    let v ← m.infoOf iterator
    if expression v = 0 then some FALSE
    else do
      let nx ← m.nextOf iterator
      all_loop expression m fuel nx

/-- The function `all`. -/
def all (list : list_t) (expression : T → bool_t) (m : Mem T) : Option bool_t :=
  match list with
  | none => some FALSE
  | some l => do
    let L ← m.base l
    if L.length = 0 then some FALSE
    else all_loop expression m (m.brk + 1) L.head

/-- The loop of `single`; `result` is the value stored through the pointer
`result` so far, if any. -/
def single_loop (expression : T → bool_t) (m : Mem T) :
    Nat → nodePointer → bool_t → Option T → Option (bool_t × Option T)
  | _, none, found, result => some (found, result)
  | 0, some _, _, _ => none
  | fuel + 1, some a, found, result => do
    let iterator : nodePointer := some a
    let v ← m.infoOf iterator
    if expression v ≠ 0 then
      if found ≠ 0 then some (FALSE, result)
      else do
        let nx ← m.nextOf iterator
        single_loop expression m fuel nx TRUE (some v)
    else do
      let nx ← m.nextOf iterator
      single_loop expression m fuel nx found result

/-- The function `single`; the second component is the value stored through
`result`, if any. -/
def single (list : list_t) (expression : T → bool_t) (m : Mem T) :
    Option (bool_t × Option T) :=
  match list with
  | none => some (FALSE, none)
  | some l => do
    let L ← m.base l
    if L.length = 0 then some (FALSE, none)
    else single_loop expression m (m.brk + 1) L.head FALSE none

/-! ## Extremum queries -/

/-- The loop of `get_min`, on the value held by `*result`. -/
def get_min_loop (expression : T → T → comparation) (m : Mem T) :
    Nat → nodePointer → T → Option T
  | _, none, result => some result
  | 0, some _, _ => none
  | fuel + 1, some a, result => do
    let iterator : nodePointer := some a
    let v ← m.infoOf iterator
    let result := if expression result v = comparation.GREATER then v else result
    let nx ← m.nextOf iterator
    get_min_loop expression m fuel nx result

/-- The function `get_min`; the second component is the value stored through
`result`, if any.  `conv` is the C conversion of a `T` to `bool_t` that the
statement `return list->head->info;` of `FIRST_IF_SINGLE_ITEM` applies. -/
def get_min (conv : T → bool_t) (list : list_t) (expression : T → T → comparation)
    (m : Mem T) : Option (bool_t × Option T) :=
  match list with
  | none => some (FALSE, none)
  | some l => do
    let L ← m.base l
    if L.length = 0 then some (FALSE, none)
    else if L.length = 1 then do
      let v ← m.infoOf L.head
      some (conv v, none)
    else do
      let iterator := L.head
      let result ← m.infoOf iterator
      let nx ← m.nextOf iterator
      let result ← get_min_loop expression m (m.brk + 1) nx result
      some (TRUE, some result)

/-- The loop of `get_max`, on the value held by `*result`. -/
def get_max_loop (expression : T → T → comparation) (m : Mem T) :
    Nat → nodePointer → T → Option T
  | _, none, result => some result
  | 0, some _, _ => none
  | fuel + 1, some a, result => do
    let iterator : nodePointer := some a
    let v ← m.infoOf iterator
    let result := if expression result v = comparation.LOWER then v else result
    let nx ← m.nextOf iterator
    get_max_loop expression m fuel nx result

/-- The function `get_max`; `conv` and the second component are as for
`get_min`. -/
def get_max (conv : T → bool_t) (list : list_t) (expression : T → T → comparation)
    (m : Mem T) : Option (bool_t × Option T) :=
  match list with
  | none => some (FALSE, none)
  | some l => do
    let L ← m.base l
    if L.length = 0 then some (FALSE, none)
    else if L.length = 1 then do
      let v ← m.infoOf L.head
      some (conv v, none)
    else do
      let iterator := L.head
      let result ← m.infoOf iterator
      let nx ← m.nextOf iterator
      let result ← get_max_loop expression m (m.brk + 1) nx result
      some (TRUE, some result)

/-! ## Reversal of an index range -/

/-- The loop `while (start <= end) { swap(outList, start, end); start++; end--; }`
of `reverse_range`; the result of `swap` is not inspected. -/
def reverse_range_loop (conv : T → bool_t) (outList : list_t) :
    Nat → Mem T → Int → Int → Option (Mem T)
  | 0, _, _, _ => none
  | fuel + 1, m, start, end_ =>
    if start ≤ end_ then do
      let r ← swap conv outList start end_ m
      reverse_range_loop conv outList fuel r.2 (start + 1) (end_ - 1)
    else some m

/-- The function `reverse_range`; `conv` is the conversion that `replace_at`
needs. -/
def reverse_range (conv : T → bool_t) (list : list_t) (start end_ : Int) (m : Mem T) :
    Option (list_t × Mem T) :=
  match list with
  | none => some (none, m)
  | some l => do
    let L ← m.base l
    if L.length = 0 then some (none, m)
    else if start < 0 ∨ end_ < 0 ∨ start ≥ L.length ∨ end_ ≥ L.length ∨ start ≥ end_ then
      some (none, m)
    else do
      let r ← copy list m
      let outList := r.1
      let m ← reverse_range_loop conv outList (r.2.brk + 1) r.2 start end_
      some (outList, m)

/-! ## Deduplication -/

/-- The macro `GET_DISTINCT_LIST`: the new list and the heap after the loop.  Its
inner loop on `testIterator` is, statement for statement, the loop of
`LIST_CONTAINS(outList)`, and its outer loop adds the element when `found` is
false. -/
def GET_DISTINCT_LIST (expression : T → T → bool_t) (list : Nat) (m : Mem T) :
    Option (list_t × Mem T) :=
  let (outList, m) := create m
  do
    let o ← outList
    let L ← m.base list
    let m ← collect_loop (fun m v => (LIST_CONTAINS expression o m v).map not) outList
      (m.brk + 1) m L.head
    some (outList, m)

/-- The function `distinct`. -/
def distinct (list : list_t) (expression : T → T → bool_t) (m : Mem T) :
    Option (list_t × Mem T) :=
  match list with
  | none => some (none, m)
  | some l => do
    let L ← m.base l
    if L.length = 0 then some (none, m)
    else GET_DISTINCT_LIST expression l m

/-- The function `count_distinct`; the list built by `GET_DISTINCT_LIST` stays
allocated. -/
def count_distinct (list : list_t) (expression : T → T → bool_t) (m : Mem T) :
    Option (Int × Mem T) :=
  match list with
  | none => some (-1, m)
  | some l => do
    let L ← m.base l
    if L.length = 0 then some (0, m)
    else do
      let r ← GET_DISTINCT_LIST expression l m
      let o ← r.1
      let O ← r.2.base o
      some (O.length, r.2)

/-! ## Comparison sort through an array -/

/-- The function `to_array`: the array (the list of its entries) and the value
stored through `size`.  The array is allocated with `list->length` entries and
the walk stores one entry per node. -/
def to_array (list : list_t) (m : Mem T) : Option (Option (List T) × Int) :=
  match list with
  | none => some (none, -1)
  | some l => do
    let L ← m.base l
    if L.length = 0 then some (none, -1)
    else do
      let array ← elements_loop m (m.brk + 1) L.head
      if (array.length : Int) = L.length then some (some array, L.length) else none

/-- The loop `for (i = 0; i < size; i++) add(array[i], outList);` of
`create_from`. -/
def create_from_loop (array : List T) (size : Int) (outList : list_t) :
    Nat → Mem T → Int → Option (Mem T)
  | 0, _, _ => none
  | fuel + 1, m, i =>
    if i < size then do
      let v ← array[i.toNat]?
      let r ← add v outList m
      create_from_loop array size outList fuel r.2 (i + 1)
    else some m

/-- The function `create_from`. -/
def create_from (array : Option (List T)) (size : Int) (m : Mem T) :
    Option (list_t × Mem T) :=
  match array with
  | none => some (none, m)
  | some a =>
    if size ≤ 0 then some (none, m)
    else
      let (outList, m) := create m
      do
        let m ← create_from_loop a size outList (size.toNat + 1) m 0
        some (outList, m)

/-- The function `order_by`.  Modelled from the spec: the external `introsort`
of `Introsort\introsort.h` is not part of the sources; it is the parameter
`introsort`, from the entries of the array before the call to its entries after
the call.  The array is not part of the heap of nodes, so `free(temp_vector)`
has no effect here. -/
def order_by (introsort : List T → Int → (T → T → comparation) → List T) (list : list_t)
    (expression : T → T → comparation) (m : Mem T) : Option (list_t × Mem T) :=
  match list with
  | none => some (none, m)
  | some l => do
    let L ← m.base l
    if L.length = 0 then some (none, m)
    else do
      let r ← to_array list m
      let len := r.2
      let temp_vector ← r.1
      let temp_vector := introsort temp_vector len expression
      create_from (some temp_vector) len m

/-- The loop `for (i = 0; i < target; i++) { swap entries i and target;
target--; }` of `order_by_descending`. -/
def order_by_descending_loop : Nat → List T → Int → Int → Option (List T)
  | 0, _, _, _ => none
  | fuel + 1, temp_vector, i, target =>
    if i < target then do
      let temp ← temp_vector[i.toNat]?
      let other ← temp_vector[target.toNat]?
      let temp_vector := temp_vector.set i.toNat other
      let temp_vector := temp_vector.set target.toNat temp
      order_by_descending_loop fuel temp_vector (i + 1) (target - 1)
    else some temp_vector

/-- The function `order_by_descending`; `introsort` is as for `order_by`.  The
reversal loop starts with `target = len >> 1`. -/
def order_by_descending (introsort : List T → Int → (T → T → comparation) → List T)
    (list : list_t) (expression : T → T → comparation) (m : Mem T) :
    Option (list_t × Mem T) :=
  match list with
  | none => some (none, m)
  | some l => do
    let L ← m.base l
    if L.length = 0 then some (none, m)
    else do
      let r ← to_array list m
      let len := r.2
      let temp_vector ← r.1
      let temp_vector := introsort temp_vector len expression
      let target : Int := len >>> 1
      let temp_vector ← order_by_descending_loop (len.toNat + 1) temp_vector 0 target
      create_from (some temp_vector) len m

end ListT

namespace ListT

variable {T : Type}

/-! ## Representation of a list in the heap -/

/-- The address of the first cell of a chain, or `d` for the empty chain. -/
def firstOr : List (Nat × T) → nodePointer → nodePointer
  | [], d => d
  | c :: _, _ => some c.1

/-- The address of the last cell of a chain, or `d` for the empty chain. -/
def lastOr : List (Nat × T) → nodePointer → nodePointer
  | [], d => d
  | c :: cs, _ => lastOr cs (some c.1)

/-- The chain predicate `Seg node p cells nx`: the cells (address, value) are live nodes of `node`
linked in both directions in the order given; the first has `previous = p`
and the last has `next = nx`. -/
def Seg (node : Nat → Option (listNode T)) : nodePointer → List (Nat × T) → nodePointer → Prop
  | _, [], _ => True
  | p, c :: cs, nx => node c.1 = some ⟨p, c.2, firstOr cs nx⟩ ∧ Seg node (some c.1) cs nx

/-- The representation predicate `Rep m l cells k`: in the heap `m` the handle at address `l` is a well-formed
list whose nodes are, head to tail, the cells `cells` (address, value) and
whose generation counter is `k`. -/
def Rep (m : Mem T) (l : Nat) (cells : List (Nat × T)) (k : Nat) : Prop :=
  m.base l = some ⟨firstOr cells none, lastOr cells none, (cells.length : Int), k⟩
    ∧ k < 2 ^ 32
    ∧ Seg m.node none cells none
    ∧ (cells.map Prod.fst).Nodup
    ∧ (∀ c ∈ cells, c.1 < m.brk)
    ∧ l < m.brk

/-- The nodes reachable from `p` by following `next` are exactly `as`, in order. -/
def NextPath (node : Nat → Option (listNode T)) : nodePointer → List Nat → Prop
  | p, [] => p = none
  | p, a :: as => p = some a ∧ ∃ n, node a = some n ∧ NextPath node n.next as

/-- The structural invariant of the data model, stated on the heap: the chain
from `head` counts `length` nodes and ends in `tail`; `length == 0` iff head
and tail are absent; a single node is head and tail with both links absent;
`head->previous` and `tail->next` are absent; links are symmetric. -/
def Invariant (m : Mem T) (l : Nat) : Prop :=
  ∃ L as, m.base l = some L
    ∧ NextPath m.node L.head as
    ∧ L.length = (as.length : Int)
    ∧ L.tail = as.getLast?
    ∧ (L.length = 0 ↔ (L.head = none ∧ L.tail = none))
    ∧ (L.length = 1 → L.head = L.tail ∧ m.previousOf L.head = some none
        ∧ m.nextOf L.head = some none)
    ∧ (L.head ≠ none → m.previousOf L.head = some none)
    ∧ (L.tail ≠ none → m.nextOf L.tail = some none)
    ∧ (∀ a ∈ as, ∀ b, m.nextOf (some a) = some (some b) → m.previousOf (some b) = some (some a))
    ∧ (∀ a ∈ as, ∀ b, m.previousOf (some a) = some (some b) → m.nextOf (some b) = some (some a))

/-- One call of a structural operation of the list engine. -/
inductive Op (T : Type) where
  | add (item : T)
  | add_at (item : T) (index : Int)
  | remove_item (item : T)
  | remove_at (index : Int)
  | remove_all_items (item : T)
  | clear

/-- Running one call on the list; the integer is the value the call returns. -/
def runOp [DecidableEq T] (list : list_t) (m : Mem T) : Op T → Option (Int × Mem T)
  | Op.add item => ListT.add item list m
  | Op.add_at item index => ListT.add_at item list index m
  | Op.remove_item item => ListT.remove_item item list m
  | Op.remove_at index => ListT.remove_at list index m
  | Op.remove_all_items item => ListT.remove_all_items item list m
  | Op.clear => ListT.clear list m

/-- Running a sequence of calls on the list, whatever each of them returns. -/
def runOps [DecidableEq T] (list : list_t) : List (Op T) → Mem T → Option (Mem T)
  | [], m => some m
  | op :: ops, m => do
    let r ← runOp list m op
    runOps list ops r.2

/-- One `add` call per item, in order (the loop of `create_from` and `copy`). -/
def add_each (items : List T) (list : list_t) (m : Mem T) : Option (Mem T) :=
  match items with
  | [] => some m
  | x :: xs => do
    let r ← add x list m
    add_each xs list r.2

/-- The heap reached from the empty heap by `create()` followed by one `add`
call per item; the handle is at address 0 and the nodes at 1, 2, ... -/
def built (items : List Int) : Mem Int :=
  (add_each items (create (Mem.empty : Mem Int)).1 (create (Mem.empty : Mem Int)).2).getD Mem.empty

instance decidableSeg [DecidableEq T] (node : Nat → Option (listNode T)) :
    (p : nodePointer) → (cells : List (Nat × T)) → (nx : nodePointer) →
      Decidable (Seg node p cells nx)
  | _, [], _ => isTrue trivial
  | p, c :: cs, nx =>
    have := decidableSeg node (some c.1) cs nx
    inferInstanceAs (Decidable (node c.1 = some ⟨p, c.2, firstOr cs nx⟩ ∧ Seg node (some c.1) cs nx))

instance decidableRep [DecidableEq T] (m : Mem T) (l : Nat) (cells : List (Nat × T)) (k : Nat) :
    Decidable (Rep m l cells k) :=
  inferInstanceAs (Decidable (
    m.base l = some ⟨firstOr cells none, lastOr cells none, (cells.length : Int), k⟩
      ∧ k < 2 ^ 32
      ∧ Seg m.node none cells none
      ∧ (cells.map Prod.fst).Nodup
      ∧ (∀ c ∈ cells, c.1 < m.brk)
      ∧ l < m.brk))

/-- The heaps `m` and `m1` agree below the address `b0`: the handles and nodes
stored below `b0` are the same, and nothing was handed back to the allocator. -/
def Agree (b0 : Nat) (m m1 : Mem T) : Prop :=
  (∀ b, b < b0 → m1.base b = m.base b) ∧ (∀ a, a < b0 → m1.node a = m.node a)
    ∧ m.brk ≤ m1.brk

/-- The results of `n` successive calls of `next` on an iterator: for each call
the returned flag and the value stored through `result`. -/
def next_times (m : Mem T) : Nat → list_iterator_t → Option (List (bool_t × Option T))
  | 0, _ => some []
  | n + 1, iterator => do
    let r ← next iterator m
    let rest ← next_times m n r.2.2
    some ((r.1, r.2.1) :: rest)

/-- The heap reached from `built xs` by a second `create()` followed by one `add`
call per item of `ys`; the second handle is at address `xs.length + 1`. -/
def built2 (xs ys : List Int) : Mem Int :=
  (add_each ys (create (built xs)).1 (create (built xs)).2).getD Mem.empty

/-- The numeric three-way comparison used in the examples. -/
def compareInt (a b : Int) : comparation :=
  if a < b then comparation.LOWER else if a = b then comparation.EQUAL else comparation.GREATER

/-- The equality predicate used in the examples. -/
def equalsInt (a b : Int) : bool_t := if a = b then TRUE else FALSE

/-- The cells with the value at position `i` replaced by `v` (the node stays). -/
def setInfoAt : List (Nat × T) → Nat → T → List (Nat × T)
  | [], _, _ => []
  | c :: cs, 0, v => (c.1, v) :: cs
  | c :: cs, i + 1, v => c :: setInfoAt cs i v

/-- The call `op` returned its success indicator: `TRUE`, or for
`remove_all_items` a count instead of the none-found signal `-1`. -/
def succeeded : Op T → Int → Prop
  | Op.remove_all_items _, r => r ≠ -1
  | _, r => r = TRUE

/-- The number of inversions of a sequence for the relation `gt`: the pairs of
positions `i < j` whose values satisfy `gt s[i] s[j]`. -/
def inversions (gt : T → T → Bool) : List T → Nat
  | [] => 0
  | x :: xs => xs.countP (fun y => gt x y) + inversions gt xs

/-- The sequence that `GET_DISTINCT_LIST` leaves in `outList` when `outList`
holds `acc` and the values still to be walked are the second argument. -/
def distinctFold (eq : T → T → bool_t) : List T → List T → List T
  | acc, [] => acc
  | acc, x :: xs =>
    if acc.any (fun y => decide (eq x y ≠ 0)) then distinctFold eq acc xs
    else distinctFold eq (acc ++ [x]) xs

/-- An insertion sort under the comparator; it stands in the examples for the
external `introsort`, whose source is not available. -/
def exampleSort (array : List T) (_len : Int) (expression : T → T → comparation) : List T :=
  array.insertionSort (fun a b => expression a b ≠ comparation.GREATER)

/-! ## Lemmas on chains -/

@[simp] theorem firstOr_nil (d : nodePointer) : firstOr ([] : List (Nat × T)) d = d := rfl

@[simp] theorem firstOr_cons (c : Nat × T) (cs : List (Nat × T)) (d : nodePointer) :
    firstOr (c :: cs) d = some c.1 := rfl

@[simp] theorem lastOr_nil (d : nodePointer) : lastOr ([] : List (Nat × T)) d = d := rfl

@[simp] theorem lastOr_cons (c : Nat × T) (cs : List (Nat × T)) (d : nodePointer) :
    lastOr (c :: cs) d = lastOr cs (some c.1) := rfl

@[simp] theorem firstOr_append (xs ys : List (Nat × T)) (d : nodePointer) :
    firstOr (xs ++ ys) d = firstOr xs (firstOr ys d) := by
  cases xs <;> rfl

@[simp] theorem lastOr_append (xs ys : List (Nat × T)) (d : nodePointer) :
    lastOr (xs ++ ys) d = lastOr ys (lastOr xs d) := by
  induction xs generalizing d with
  | nil => rfl
  | cons c cs ih => simp [ih]

@[simp] theorem Seg_nil (node : Nat → Option (listNode T)) (p nx : nodePointer) :
    Seg node p [] nx ↔ True := Iff.rfl

@[simp] theorem Seg_cons (node : Nat → Option (listNode T)) (p nx : nodePointer)
    (c : Nat × T) (cs : List (Nat × T)) :
    Seg node p (c :: cs) nx
      ↔ node c.1 = some ⟨p, c.2, firstOr cs nx⟩ ∧ Seg node (some c.1) cs nx := Iff.rfl

theorem Seg_append (node : Nat → Option (listNode T)) (xs ys : List (Nat × T))
    (p nx : nodePointer) :
    Seg node p (xs ++ ys) nx
      ↔ Seg node p xs (firstOr ys nx) ∧ Seg node (lastOr xs p) ys nx := by
  induction xs generalizing p with
  | nil => simp
  | cons c cs ih => simp [ih, and_assoc]

theorem Seg_congr {node node1 : Nat → Option (listNode T)} {cells : List (Nat × T)}
    {p nx : nodePointer} (h : ∀ c ∈ cells, node1 c.1 = node c.1)
    (hs : Seg node p cells nx) : Seg node1 p cells nx := by
  induction cells generalizing p with
  | nil => trivial
  | cons c cs ih =>
    obtain ⟨h1, h2⟩ := hs
    refine ⟨?_, ih (fun d hd => h d (List.mem_cons_of_mem _ hd)) h2⟩
    rw [h c (List.mem_cons_self _ _)]
    exact h1

theorem length_le_of_nodup_lt {as : List Nat} {b : Nat} (hn : as.Nodup)
    (hb : ∀ a ∈ as, a < b) : as.length ≤ b := by
  have h1 : as.toFinset ⊆ Finset.range b := by
    intro a ha
    simp only [List.mem_toFinset] at ha
    simpa using hb a ha
  have h2 := Finset.card_le_card h1
  rw [List.toFinset_card_of_nodup hn, Finset.card_range] at h2
  exact h2

theorem Rep.length_le {m : Mem T} {l : Nat} {cells : List (Nat × T)} {k : Nat}
    (h : Rep m l cells k) : cells.length ≤ m.brk := by
  obtain ⟨_, _, _, hn, hb, _⟩ := h
  have := length_le_of_nodup_lt hn (b := m.brk) (by
    intro a ha
    obtain ⟨c, hc, rfl⟩ := List.mem_map.1 ha
    exact hb c hc)
  simpa using this

end ListT

namespace ListT

variable {T : Type}

/-! ## Reading through pointers -/

theorem previousOf_some {m : Mem T} {a : Nat} {n : listNode T} (h : m.node a = some n) :
    m.previousOf (some a) = some n.previous := by
  simp [Mem.previousOf, Mem.deref, h]

theorem nextOf_some {m : Mem T} {a : Nat} {n : listNode T} (h : m.node a = some n) :
    m.nextOf (some a) = some n.next := by
  simp [Mem.nextOf, Mem.deref, h]

theorem infoOf_some {m : Mem T} {a : Nat} {n : listNode T} (h : m.node a = some n) :
    m.infoOf (some a) = some n.info := by
  simp [Mem.infoOf, Mem.deref, h]

theorem Seg_mid {node : Nat → Option (listNode T)} {pre post : List (Nat × T)} {c : Nat × T}
    {p nx : nodePointer} (h : Seg node p (pre ++ c :: post) nx) :
    node c.1 = some ⟨lastOr pre p, c.2, firstOr post nx⟩ :=
  ((Seg_append node pre (c :: post) p nx).1 h).2.1

/-! ## The traversal loops on a chain -/

theorem seekNext_spec (m : Mem T) (index : Int) (pre : List (Nat × T)) (c : Nat × T)
    (post : List (Nat × T)) (p nx : nodePointer) (fuel : Nat) (pos : Int)
    (hs : Seg m.node p (pre ++ c :: post) nx) (hf : pre.length < fuel)
    (hi : index = pos + pre.length) :
    seekNext m index fuel (firstOr (pre ++ c :: post) nx) pos = some (some c.1) := by
  induction pre generalizing p fuel pos with
  | nil =>
    obtain ⟨f, rfl⟩ : ∃ f, fuel = f + 1 := ⟨fuel - 1, by simp at hf; omega⟩
    simp at hi
    simp [seekNext, hi]
  | cons d ds ih =>
    obtain ⟨f, rfl⟩ : ∃ f, fuel = f + 1 := ⟨fuel - 1, by simp at hf; omega⟩
    have hne : pos ≠ index := by simp at hi; omega
    obtain ⟨h1, h2⟩ := hs
    have := ih (some d.1) f (pos + 1) h2 (by simp at hf; omega) (by simp at hi; omega)
    simp only [List.cons_append, firstOr_cons, seekNext, hne, if_false, nextOf_some h1]
    simpa using this

theorem seekBack_spec (m : Mem T) (index : Int) (pre : List (Nat × T)) (c : Nat × T)
    (post : List (Nat × T)) (p nx : nodePointer) (fuel : Nat) (pos : Int)
    (hs : Seg m.node p (pre ++ c :: post) nx) (hf : post.length < fuel)
    (hi : index = pos - post.length) :
    seekBack m index fuel (lastOr (pre ++ c :: post) p) pos = some (some c.1) := by
  induction post using List.reverseRecOn generalizing nx fuel pos with
  | nil =>
    obtain ⟨f, rfl⟩ : ∃ f, fuel = f + 1 := ⟨fuel - 1, by simp at hf; omega⟩
    simp at hi
    simp [seekBack, hi]
  | append_singleton ds d ih =>
    obtain ⟨f, rfl⟩ : ∃ f, fuel = f + 1 := ⟨fuel - 1, by simp at hf; omega⟩
    have hne : pos ≠ index := by simp at hi; omega
    have hs1 : Seg m.node p ((pre ++ c :: ds) ++ [d]) nx := by simpa using hs
    have hd := Seg_mid hs1
    have h2 := ((Seg_append m.node (pre ++ c :: ds) [d] p nx).1 hs1).1
    have := ih (firstOr [d] nx) f (pos - 1) h2 (by simp at hf; omega) (by simp at hi; omega)
    have e : lastOr (pre ++ c :: (ds ++ [d])) p = some d.1 := by simp
    rw [e]
    simp only [seekBack, hne, if_false, previousOf_some hd]
    simpa using this

end ListT

namespace ListT

variable {T : Type}

/-! ## Positional and value lookups -/

theorem get_at {m : Mem T} {l k : Nat} (pre : List (Nat × T)) (c : Nat × T)
    (post : List (Nat × T)) (h : Rep m l (pre ++ c :: post) k) :
    get (some l) (pre.length : Int) m = some (TRUE, some c.2) := by
  have hlen := h.length_le
  obtain ⟨hb, -, hs, -, -, -⟩ := h
  have hc := Seg_mid hs
  simp only [List.length_append, List.length_cons] at hlen
  have h1 := seekNext_spec m pre.length pre c post none none (m.brk + 1) 0 hs
    (by omega) (by simp)
  have h2 := seekBack_spec m pre.length pre c post none none (m.brk + 1)
    (((pre ++ c :: post).length : Int) - 1) hs (by omega)
    (by simp only [List.length_append, List.length_cons]; push_cast; omega)
  have hr : ¬ ((pre.length : Int) < 0 ∨ (pre.length : Int) ≥ ((pre ++ c :: post).length : Int)) := by
    simp only [List.length_append, List.length_cons]; push_cast; omega
  simp only [get, hb, Option.bind_eq_bind, Option.some_bind, hr, if_false]
  split
  · rw [h1]; simp [infoOf_some hc]
  · rw [h2]; simp [infoOf_some hc]

theorem get_out_of_range {m : Mem T} {l k : Nat} {cells : List (Nat × T)}
    (h : Rep m l cells k) (i : Int) (hi : i < 0 ∨ i ≥ cells.length) :
    get (some l) i m = some (FALSE, none) := by
  obtain ⟨hb, -, -, -, -, -⟩ := h
  simp [get, hb, hi]

section

variable [DecidableEq T]

theorem index_of_loop_found (m : Mem T) (item : T) (pre : List (Nat × T)) (c : Nat × T)
    (post : List (Nat × T)) (p nx : nodePointer) (fuel : Nat) (pos : Int)
    (hs : Seg m.node p (pre ++ c :: post) nx) (hf : pre.length < fuel)
    (hpre : ∀ d ∈ pre, d.2 ≠ item) (hc : c.2 = item) :
    index_of_loop m item fuel (firstOr (pre ++ c :: post) nx) pos
      = some (pos + pre.length) := by
  induction pre generalizing p fuel pos with
  | nil =>
    obtain ⟨f, rfl⟩ : ∃ f, fuel = f + 1 := ⟨fuel - 1, by simp at hf; omega⟩
    simp [index_of_loop, infoOf_some hs.1, hc]
  | cons d ds ih =>
    obtain ⟨f, rfl⟩ : ∃ f, fuel = f + 1 := ⟨fuel - 1, by simp at hf; omega⟩
    rw [List.cons_append] at hs
    obtain ⟨h1, h2⟩ := (Seg_cons _ _ _ _ _).1 hs
    have hd : d.2 ≠ item := hpre d (List.mem_cons_self _ _)
    have := ih (some d.1) f (pos + 1) h2 (by simp at hf; omega)
      (fun e he => hpre e (List.mem_cons_of_mem _ he))
    simp only [List.cons_append, firstOr_cons, index_of_loop, infoOf_some h1, nextOf_some h1,
      Option.bind_eq_bind, Option.some_bind, hd, if_false]
    rw [this]
    simp only [List.length_cons]; push_cast; congr 1; omega

theorem index_of_loop_absent (m : Mem T) (item : T) (cells : List (Nat × T))
    (p : nodePointer) (fuel : Nat) (pos : Int)
    (hs : Seg m.node p cells none) (hf : cells.length < fuel)
    (hne : ∀ d ∈ cells, d.2 ≠ item) :
    index_of_loop m item fuel (firstOr cells none) pos = some (-1) := by
  induction cells generalizing p fuel pos with
  | nil => cases fuel <;> simp [index_of_loop]
  | cons d ds ih =>
    obtain ⟨f, rfl⟩ : ∃ f, fuel = f + 1 := ⟨fuel - 1, by simp at hf; omega⟩
    obtain ⟨h1, h2⟩ := hs
    have hd : d.2 ≠ item := hne d (List.mem_cons_self _ _)
    have := ih (some d.1) f (pos + 1) h2 (by simp at hf; omega)
      (fun e he => hne e (List.mem_cons_of_mem _ he))
    simp only [firstOr_cons, index_of_loop, infoOf_some h1, nextOf_some h1,
      Option.bind_eq_bind, Option.some_bind, hd, if_false]
    exact this

theorem last_index_of_loop_found (m : Mem T) (item : T) (pre : List (Nat × T)) (c : Nat × T)
    (post : List (Nat × T)) (p nx : nodePointer) (fuel : Nat) (pos : Int)
    (hs : Seg m.node p (pre ++ c :: post) nx) (hf : post.length < fuel)
    (hpost : ∀ d ∈ post, d.2 ≠ item) (hc : c.2 = item) :
    last_index_of_loop m item fuel (lastOr (pre ++ c :: post) p) pos
      = some (pos - post.length) := by
  induction post using List.reverseRecOn generalizing nx fuel pos with
  | nil =>
    obtain ⟨f, rfl⟩ : ∃ f, fuel = f + 1 := ⟨fuel - 1, by simp at hf; omega⟩
    simp [last_index_of_loop, infoOf_some (Seg_mid hs), hc]
  | append_singleton ds d ih =>
    obtain ⟨f, rfl⟩ : ∃ f, fuel = f + 1 := ⟨fuel - 1, by simp at hf; omega⟩
    have hs1 : Seg m.node p ((pre ++ c :: ds) ++ [d]) nx := by simpa using hs
    have hd := Seg_mid hs1
    have h2 := ((Seg_append m.node (pre ++ c :: ds) [d] p nx).1 hs1).1
    have hdn : d.2 ≠ item := hpost d (by simp)
    have := ih (firstOr [d] nx) f (pos - 1) h2 (by simp at hf; omega)
      (fun e he => hpost e (by simp [he]))
    have e : lastOr (pre ++ c :: (ds ++ [d])) p = some d.1 := by simp
    rw [e]
    simp only [last_index_of_loop, infoOf_some hd, previousOf_some hd,
      Option.bind_eq_bind, Option.some_bind, hdn, if_false]
    rw [this]
    simp only [List.length_append, List.length_singleton]; push_cast; congr 1; omega

theorem last_index_of_loop_absent (m : Mem T) (item : T) (cells : List (Nat × T))
    (nx : nodePointer) (fuel : Nat) (pos : Int)
    (hs : Seg m.node none cells nx) (hf : cells.length < fuel)
    (hne : ∀ d ∈ cells, d.2 ≠ item) :
    last_index_of_loop m item fuel (lastOr cells none) pos = some (-1) := by
  induction cells using List.reverseRecOn generalizing nx fuel pos with
  | nil => cases fuel <;> simp [last_index_of_loop]
  | append_singleton ds d ih =>
    obtain ⟨f, rfl⟩ : ∃ f, fuel = f + 1 := ⟨fuel - 1, by simp at hf; omega⟩
    have hd := Seg_mid hs
    have h2 := ((Seg_append m.node ds [d] none nx).1 hs).1
    have hdn : d.2 ≠ item := hne d (by simp)
    have := ih (firstOr [d] nx) f (pos - 1) h2 (by simp at hf; omega)
      (fun e he => hne e (by simp [he]))
    have e : lastOr (ds ++ [d]) none = some d.1 := by simp
    rw [e]
    simp only [last_index_of_loop, infoOf_some hd, previousOf_some hd,
      Option.bind_eq_bind, Option.some_bind, hdn, if_false]
    exact this

theorem index_of_found {m : Mem T} {l k : Nat} (item : T) (pre : List (Nat × T)) (c : Nat × T)
    (post : List (Nat × T)) (h : Rep m l (pre ++ c :: post) k)
    (hpre : ∀ d ∈ pre, d.2 ≠ item) (hc : c.2 = item) :
    index_of item (some l) m = some (pre.length : Int) := by
  have hlen := h.length_le
  obtain ⟨hb, -, hs, -, -, -⟩ := h
  simp only [List.length_append, List.length_cons] at hlen
  have h1 := index_of_loop_found m item pre c post none none (m.brk + 1) 0 hs
    (by omega) hpre hc
  have hz : ¬ (((pre ++ c :: post).length : Int) = 0) := by simp; omega
  simp only [index_of, hb, Option.bind_eq_bind, Option.some_bind, hz, if_false, h1]
  simp

theorem index_of_absent {m : Mem T} {l k : Nat} (item : T) (cells : List (Nat × T))
    (h : Rep m l cells k) (hne : ∀ d ∈ cells, d.2 ≠ item) :
    index_of item (some l) m = some (-1) := by
  have hlen := h.length_le
  obtain ⟨hb, -, hs, -, -, -⟩ := h
  have h1 := index_of_loop_absent m item cells none (m.brk + 1) 0 hs (by omega) hne
  simp only [index_of, hb, Option.bind_eq_bind, Option.some_bind, h1]
  simp

theorem last_index_of_found {m : Mem T} {l k : Nat} (item : T) (pre : List (Nat × T))
    (c : Nat × T) (post : List (Nat × T)) (h : Rep m l (pre ++ c :: post) k)
    (hpost : ∀ d ∈ post, d.2 ≠ item) (hc : c.2 = item) :
    last_index_of item (some l) m = some (pre.length : Int) := by
  have hlen := h.length_le
  obtain ⟨hb, -, hs, -, -, -⟩ := h
  simp only [List.length_append, List.length_cons] at hlen
  have h1 := last_index_of_loop_found m item pre c post none none (m.brk + 1)
    (((pre ++ c :: post).length : Int) - 1) hs (by omega) hpost hc
  have hz : ¬ (((pre ++ c :: post).length : Int) = 0) := by simp; omega
  simp only [last_index_of, hb, Option.bind_eq_bind, Option.some_bind, hz, if_false, h1]
  simp only [List.length_append, List.length_cons]; push_cast; congr 1; omega

theorem last_index_of_absent {m : Mem T} {l k : Nat} (item : T) (cells : List (Nat × T))
    (h : Rep m l cells k) (hne : ∀ d ∈ cells, d.2 ≠ item) :
    last_index_of item (some l) m = some (-1) := by
  have hlen := h.length_le
  obtain ⟨hb, -, hs, -, -, -⟩ := h
  have h1 := last_index_of_loop_absent m item cells none (m.brk + 1)
    ((cells.length : Int) - 1) hs (by omega) hne
  simp only [last_index_of, hb, Option.bind_eq_bind, Option.some_bind, h1]
  simp

end

end ListT

namespace ListT

variable {T : Type}

theorem list_nil_or_snoc {α : Type} (xs : List α) :
    xs = [] ∨ ∃ init t, xs = init ++ [t] := by
  rcases List.eq_nil_or_concat xs with h | ⟨i, t, h⟩
  · exact Or.inl h
  · exact Or.inr ⟨i, t, by simpa using h⟩

theorem syncPlus_lt (k : Nat) : syncPlus k < 2 ^ 32 :=
  Nat.mod_lt _ (by norm_num)

/-! ## `add` -/

theorem add_rep {m : Mem T} {l k : Nat} {cells : List (Nat × T)} (x : T)
    (h : Rep m l cells k) :
    ∃ m1, add x (some l) m = some (TRUE, m1)
      ∧ Rep m1 l (cells ++ [(m.brk, x)]) (syncPlus k)
      ∧ m1.brk = m.brk + 1
      ∧ (∀ b, b ≠ l → m1.base b = m.base b)
      ∧ (∀ a, a ≠ m.brk → (∀ c ∈ cells, c.1 ≠ a) → m1.node a = m.node a) := by
  obtain ⟨hb, hk, hs, hn, hlt, hl⟩ := h
  rcases list_nil_or_snoc cells with rfl | ⟨init, t, rfl⟩
  · simp only [add, hb, Mem.malloc, Mem.setNext, Mem.setPrevious, Option.bind_eq_bind,
      Option.some_bind, Function.update_same, List.length_nil, Nat.cast_zero, if_true]
    refine ⟨_, rfl, ⟨?_, syncPlus_lt k, ?_, ?_, ?_, ?_⟩, rfl, ?_, ?_⟩
    · simp [Mem.setBase]
    · simp [Mem.setBase]
    · simp
    · simp [Mem.setBase]
    · simp only [Mem.setBase]; omega
    · intro b hb; simp [Mem.setBase, Function.update_noteq hb]
    · intro a ha _; simp [Mem.setBase, Function.update_noteq ha]
  · have ht := @Seg_mid T m.node init [] t none none hs
    have htb : t.1 < m.brk := hlt t (by simp)
    have hne : t.1 ≠ m.brk := by omega
    have hz : ¬ (((init ++ [t]).length : Int) = 0) := by simp; omega
    simp only [add, hb, Mem.malloc, Mem.setNext, Mem.setPrevious, Option.bind_eq_bind,
      Option.some_bind, Function.update_same, hz, if_false, lastOr_append, lastOr_cons,
      lastOr_nil, Function.update_noteq hne, ht]
    refine ⟨_, rfl, ⟨?_, syncPlus_lt k, ?_, ?_, ?_, ?_⟩, rfl, ?_, ?_⟩
    · simp [Mem.setBase]; omega
    · have h1 := ((Seg_append m.node init [t] none none).1 hs).1
      rw [List.append_assoc, Seg_append]
      refine ⟨Seg_congr ?_ h1, ?_⟩
      · intro c hc
        have hc1 : c.1 < m.brk := hlt c (by simp [hc])
        have hc2 : c.1 ≠ t.1 := by
          intro e
          rw [List.map_append, List.nodup_append] at hn
          exact hn.2.2 (List.mem_map_of_mem _ hc) (by simp [e])
        have hc3 : c.1 ≠ m.brk := by omega
        simp [Mem.setBase, Function.update_noteq hc2, Function.update_noteq hc3]
      · simp [Mem.setBase, Function.update_noteq (Ne.symm hne)]
    · rw [List.map_append, List.nodup_append]
      refine ⟨hn, by simp, ?_⟩
      intro a ha hb
      simp at hb
      obtain ⟨c, hc, rfl⟩ := List.mem_map.1 ha
      have := hlt c hc
      omega
    · intro c hc
      simp only [Mem.setBase]
      rcases List.mem_append.1 hc with hc | hc
      · have := hlt c hc; omega
      · simp at hc; subst hc; simp
    · simp only [Mem.setBase]; omega
    · intro b hb; simp [Mem.setBase, Function.update_noteq hb]
    · intro a ha hc
      have : a ≠ t.1 := fun e => hc t (by simp) e.symm
      simp [Mem.setBase, Function.update_noteq ha, Function.update_noteq this]

/-! ## Observations on a represented list -/

theorem elements_loop_spec (m : Mem T) (cells : List (Nat × T)) (p : nodePointer) (fuel : Nat)
    (hs : Seg m.node p cells none) (hf : cells.length < fuel) :
    elements_loop m fuel (firstOr cells none) = some (cells.map Prod.snd) := by
  induction cells generalizing p fuel with
  | nil => cases fuel <;> simp [elements_loop]
  | cons d ds ih =>
    obtain ⟨f, rfl⟩ : ∃ f, fuel = f + 1 := ⟨fuel - 1, by simp at hf; omega⟩
    obtain ⟨h1, h2⟩ := hs
    have := ih (some d.1) f h2 (by simp at hf; omega)
    simp [elements_loop, infoOf_some h1, nextOf_some h1, this]

theorem Rep.elements {m : Mem T} {l k : Nat} {cells : List (Nat × T)} (h : Rep m l cells k) :
    elements (some l) m = some (cells.map Prod.snd) := by
  have hlen := h.length_le
  obtain ⟨hb, -, hs, -, -, -⟩ := h
  simp [ListT.elements, hb, elements_loop_spec m cells none (m.brk + 1) hs (by omega)]

theorem Rep.size {m : Mem T} {l k : Nat} {cells : List (Nat × T)} (h : Rep m l cells k) :
    size (some l) m = some (cells.length : Int) := by
  obtain ⟨hb, -, -, -, -, -⟩ := h
  simp [ListT.size, hb]

theorem Rep.sync_of {m : Mem T} {l k : Nat} {cells : List (Nat × T)} (h : Rep m l cells k) :
    sync_of (some l) m = some k := by
  obtain ⟨hb, -, -, -, -, -⟩ := h
  simp [ListT.sync_of, hb]

theorem Rep.get_last {m : Mem T} {l k : Nat} {init : List (Nat × T)} {t : Nat × T}
    (h : Rep m l (init ++ [t]) k) : get_last (some l) m = some (TRUE, some t.2) := by
  obtain ⟨hb, -, hs, -, -, -⟩ := h
  have ht := Seg_mid hs
  simp [ListT.get_last, hb, infoOf_some ht]
  omega

end ListT

namespace ListT

variable {T : Type}

/-! ## Distinct addresses -/

theorem nodup_mid {pre post : List (Nat × T)} {c : Nat × T}
    (hn : ((pre ++ c :: post).map Prod.fst).Nodup) :
    (∀ d ∈ pre, d.1 ≠ c.1) ∧ (∀ d ∈ post, d.1 ≠ c.1)
      ∧ ((pre ++ post).map Prod.fst).Nodup := by
  rw [List.map_append, List.map_cons] at hn
  have h1 := List.nodup_middle.1 hn
  rw [List.nodup_cons] at h1
  refine ⟨?_, ?_, by simpa using h1.2⟩
  · intro d hd e
    exact h1.1 (by rw [← e]; exact List.mem_append_left _ (List.mem_map_of_mem _ hd))
  · intro d hd e
    exact h1.1 (by rw [← e]; exact List.mem_append_right _ (List.mem_map_of_mem _ hd))

/-! ## `add_at` -/

theorem add_at_link_spec (m : Mem T) (a : Nat) (x : T) (pre : List (Nat × T)) (b c : Nat × T)
    (post : List (Nat × T)) (hs : Seg m.node none (pre ++ b :: c :: post) none)
    (ha : m.node a = some ⟨none, x, none⟩)
    (hfresh : ∀ d ∈ pre ++ b :: c :: post, d.1 ≠ a)
    (hn : ((pre ++ b :: c :: post).map Prod.fst).Nodup) :
    ∃ m1, add_at_link m (some a) (some c.1) = some m1
      ∧ Seg m1.node none (pre ++ b :: (a, x) :: c :: post) none
      ∧ m1.base = m.base ∧ m1.brk = m.brk
      ∧ (∀ e, e ≠ a → (∀ d ∈ pre ++ b :: c :: post, d.1 ≠ e) → m1.node e = m.node e) := by
  have hb := Seg_mid hs
  have hs1 : Seg m.node none ((pre ++ [b]) ++ c :: post) none := by simpa using hs
  have hc := Seg_mid hs1
  have hn1 : (((pre ++ [b]) ++ c :: post).map Prod.fst).Nodup := by simpa using hn
  obtain ⟨n1, n2, -⟩ := nodup_mid hn
  obtain ⟨n3, n4, -⟩ := nodup_mid hn1
  have hba : b.1 ≠ a := hfresh b (by simp)
  have hca : c.1 ≠ a := hfresh c (by simp)
  have hbc : b.1 ≠ c.1 := n3 b (by simp)
  simp only [lastOr_append, lastOr_cons, lastOr_nil, firstOr_cons] at hb hc
  simp only [add_at_link, Mem.previousOf, Mem.nextOf, Mem.deref, Mem.setPrevious, Mem.setNext,
    Option.bind_eq_bind, Option.some_bind, Option.map_some', Function.update_same,
    Function.update_noteq hba, Function.update_noteq hca, Function.update_noteq hbc.symm,
    Function.update_noteq hbc, Function.update_noteq hba.symm, Function.update_noteq hca.symm,
    ha, hb, hc]
  have h1 := ((Seg_append m.node pre (b :: c :: post) none none).1 hs).1
  have h2 := ((Seg_append m.node (pre ++ [b]) (c :: post) none none).1 hs1).2.2
  refine ⟨_, rfl, ?_, rfl, rfl, ?_⟩
  · rw [Seg_append]
    refine ⟨Seg_congr ?_ h1, ?_, ?_, ?_, Seg_congr ?_ h2⟩
    · intro d hd
      have e1 : d.1 ≠ a := hfresh d (by simp [hd])
      have e2 : d.1 ≠ b.1 := n1 d hd
      have e3 : d.1 ≠ c.1 := n3 d (by simp [hd])
      simp [Function.update_noteq e1, Function.update_noteq e2, Function.update_noteq e3]
    · simp [Function.update_noteq hba, Function.update_noteq hbc]
    · simp [Function.update_noteq hca.symm]
    · simp
    · intro d hd
      have e1 : d.1 ≠ a := hfresh d (by simp [hd])
      have e2 : d.1 ≠ b.1 := n2 d (by simp [hd])
      have e3 : d.1 ≠ c.1 := n4 d hd
      simp [Function.update_noteq e1, Function.update_noteq e2, Function.update_noteq e3]
  · intro e he hd
    have e2 : e ≠ b.1 := fun h => hd b (by simp) h.symm
    have e3 : e ≠ c.1 := fun h => hd c (by simp) h.symm
    simp [Function.update_noteq he, Function.update_noteq e2, Function.update_noteq e3]

theorem add_at_rep {m : Mem T} {l k : Nat} (x : T) (pre : List (Nat × T)) (b c : Nat × T)
    (post : List (Nat × T)) (h : Rep m l (pre ++ b :: c :: post) k) :
    ∃ m1, add_at x (some l) ((pre.length : Int) + 1) m = some (TRUE, m1)
      ∧ Rep m1 l (pre ++ b :: (m.brk, x) :: c :: post) (syncPlus k) := by
  have hlen := h.length_le
  obtain ⟨hb, hk, hs, hn, hlt, hl⟩ := h
  simp only [List.length_append, List.length_cons] at hlen
  have hfresh : ∀ d ∈ pre ++ b :: c :: post, d.1 ≠ m.brk := fun d hd => by
    have := hlt d hd; omega
  have hs0 : Seg (Function.update m.node m.brk (some ⟨none, x, none⟩)) none
      (pre ++ b :: c :: post) none :=
    Seg_congr (fun d hd => Function.update_noteq (hfresh d hd) _ _) hs
  have hs1 : Seg (Mem.mk (Function.update m.node m.brk (some ⟨none, x, none⟩)) m.base
      (m.brk + 1)).node none ((pre ++ [b]) ++ c :: post) none := by simpa using hs0
  have h1 := seekNext_spec _ ((pre.length : Int) + 1) (pre ++ [b]) c post none none
    (m.brk + 1 + 1) 0 hs1 (by simp; omega) (by simp)
  have h2 := seekBack_spec _ ((pre.length : Int) + 1) (pre ++ [b]) c post none none
    (m.brk + 1 + 1) (((pre ++ b :: c :: post).length : Int) - 1) hs1 (by omega)
    (by simp only [List.length_append, List.length_cons]; push_cast; omega)
  obtain ⟨m2, e2, hs2, hb2, hk2, -⟩ := add_at_link_spec
    (Mem.mk (Function.update m.node m.brk (some ⟨none, x, none⟩)) m.base (m.brk + 1))
    m.brk x pre b c post hs0 (Function.update_same _ _ _) hfresh hn
  have hr : ¬ (((pre ++ b :: c :: post).length : Int) = 0 ∨ (pre.length : Int) + 1 < 0
      ∨ (pre.length : Int) + 1 ≥ ((pre ++ b :: c :: post).length : Int)) := by
    simp only [List.length_append, List.length_cons]; push_cast; omega
  have hz : ¬ ((pre.length : Int) + 1 = 0) := by omega
  simp only [List.append_assoc, List.singleton_append] at h1 h2
  simp only [add_at, hb, Option.bind_eq_bind, Option.some_bind, hr, hz, if_false, Mem.malloc,
    h1, h2, ite_self, e2, reduceCtorEq]
  refine ⟨_, rfl, ?_, syncPlus_lt k, ?_, ?_, ?_, ?_⟩
  · simp [Mem.setBase]; omega
  · simpa [Mem.setBase] using hs2
  · have e : pre ++ b :: (m.brk, x) :: c :: post = (pre ++ [b]) ++ (m.brk, x) :: (c :: post) := by
      simp
    rw [e, List.map_append, List.map_cons]
    apply List.nodup_middle.2
    rw [List.nodup_cons]
    refine ⟨?_, by simpa using hn⟩
    intro hm
    rw [← List.map_append] at hm
    obtain ⟨d, hd, e1⟩ := List.mem_map.1 hm
    exact hfresh d (by simpa using hd) e1
  · intro d hd
    simp only [Mem.setBase, hk2]
    have : d = (m.brk, x) ∨ d ∈ pre ++ b :: c :: post := by
      simp only [List.mem_append, List.mem_cons] at hd ⊢; tauto
    rcases this with rfl | hd
    · simp
    · have := hlt d hd; omega
  · simp only [Mem.setBase, hk2]; omega

end ListT

namespace ListT

variable {T : Type}

/-! ## Unlinking a node -/

theorem free_some {m : Mem T} {a : Nat} {n : listNode T} (h : m.node a = some n) :
    m.free (some a) = some ⟨Function.update m.node a none, m.base, m.brk⟩ := by
  simp [Mem.free, h]

theorem unlink_spec (m : Mem T) (pre : List (Nat × T)) (b c d : Nat × T)
    (post : List (Nat × T)) (hs : Seg m.node none (pre ++ b :: c :: d :: post) none)
    (hn : ((pre ++ b :: c :: d :: post).map Prod.fst).Nodup) :
    ∃ m1, unlink m (some c.1) = some m1
      ∧ Seg (Function.update m1.node c.1 none) none (pre ++ b :: d :: post) none
      ∧ m1.node c.1 = some ⟨some b.1, c.2, some d.1⟩
      ∧ m1.base = m.base ∧ m1.brk = m.brk
      ∧ (∀ e, (∀ x ∈ pre ++ b :: c :: d :: post, x.1 ≠ e) → m1.node e = m.node e) := by
  have hb := Seg_mid hs
  have hs1 : Seg m.node none ((pre ++ [b]) ++ c :: d :: post) none := by simpa using hs
  have hc := Seg_mid hs1
  have hs2 : Seg m.node none ((pre ++ [b, c]) ++ d :: post) none := by simpa using hs
  have hd := Seg_mid hs2
  have hn1 : (((pre ++ [b]) ++ c :: d :: post).map Prod.fst).Nodup := by simpa using hn
  have hn2 : (((pre ++ [b, c]) ++ d :: post).map Prod.fst).Nodup := by simpa using hn
  obtain ⟨n1, n2, -⟩ := nodup_mid hn
  obtain ⟨n3, n4, -⟩ := nodup_mid hn1
  obtain ⟨n5, n6, -⟩ := nodup_mid hn2
  have hbc : b.1 ≠ c.1 := n3 b (by simp)
  have hbd : b.1 ≠ d.1 := n5 b (by simp)
  have hcd : c.1 ≠ d.1 := n5 c (by simp)
  simp only [lastOr_append, lastOr_cons, lastOr_nil, firstOr_cons] at hb hc hd
  simp only [unlink, Mem.previousOf, Mem.nextOf, Mem.deref, Mem.setPrevious, Mem.setNext,
    Option.bind_eq_bind, Option.some_bind, Option.map_some', Function.update_same,
    Function.update_noteq hbc, Function.update_noteq hbd, Function.update_noteq hcd,
    Function.update_noteq hbc.symm, Function.update_noteq hbd.symm,
    Function.update_noteq hcd.symm, hb, hc, hd]
  have h1 := ((Seg_append m.node pre (b :: c :: d :: post) none none).1 hs).1
  have h2 := ((Seg_append m.node (pre ++ [b, c]) (d :: post) none none).1 hs2).2.2
  refine ⟨_, rfl, ?_, ?_, rfl, rfl, ?_⟩
  · rw [Seg_append]
    refine ⟨Seg_congr ?_ h1, ?_, ?_, Seg_congr ?_ h2⟩
    · intro x hx
      have e1 : x.1 ≠ b.1 := n1 x hx
      have e2 : x.1 ≠ c.1 := n3 x (by simp [hx])
      have e3 : x.1 ≠ d.1 := n5 x (by simp [hx])
      simp [Function.update_noteq e1, Function.update_noteq e2, Function.update_noteq e3]
    · simp [Function.update_noteq hbc, Function.update_noteq hbd]
    · simp [Function.update_noteq hcd.symm]
    · intro x hx
      have e1 : x.1 ≠ b.1 := n2 x (by simp [hx])
      have e2 : x.1 ≠ c.1 := n4 x (by simp [hx])
      have e3 : x.1 ≠ d.1 := n6 x hx
      simp [Function.update_noteq e1, Function.update_noteq e2, Function.update_noteq e3]
  · simp [Function.update_noteq hcd, Function.update_noteq hbc.symm, hc]
  · intro e he
    have e1 : e ≠ b.1 := fun h => he b (by simp) h.symm
    have e2 : e ≠ c.1 := fun h => he c (by simp) h.symm
    have e3 : e ≠ d.1 := fun h => he d (by simp) h.symm
    simp [Function.update_noteq e1, Function.update_noteq e2, Function.update_noteq e3]

/-! ## `remove_at` -/

theorem remove_at_rep {m : Mem T} {l k : Nat} (pre : List (Nat × T)) (c : Nat × T)
    (post : List (Nat × T)) (h : Rep m l (pre ++ c :: post) k) :
    ∃ m1, remove_at (some l) (pre.length : Int) m = some (TRUE, m1)
      ∧ Rep m1 l (pre ++ post) (syncPlus k) := by
  have hlen := h.length_le
  obtain ⟨hb, hk, hs, hn, hlt, hl⟩ := h
  have hc := Seg_mid hs
  obtain ⟨n1, n2, n3⟩ := nodup_mid hn
  have hlt1 : ∀ d ∈ pre ++ post, d.1 < m.brk := fun d hd => hlt d (by
    simp only [List.mem_append, List.mem_cons] at hd ⊢; tauto)
  obtain ⟨N, hN⟩ : ∃ N : Int, N = ((pre ++ c :: post).length : Int) := ⟨_, rfl⟩
  obtain ⟨I, hI⟩ : ∃ I : Int, I = (pre.length : Int) := ⟨_, rfl⟩
  rw [← hN] at hb
  rw [← hI]
  have hN1 : N - 1 = ((pre ++ post).length : Int) := by
    simp only [List.length_append, List.length_cons] at hN ⊢; push_cast at hN ⊢; omega
  simp only [List.length_append, List.length_cons] at hN hlen
  push_cast at hN
  have c1 : (N = 0) ↔ False := iff_false_intro (by omega)
  have c2 : (I < 0 ∨ I ≥ N) ↔ False := iff_false_intro (by omega)
  rcases list_nil_or_snoc pre with rfl | ⟨pre1, b, rfl⟩
  · simp only [List.length_nil, Nat.cast_zero] at hI hN
    cases post with
    | nil =>
      simp only [List.length_nil, Nat.cast_zero] at hN
      have c3 : (I = 0 ∧ N = 1) ↔ True := iff_true_intro (by omega)
      simp only [List.nil_append, firstOr_cons, lastOr_cons, lastOr_nil] at hb ⊢
      simp only [remove_at, hb, Option.bind_eq_bind, Option.some_bind, free_some hc, c1, c2, c3,
        if_false, if_true, and_self]
      refine ⟨_, rfl, ?_, syncPlus_lt k, ?_, ?_, ?_, ?_⟩
      · simp [Mem.setBase]
      · simp
      · simp
      · simp
      · simpa [Mem.setBase] using hl
    | cons d post1 =>
      simp only [List.length_cons] at hN
      push_cast at hN
      have c3 : (I = 0 ∧ N = 1) ↔ False := iff_false_intro (by omega)
      have c4 : (I = 0 ∧ N > 1) ↔ True := iff_true_intro (by omega)
      have hs1 : Seg m.node none ([c] ++ d :: post1) none := by simpa using hs
      have hd := Seg_mid hs1
      have hcd : c.1 ≠ d.1 := (n2 d (by simp)).symm
      simp only [List.nil_append, firstOr_cons, lastOr_cons, lastOr_nil] at hb hc hd ⊢
      simp only [remove_at, hb, Option.bind_eq_bind, Option.some_bind, c1, c2, c3, c4,
        if_false, if_true, and_self, nextOf_some hc, Mem.setPrevious, hd, Mem.free,
        Function.update_noteq hcd, hc]
      refine ⟨_, rfl, ?_, syncPlus_lt k, ?_, ?_, ?_, ?_⟩
      · simp [Mem.setBase]; omega
      · refine ⟨?_, Seg_congr ?_ hs1.2.2⟩
        · simp [Mem.setBase, Function.update_noteq hcd.symm]
        · intro e he
          have e1 : e.1 ≠ c.1 := n2 e (by simp [he])
          have e2 : e.1 ≠ d.1 := by
            have := (List.nodup_cons.1 (by simpa using n3 : ((d :: post1).map Prod.fst).Nodup)).1
            intro h
            exact this (by rw [← h]; exact List.mem_map_of_mem _ he)
          simp [Mem.setBase, Function.update_noteq e1, Function.update_noteq e2]
      · simpa using n3
      · simpa [Mem.setBase] using hlt1
      · simpa [Mem.setBase] using hl
  · simp only [List.length_append, List.length_singleton] at hI hN hlen
    push_cast at hI hN
    have c3 : (I = 0 ∧ N = 1) ↔ False := iff_false_intro (by omega)
    have c4 : (I = 0 ∧ N > 1) ↔ False := iff_false_intro (by omega)
    have hs0 : Seg m.node none (pre1 ++ b :: c :: post) none := by simpa using hs
    have hn0 : ((pre1 ++ b :: c :: post).map Prod.fst).Nodup := by simpa using hn
    have hbn := Seg_mid hs0
    have hbc : b.1 ≠ c.1 := n1 b (by simp)
    cases post with
    | nil =>
      simp only [List.length_nil, Nat.cast_zero] at hN
      have c5 : (I = N - 1) ↔ True := iff_true_intro (by omega)
      simp only [lastOr_append, firstOr_cons, lastOr_cons, lastOr_nil, firstOr_nil] at hb hc hbn
      simp only [remove_at, hb, Option.bind_eq_bind, Option.some_bind, c1, c2, c3, c4, c5,
        if_false, if_true, previousOf_some hc, Mem.setNext, hbn, Mem.free,
        Function.update_noteq hbc.symm, hc]
      have h1 := ((Seg_append m.node pre1 [b, c] none none).1 hs0).1
      refine ⟨_, rfl, ?_, syncPlus_lt k, ?_, ?_, ?_, ?_⟩
      · simp [Mem.setBase]; omega
      · rw [List.append_nil, Seg_append]
        refine ⟨Seg_congr ?_ h1, ?_, trivial⟩
        · intro e he
          have e1 : e.1 ≠ c.1 := n1 e (by simp [he])
          have e2 : e.1 ≠ b.1 := (nodup_mid hn0).1 e he
          simp [Mem.setBase, Function.update_noteq e1, Function.update_noteq e2]
        · simp [Mem.setBase, Function.update_noteq hbc]
      · simpa using n3
      · simpa [Mem.setBase] using hlt1
      · simpa [Mem.setBase] using hl
    | cons d post1 =>
      simp only [List.length_cons] at hN hlen
      push_cast at hN
      have c5 : (I = N - 1) ↔ False := iff_false_intro (by omega)
      have h1 := seekNext_spec m I (pre1 ++ [b]) c (d :: post1) none none (m.brk + 1) 0 hs
        (by simp; omega) (by simp; omega)
      have h2 := seekBack_spec m I (pre1 ++ [b]) c (d :: post1) none none (m.brk + 1)
        (N - 1) hs (by simp; omega) (by simp; omega)
      obtain ⟨m1, e1, hs1, hc1, hb1, hk1, -⟩ := unlink_spec m pre1 b c d post1 hs0 hn0
      simp only [remove_at, hb, Option.bind_eq_bind, Option.some_bind, c1, c2, c3, c4, c5,
        if_false, h1, h2, ite_self, reduceCtorEq, e1, free_some hc1]
      refine ⟨_, rfl, ?_, syncPlus_lt k, ?_, ?_, ?_, ?_⟩
      · simp [Mem.setBase, hb1]; omega
      · simpa [Mem.setBase] using hs1
      · simpa using n3
      · simpa [Mem.setBase, hk1] using hlt1
      · simpa [Mem.setBase, hk1] using hl

end ListT

namespace ListT

variable {T : Type}

theorem remove_at_out_of_range {m : Mem T} {l k : Nat} {cells : List (Nat × T)}
    (h : Rep m l cells k) (i : Int) (hi : i < 0 ∨ i ≥ cells.length) :
    remove_at (some l) i m = some (FALSE, m) := by
  obtain ⟨hb, -, -, -, -, -⟩ := h
  simp only [remove_at, hb, Option.bind_eq_bind, Option.some_bind, hi, if_true, ite_self]

/-! ## `remove_item` -/

section

variable [DecidableEq T]

theorem remove_item_loop_found (m : Mem T) (item : T) (pre : List (Nat × T)) (c : Nat × T)
    (post : List (Nat × T)) (p nx : nodePointer) (fuel : Nat)
    (hs : Seg m.node p (pre ++ c :: post) nx) (hf : pre.length < fuel)
    (hpre : ∀ d ∈ pre, d.2 ≠ item) (hc : c.2 = item) :
    remove_item_loop m item fuel (firstOr (pre ++ c :: post) nx) = some (some c.1) := by
  induction pre generalizing p fuel with
  | nil =>
    obtain ⟨f, rfl⟩ : ∃ f, fuel = f + 1 := ⟨fuel - 1, by simp at hf; omega⟩
    simp [remove_item_loop, infoOf_some hs.1, hc]
  | cons d ds ih =>
    obtain ⟨f, rfl⟩ : ∃ f, fuel = f + 1 := ⟨fuel - 1, by simp at hf; omega⟩
    rw [List.cons_append] at hs
    obtain ⟨h1, h2⟩ := (Seg_cons _ _ _ _ _).1 hs
    have hd : d.2 ≠ item := hpre d (List.mem_cons_self _ _)
    have := ih (some d.1) f h2 (by simp at hf; omega)
      (fun e he => hpre e (List.mem_cons_of_mem _ he))
    simp only [List.cons_append, firstOr_cons, remove_item_loop, infoOf_some h1, nextOf_some h1,
      Option.bind_eq_bind, Option.some_bind, hd, if_false]
    exact this

theorem remove_item_loop_absent (m : Mem T) (item : T) (cells : List (Nat × T))
    (p : nodePointer) (fuel : Nat)
    (hs : Seg m.node p cells none) (hf : cells.length < fuel)
    (hne : ∀ d ∈ cells, d.2 ≠ item) :
    remove_item_loop m item fuel (firstOr cells none) = some none := by
  induction cells generalizing p fuel with
  | nil => cases fuel <;> simp [remove_item_loop]
  | cons d ds ih =>
    obtain ⟨f, rfl⟩ : ∃ f, fuel = f + 1 := ⟨fuel - 1, by simp at hf; omega⟩
    obtain ⟨h1, h2⟩ := hs
    have hd : d.2 ≠ item := hne d (List.mem_cons_self _ _)
    have := ih (some d.1) f h2 (by simp at hf; omega)
      (fun e he => hne e (List.mem_cons_of_mem _ he))
    simp only [firstOr_cons, remove_item_loop, infoOf_some h1, nextOf_some h1,
      Option.bind_eq_bind, Option.some_bind, hd, if_false]
    exact this

theorem remove_item_absent {m : Mem T} {l k : Nat} {cells : List (Nat × T)} (item : T)
    (h : Rep m l cells k) (hne : ∀ d ∈ cells, d.2 ≠ item) :
    remove_item item (some l) m = some (FALSE, m) := by
  have hlen := h.length_le
  obtain ⟨hb, -, hs, -, -, -⟩ := h
  have h1 := remove_item_loop_absent m item cells none (m.brk + 1) hs (by omega) hne
  cases cells with
  | nil => simp [remove_item, hb]
  | cons c post =>
    have hc : m.node c.1 = some ⟨none, c.2, firstOr post none⟩ := hs.1
    have hci : c.2 ≠ item := hne c (by simp)
    simp only [firstOr_cons] at h1
    simp only [remove_item, hb, Option.bind_eq_bind, Option.some_bind, h1, firstOr_cons,
      infoOf_some hc, hci, if_false, if_true, ite_self]

theorem remove_item_rep {m : Mem T} {l k : Nat} (item : T) (pre : List (Nat × T))
    (c : Nat × T) (post : List (Nat × T)) (h : Rep m l (pre ++ c :: post) k)
    (hpre : ∀ d ∈ pre, d.2 ≠ item) (hci : c.2 = item) :
    ∃ m1, remove_item item (some l) m = some (TRUE, m1)
      ∧ Rep m1 l (pre ++ post) (syncPlus k) := by
  have hlen := h.length_le
  obtain ⟨hb, hk, hs, hn, hlt, hl⟩ := h
  have hc := Seg_mid hs
  obtain ⟨n1, n2, n3⟩ := nodup_mid hn
  have hlt1 : ∀ d ∈ pre ++ post, d.1 < m.brk := fun d hd => hlt d (by
    simp only [List.mem_append, List.mem_cons] at hd ⊢; tauto)
  have h1 := remove_item_loop_found m item pre c post none none (m.brk + 1) hs
    (by simp at hlen; omega) hpre hci
  obtain ⟨N, hN⟩ : ∃ N : Int, N = ((pre ++ c :: post).length : Int) := ⟨_, rfl⟩
  rw [← hN] at hb
  simp only [List.length_append, List.length_cons] at hN hlen
  push_cast at hN
  have c1 : (N = 0) ↔ False := iff_false_intro (by omega)
  rcases list_nil_or_snoc pre with rfl | ⟨pre1, b, rfl⟩
  · simp only [List.length_nil, Nat.cast_zero] at hN
    cases post with
    | nil =>
      simp only [List.length_nil, Nat.cast_zero] at hN
      have c3 : (N = 1) ↔ True := iff_true_intro (by omega)
      simp only [List.nil_append, firstOr_cons, lastOr_cons, lastOr_nil] at hb ⊢
      simp only [remove_item, hb, Option.bind_eq_bind, Option.some_bind, free_some hc, c1, c3,
        if_false, if_true, infoOf_some hc, hci]
      refine ⟨_, rfl, ?_, syncPlus_lt k, ?_, ?_, ?_, ?_⟩
      · simp [Mem.setBase]
      · simp
      · simp
      · simp
      · simpa [Mem.setBase] using hl
    | cons d post1 =>
      simp only [List.length_cons] at hN
      push_cast at hN
      have c3 : (N = 1) ↔ False := iff_false_intro (by omega)
      have hs1 : Seg m.node none ([c] ++ d :: post1) none := by simpa using hs
      have hd := Seg_mid hs1
      have hcd : c.1 ≠ d.1 := (n2 d (by simp)).symm
      simp only [List.nil_append, firstOr_cons, lastOr_cons, lastOr_nil] at hb hc hd h1 ⊢
      simp only [remove_item, remove_item_found, hb, Option.bind_eq_bind, Option.some_bind,
        c1, c3, if_false, if_true, h1, reduceCtorEq, Mem.previousOf, Mem.nextOf, Mem.deref,
        Option.map_some', Mem.setPrevious, hd, Mem.free, Mem.setBase, Function.update_same,
        Function.update_noteq hcd, hc]
      refine ⟨_, rfl, ?_, syncPlus_lt k, ?_, ?_, ?_, ?_⟩
      · simp; omega
      · refine ⟨?_, Seg_congr ?_ hs1.2.2⟩
        · simp [Function.update_noteq hcd.symm]
        · intro e he
          have e1 : e.1 ≠ c.1 := n2 e (by simp [he])
          have e2 : e.1 ≠ d.1 := by
            have := (List.nodup_cons.1 (by simpa using n3 : ((d :: post1).map Prod.fst).Nodup)).1
            intro h
            exact this (by rw [← h]; exact List.mem_map_of_mem _ he)
          simp [Function.update_noteq e1, Function.update_noteq e2]
      · simpa using n3
      · simpa using hlt1
      · simpa using hl
  · simp only [List.length_append, List.length_singleton] at hN hlen
    push_cast at hN
    have c3 : (N = 1) ↔ False := iff_false_intro (by omega)
    have hs0 : Seg m.node none (pre1 ++ b :: c :: post) none := by simpa using hs
    have hn0 : ((pre1 ++ b :: c :: post).map Prod.fst).Nodup := by simpa using hn
    have hbn := Seg_mid hs0
    have hbc : b.1 ≠ c.1 := n1 b (by simp)
    cases post with
    | nil =>
      simp only [List.length_nil, Nat.cast_zero] at hN
      simp only [lastOr_append, firstOr_cons, lastOr_cons, lastOr_nil, firstOr_nil] at hc hbn
      simp only [remove_item, remove_item_found, hb, Option.bind_eq_bind, Option.some_bind,
        c1, c3, if_false, if_true, h1, reduceCtorEq, Mem.previousOf, Mem.nextOf, Mem.deref,
        Option.map_some', Mem.setNext, hbn, Mem.free, Mem.setBase, Function.update_same,
        Function.update_noteq hbc.symm, hc]
      have h2 := ((Seg_append m.node pre1 [b, c] none none).1 hs0).1
      refine ⟨_, rfl, ?_, syncPlus_lt k, ?_, ?_, ?_, ?_⟩
      · simp; omega
      · rw [List.append_nil, Seg_append]
        refine ⟨Seg_congr ?_ h2, ?_, trivial⟩
        · intro e he
          have e1 : e.1 ≠ c.1 := n1 e (by simp [he])
          have e2 : e.1 ≠ b.1 := (nodup_mid hn0).1 e he
          simp [Function.update_noteq e1, Function.update_noteq e2]
        · simp [Function.update_noteq hbc]
      · simpa using n3
      · simpa using hlt1
      · simpa using hl
    | cons d post1 =>
      simp only [List.length_cons] at hN hlen
      push_cast at hN
      obtain ⟨m1, e1, hs1, hc1, hb1, hk1, -⟩ := unlink_spec m pre1 b c d post1 hs0 hn0
      simp only [lastOr_append, firstOr_cons, lastOr_cons, lastOr_nil, firstOr_nil] at hc
      simp only [remove_item, remove_item_found, hb, Option.bind_eq_bind, Option.some_bind,
        c1, c3, if_false, h1, reduceCtorEq, previousOf_some hc, nextOf_some hc, e1,
        free_some hc1, Mem.setBase, hb1]
      refine ⟨_, rfl, ?_, syncPlus_lt k, ?_, ?_, ?_, ?_⟩
      · simp; omega
      · simpa using hs1
      · simpa using n3
      · simpa [hk1] using hlt1
      · simpa [hk1] using hl

end

end ListT

namespace ListT

variable {T : Type}

/-! ## `clear` -/

theorem clear_loop_spec (ds : List (Nat × T)) :
    ∀ (m : Mem T) (c d : Nat × T) (nc : listNode T) (fuel : Nat),
      Seg m.node (some c.1) (d :: ds) none → m.node c.1 = some nc →
      ((c :: d :: ds).map Prod.fst).Nodup → ds.length < fuel →
      ∃ m1, clear_loop fuel m (some d.1) = some m1 ∧ m1.base = m.base ∧ m1.brk = m.brk
        ∧ (∀ a, (∀ x ∈ c :: d :: ds, x.1 ≠ a) → m1.node a = m.node a) := by
  induction ds with
  | nil =>
    intro m c d nc fuel hs hc hn hf
    obtain ⟨f, rfl⟩ : ∃ f, fuel = f + 1 := ⟨fuel - 1, by omega⟩
    have hd : m.node d.1 = some ⟨some c.1, d.2, none⟩ := hs.1
    have hcd : d.1 ≠ c.1 := by
      intro e
      simp [e] at hn
    simp only [clear_loop, Mem.previousOf, Mem.nextOf, Mem.deref, Option.bind_eq_bind,
      Option.some_bind, Option.map_some', hd, Mem.free, hc, Function.update_noteq hcd, if_true]
    refine ⟨_, rfl, rfl, rfl, ?_⟩
    intro a ha
    have e1 : a ≠ c.1 := fun h => ha c (by simp) h.symm
    have e2 : a ≠ d.1 := fun h => ha d (by simp) h.symm
    simp [Function.update_noteq e1, Function.update_noteq e2]
  | cons e es ih =>
    intro m c d nc fuel hs hc hn hf
    obtain ⟨f, rfl⟩ : ∃ f, fuel = f + 1 := ⟨fuel - 1, by omega⟩
    have hd : m.node d.1 = some ⟨some c.1, d.2, some e.1⟩ := hs.1
    have hn1 := List.nodup_cons.1 hn
    have hcd : d.1 ≠ c.1 := by
      intro h
      exact hn1.1 (by simp [h])
    have hs1 : Seg (Function.update m.node c.1 none) (some d.1) (e :: es) none := by
      refine Seg_congr ?_ hs.2
      intro x hx
      have : x.1 ≠ c.1 := by
        intro h
        exact hn1.1 (by
          rw [← h]
          exact List.mem_map_of_mem _ (List.mem_cons_of_mem _ hx))
      simp [Function.update_noteq this]
    obtain ⟨m1, e1, hb1, hk1, hf1⟩ := ih ⟨Function.update m.node c.1 none, m.base, m.brk⟩ d e
      ⟨some c.1, d.2, some e.1⟩ f hs1 (by simp [Function.update_noteq hcd, hd]) hn1.2
      (by simp at hf; omega)
    simp only [clear_loop, Mem.previousOf, Mem.nextOf, Mem.deref, Option.bind_eq_bind,
      Option.some_bind, Option.map_some', hd, Mem.free, hc, Function.update_noteq hcd,
      reduceCtorEq, if_false, e1]
    refine ⟨_, rfl, hb1, hk1, ?_⟩
    intro a ha
    have e2 : a ≠ c.1 := fun h => ha c (by simp) h.symm
    rw [hf1 a (fun x hx => ha x (List.mem_cons_of_mem _ hx))]
    simp [Function.update_noteq e2]

theorem clear_rep {m : Mem T} {l k : Nat} {cells : List (Nat × T)} (h : Rep m l cells k) :
    ∃ m1, clear (some l) m = some (TRUE, m1)
      ∧ Rep m1 l [] (if cells.length = 0 then k else syncPlus k) ∧ m1.brk = m.brk := by
  have hlen := h.length_le
  obtain ⟨hb, hk, hs, hn, hlt, hl⟩ := h
  cases cells with
  | nil =>
    simp only [clear, hb, Option.bind_eq_bind, Option.some_bind, List.length_nil, Nat.cast_zero,
      if_true]
    exact ⟨_, rfl, ⟨hb, hk, hs, hn, hlt, hl⟩, rfl⟩
  | cons c rest =>
    have hc : m.node c.1 = some ⟨none, c.2, firstOr rest none⟩ := hs.1
    obtain ⟨N, hN⟩ : ∃ N : Int, N = ((c :: rest).length : Int) := ⟨_, rfl⟩
    rw [← hN] at hb
    simp only [List.length_cons] at hN hlen
    push_cast at hN
    have c1 : (N = 0) ↔ False := iff_false_intro (by omega)
    cases rest with
    | nil =>
      simp only [List.length_nil, Nat.cast_zero] at hN
      have c2 : (N = 1) ↔ True := iff_true_intro (by omega)
      simp only [firstOr_cons] at hb
      simp only [clear, hb, Option.bind_eq_bind, Option.some_bind, c1, c2, if_false, if_true,
        free_some hc, reduceCtorEq]
      refine ⟨_, rfl, ⟨?_, syncPlus_lt k, trivial, ?_, ?_, ?_⟩, rfl⟩
      · simp [Mem.setBase]
      · simp
      · simp
      · simpa [Mem.setBase] using hl
    | cons d ds =>
      simp only [List.length_cons] at hN hlen
      push_cast at hN
      have c2 : (N = 1) ↔ False := iff_false_intro (by omega)
      obtain ⟨m1, e1, hb1, hk1, -⟩ := clear_loop_spec ds m c d _ (m.brk + 1) hs.2 hc hn
        (by omega)
      simp only [firstOr_cons] at hb hc
      simp only [clear, hb, Option.bind_eq_bind, Option.some_bind, c1, c2, if_false,
        nextOf_some hc, e1, reduceCtorEq]
      refine ⟨_, rfl, ⟨?_, syncPlus_lt k, trivial, ?_, ?_, ?_⟩, ?_⟩
      · simp [Mem.setBase]
      · simp
      · simp
      · simpa [Mem.setBase, hk1] using hl
      · simpa [Mem.setBase] using hk1

end ListT

namespace ListT

variable {T : Type}

/-! ## `remove_all_items` -/

theorem syncPlus_eq (k : Nat) : syncPlus k = (k + 1) % 2 ^ 32 := rfl

section

variable [DecidableEq T]

theorem remove_all_items_loop_spec (item : T) (l : Nat) (rem : List (Nat × T)) :
    ∀ (m : Mem T) (kept : List (Nat × T)) (k : Nat) (total : Int) (fuel : Nat)
      (ret : Int) (K : Nat) (X : List (Nat × T)) (B : Nat),
      Rep m l (kept ++ rem) k → (∀ d ∈ kept, d.2 ≠ item) → 0 ≤ total → rem.length < fuel →
      ret = (if total + (rem.countP (fun d => decide (d.2 = item)) : Nat) = 0 then -1
              else total + (rem.countP (fun d => decide (d.2 = item)) : Nat)) →
      K = (k + rem.countP (fun d => decide (d.2 = item))) % 2 ^ 32 →
      X = kept ++ rem.filter (fun d => decide (d.2 ≠ item)) →
      B = m.brk →
      ∃ m1, remove_all_items_loop item l fuel m (firstOr rem none) total = some (ret, m1)
        ∧ Rep m1 l X K ∧ m1.brk = B := by
  induction rem with
  | nil =>
    intro m kept k total fuel ret K X B h hkept ht hf hret hK hX hB
    subst hret hK hX hB
    have hk := h.2.1
    refine ⟨m, ?_, ?_, rfl⟩
    · cases fuel <;> simp [remove_all_items_loop]
    · simp only [List.countP_nil, List.filter_nil, List.append_nil, Nat.add_zero,
        Nat.mod_eq_of_lt hk]
      simpa using h
  | cons c rest ih =>
    intro m kept k total fuel ret K X B h hkept ht hf hret hK hX hB
    obtain ⟨f, rfl⟩ : ∃ f, fuel = f + 1 := ⟨fuel - 1, by simp at hf; omega⟩
    have hc := Seg_mid h.2.2.1
    by_cases hci : c.2 = item
    · have hlen := h.length_le
      have h0 := h
      obtain ⟨hb, hk, hs, hn, hlt, hl⟩ := h
      obtain ⟨n1, n2, n3⟩ := nodup_mid hn
      have hlt1 : ∀ d ∈ kept ++ rest, d.1 < m.brk := fun d hd => hlt d (by
        simp only [List.mem_append, List.mem_cons] at hd ⊢; tauto)
      obtain ⟨N, hN⟩ : ∃ N : Int, N = ((kept ++ c :: rest).length : Int) := ⟨_, rfl⟩
      rw [← hN] at hb
      simp only [List.length_append, List.length_cons] at hN hlen hf
      push_cast at hN
      have cnt : (c :: rest).countP (fun d => decide (d.2 = item))
          = rest.countP (fun d => decide (d.2 = item)) + 1 :=
        by simp [List.countP_cons, hci]
      have flt : (c :: rest).filter (fun d => decide (d.2 ≠ item))
          = rest.filter (fun d => decide (d.2 ≠ item)) :=
        by simp [List.filter_cons, hci]
      rw [cnt] at hret hK
      rw [flt] at hX
      rcases list_nil_or_snoc kept with rfl | ⟨kept1, b, rfl⟩
      · simp only [List.length_nil, Nat.cast_zero] at hN
        cases rest with
        | nil =>
          simp only [List.length_nil, Nat.cast_zero] at hN
          have c1 : (N = 1) ↔ True := iff_true_intro (by omega)
          obtain ⟨m1, e1, hr1, hk1⟩ := clear_rep h0
          simp only [firstOr_cons, remove_all_items_loop, infoOf_some hc, Option.bind_eq_bind,
            Option.some_bind, hci, if_true, hb, c1, e1]
          subst hret hK hX hB
          refine ⟨m1, ?_, ?_, hk1⟩
          · have : ¬ (total + 1 = 0) := by omega
            simp [this]
          · simpa [syncPlus_eq] using hr1
        | cons d rest1 =>
          simp only [List.length_cons] at hN hlen hf
          push_cast at hN
          have c1 : (N = 1) ↔ False := iff_false_intro (by omega)
          have hs1 : Seg m.node none ([c] ++ d :: rest1) none := by simpa using hs
          have hd := Seg_mid hs1
          have hcd : c.1 ≠ d.1 := (n2 d (by simp)).symm
          simp only [List.nil_append, firstOr_cons, lastOr_cons, lastOr_nil] at hb hc hd
          simp only [firstOr_cons, remove_all_items_loop, Option.bind_eq_bind,
            Option.some_bind, hci, if_true, hb, c1, if_false, Mem.previousOf, Mem.nextOf,
            Mem.infoOf, Mem.deref, Option.map_some', hc, reduceCtorEq, Mem.setPrevious,
            Mem.setBase, Function.update_same, hd, Mem.free, Function.update_noteq hcd]
          refine ih _ [] (syncPlus k) (total + 1) f ret K X B
            ⟨?_, syncPlus_lt k, ?_, ?_, ?_, ?_⟩ (by simp) (by omega)
            (by simp only [List.length_cons]; omega) ?_ ?_
            (by simpa using hX) hB
          · simp; omega
          · refine ⟨?_, Seg_congr ?_ hs1.2.2⟩
            · simp [Function.update_noteq hcd.symm]
            · intro e he
              have e1 : e.1 ≠ c.1 := n2 e (by simp [he])
              have e2 : e.1 ≠ d.1 := by
                have := (List.nodup_cons.1
                  (by simpa using n3 : ((d :: rest1).map Prod.fst).Nodup)).1
                intro h
                exact this (by rw [← h]; exact List.mem_map_of_mem _ he)
              simp [Function.update_noteq e1, Function.update_noteq e2]
          · simpa using n3
          · simpa using hlt1
          · simpa using hl
          · rw [hret]; push_cast; ring_nf
          · rw [hK, syncPlus_eq]; omega
      · simp only [List.length_append, List.length_singleton] at hN hlen
        push_cast at hN
        have c1 : (N = 1) ↔ False := iff_false_intro (by omega)
        have hs0 : Seg m.node none (kept1 ++ b :: c :: rest) none := by simpa using hs
        have hn0 : ((kept1 ++ b :: c :: rest).map Prod.fst).Nodup := by simpa using hn
        have hbn := Seg_mid hs0
        have hbc : b.1 ≠ c.1 := n1 b (by simp)
        cases rest with
        | nil =>
          simp only [List.length_nil, Nat.cast_zero] at hN
          simp only [lastOr_append, firstOr_cons, lastOr_cons, lastOr_nil, firstOr_nil]
            at hc hbn
          simp only [firstOr_cons, remove_all_items_loop, Option.bind_eq_bind,
            Option.some_bind, hci, if_true, hb, c1, if_false, Mem.previousOf, Mem.nextOf,
            Mem.infoOf, Mem.deref, Option.map_some', hc, Mem.setNext,
            Mem.setBase, Function.update_same, hbn, Mem.free, Function.update_noteq hbc.symm]
          have h2 := ((Seg_append m.node kept1 [b, c] none none).1 hs0).1
          subst hret hK hX hB
          have hne : ¬ (total + 1 = 0) := by omega
          simp only [List.countP_nil, Nat.zero_add, Nat.cast_one, hne, if_false]
          refine ⟨_, rfl, ⟨?_, Nat.mod_lt _ (by norm_num), ?_, ?_, ?_, ?_⟩, ?_⟩
          · simp [syncPlus_eq]; omega
          · rw [List.filter_nil, List.append_nil, Seg_append]
            refine ⟨Seg_congr ?_ h2, ?_, trivial⟩
            · intro e he
              have e1 : e.1 ≠ c.1 := n1 e (by simp [he])
              have e2 : e.1 ≠ b.1 := (nodup_mid hn0).1 e he
              simp [Function.update_noteq e1, Function.update_noteq e2]
            · simp [Function.update_noteq hbc]
          · simpa using n3
          · simpa using hlt1
          · simpa using hl
          · rfl
        | cons d rest1 =>
          simp only [List.length_cons] at hN hlen hf
          push_cast at hN
          obtain ⟨m1, e1, hs1, hc1, hb1, hk1, -⟩ := unlink_spec m kept1 b c d rest1 hs0 hn0
          have hc2 : m1.nextOf (some c.1) = some (some d.1) := nextOf_some hc1
          simp only [lastOr_append, firstOr_cons, lastOr_cons, lastOr_nil, firstOr_nil] at hc
          simp only [firstOr_cons, remove_all_items_loop, Option.bind_eq_bind,
            Option.some_bind, hci, if_true, hb, c1, if_false, previousOf_some hc,
            nextOf_some hc, infoOf_some hc, reduceCtorEq, e1, hb1]
          simp only [Mem.setBase, Function.update_same, Mem.nextOf, Mem.deref,
            Option.bind_eq_bind, Option.some_bind, Option.map_some', hc1, Mem.free]
          refine ih _ (kept1 ++ [b]) (syncPlus k) (total + 1) f ret K X B
            ⟨?_, syncPlus_lt k, ?_, ?_, ?_, ?_⟩ hkept (by omega)
            (by simp only [List.length_cons]; omega) ?_ ?_ (by simpa using hX)
            (hB.trans hk1.symm)
          · simp; omega
          · simpa using hs1
          · simpa using n3
          · simpa [hk1] using hlt1
          · simpa [hk1] using hl
          · rw [hret]; push_cast; ring_nf
          · rw [hK, syncPlus_eq]; omega
    · have e : kept ++ c :: rest = (kept ++ [c]) ++ rest := by simp
      simp only [firstOr_cons, remove_all_items_loop, infoOf_some hc, nextOf_some hc,
        Option.bind_eq_bind, Option.some_bind, hci, if_false]
      refine ih m (kept ++ [c]) k total f ret K X B (e ▸ h) ?_ ht (by simp at hf; omega)
        ?_ ?_ ?_ hB
      · intro d hd
        rcases List.mem_append.1 hd with hd | hd
        · exact hkept d hd
        · simp at hd; subst hd; exact hci
      · simpa [List.countP_cons_of_neg, hci] using hret
      · simpa [List.countP_cons_of_neg, hci] using hK
      · simpa [List.filter_cons_of_pos, hci] using hX

theorem remove_all_items_rep {m : Mem T} {l k : Nat} (item : T) (cells : List (Nat × T))
    (h : Rep m l cells k) :
    ∃ m1, remove_all_items item (some l) m
        = some (if cells.countP (fun d => decide (d.2 = item)) = 0 then -1
                else ((cells.countP (fun d => decide (d.2 = item)) : Nat) : Int), m1)
      ∧ Rep m1 l (cells.filter (fun d => decide (d.2 ≠ item)))
          ((k + cells.countP (fun d => decide (d.2 = item))) % 2 ^ 32)
      ∧ m1.brk = m.brk := by
  have hlen := h.length_le
  have h0 := h
  obtain ⟨hb, hk, hs, hn, hlt, hl⟩ := h
  cases cells with
  | nil =>
    refine ⟨m, ?_, ?_, rfl⟩
    · simp [remove_all_items, hb]
    · simp only [List.countP_nil, List.filter_nil, Nat.add_zero, Nat.mod_eq_of_lt hk]
      exact h0
  | cons c rest =>
    have hc : m.node c.1 = some ⟨none, c.2, firstOr rest none⟩ := hs.1
    obtain ⟨N, hN⟩ : ∃ N : Int, N = ((c :: rest).length : Int) := ⟨_, rfl⟩
    rw [← hN] at hb
    simp only [List.length_cons] at hN hlen
    push_cast at hN
    have c1 : (N = 0) ↔ False := iff_false_intro (by omega)
    cases rest with
    | nil =>
      simp only [List.length_nil, Nat.cast_zero] at hN
      have c2 : (N = 1) ↔ True := iff_true_intro (by omega)
      simp only [firstOr_cons] at hb
      by_cases hci : c.2 = item
      · obtain ⟨m1, e1, hr1, hk1⟩ := clear_rep h0
        simp only [remove_all_items, hb, Option.bind_eq_bind, Option.some_bind, c1, c2,
          if_false, if_true, infoOf_some hc, hci, e1]
        refine ⟨m1, ?_, ?_, hk1⟩
        · simp [List.countP_cons, hci]
        · simpa [List.countP_cons, List.filter_cons, hci, syncPlus_eq] using hr1
      · simp only [remove_all_items, hb, Option.bind_eq_bind, Option.some_bind, c1, c2,
          if_false, if_true, infoOf_some hc, hci]
        refine ⟨m, ?_, ?_, rfl⟩
        · simp [List.countP_cons, hci]
        · simp only [List.countP_cons, List.countP_nil, hci, decide_False, Bool.false_eq_true,
            if_false, Nat.add_zero, Nat.mod_eq_of_lt hk]
          simpa [List.filter_cons, hci] using h0
    | cons d ds =>
      simp only [List.length_cons] at hN hlen
      push_cast at hN
      have c2 : (N = 1) ↔ False := iff_false_intro (by omega)
      simp only [remove_all_items, hb, Option.bind_eq_bind, Option.some_bind, c1, c2, if_false]
      refine remove_all_items_loop_spec item l (c :: d :: ds) m [] k 0 (m.brk + 1) _ _ _ _
        (by simpa using h0) (by simp) (le_refl _) (by simp only [List.length_cons]; omega)
        ?_ rfl (by simp) rfl
      simp only [zero_add]
      split <;> rename_i hz
      · have : ((c :: d :: ds).countP (fun d => decide (d.2 = item)) : Int) = 0 := by
          exact_mod_cast hz
        simp [this]
      · have : ¬ (((c :: d :: ds).countP (fun d => decide (d.2 = item)) : Int) = 0) := by
          exact_mod_cast hz
        simp [this]

end

end ListT

namespace ListT

variable {T : Type}

theorem add_at_zero {m : Mem T} {l k : Nat} {cells : List (Nat × T)} (x : T)
    (h : Rep m l cells k) (hne : cells ≠ []) :
    add_at x (some l) 0 m = add x (some l) m := by
  obtain ⟨hb, -, -, -, -, -⟩ := h
  have c1 : ¬ (((cells.length : Int) = 0) ∨ (0 : Int) < 0 ∨ (0 : Int) ≥ (cells.length : Int)) := by
    have : 0 < cells.length := List.length_pos.2 hne
    omega
  simp only [add_at, hb, Option.bind_eq_bind, Option.some_bind, c1, if_false, if_true]

theorem add_at_out_of_range {m : Mem T} {l k : Nat} {cells : List (Nat × T)} (x : T)
    (h : Rep m l cells k) (i : Int) (hi : i < 0 ∨ i ≥ cells.length) :
    add_at x (some l) i m = some (FALSE, m) := by
  obtain ⟨hb, -, -, -, -, -⟩ := h
  have c1 : ((cells.length : Int) = 0) ∨ i < 0 ∨ i ≥ (cells.length : Int) := Or.inr hi
  simp only [add_at, hb, Option.bind_eq_bind, Option.some_bind, c1, if_true]

theorem create_rep (m : Mem T) : Rep (create m).2 m.brk [] 0 := by
  refine ⟨?_, by norm_num, trivial, by simp, by simp, ?_⟩
  · simp [create]
  · simp [create]

/-! ## Splitting a list at an index -/

theorem split_at_index {α : Type} (xs : List α) (i : Nat) (hi : i < xs.length) :
    xs = xs.take i ++ xs[i] :: xs.drop (i + 1) := by
  rw [← List.drop_eq_getElem_cons hi, List.take_append_drop]

end ListT

namespace ListT

variable {T : Type}

/-! ## Splitting a list at an element -/

theorem split_first {α : Type} (P : α → Prop) (xs : List α) (h : ∃ x ∈ xs, P x) :
    ∃ pre c post, xs = pre ++ c :: post ∧ P c ∧ ∀ d ∈ pre, ¬ P d := by
  classical
  induction xs with
  | nil => simp at h
  | cons x xs ih =>
    by_cases hx : P x
    · exact ⟨[], x, xs, rfl, hx, by simp⟩
    · obtain ⟨y, hy, hPy⟩ := h
      have hy1 : y ∈ xs := by
        rcases List.mem_cons.1 hy with rfl | hy
        · exact absurd hPy hx
        · exact hy
      obtain ⟨pre, c, post, e, hc, hpre⟩ := ih ⟨y, hy1, hPy⟩
      refine ⟨x :: pre, c, post, by simp [e], hc, ?_⟩
      intro d hd
      rcases List.mem_cons.1 hd with rfl | hd
      · exact hx
      · exact hpre d hd

theorem split_last {α : Type} (P : α → Prop) (xs : List α) (h : ∃ x ∈ xs, P x) :
    ∃ pre c post, xs = pre ++ c :: post ∧ P c ∧ ∀ d ∈ post, ¬ P d := by
  obtain ⟨pre, c, post, e, hc, hpre⟩ := split_first P xs.reverse (by simpa using h)
  refine ⟨post.reverse, c, pre.reverse, ?_, hc, by simpa using hpre⟩
  have := congrArg List.reverse e
  simpa using this

theorem split_two {α : Type} (xs : List α) (i : Nat) (h0 : 0 < i) (hi : i < xs.length) :
    ∃ pre b c post, xs = pre ++ b :: c :: post ∧ pre.length + 1 = i
      ∧ xs.take i = pre ++ [b] ∧ xs.drop i = c :: post := by
  have e := split_at_index xs i hi
  have hl : (xs.take i).length = i := by rw [List.length_take]; omega
  rcases list_nil_or_snoc (xs.take i) with h | ⟨pre, b, h⟩
  · rw [h] at hl; simp at hl; omega
  · refine ⟨pre, b, xs[i], xs.drop (i + 1), ?_, ?_, h, (List.drop_eq_getElem_cons hi)⟩
    · rw [h] at e; simpa using e
    · rw [h] at hl; simpa using hl

/-! ## Index-based statements of the positional operations -/

theorem get_in_range {m : Mem T} {l k : Nat} {cells : List (Nat × T)} (h : Rep m l cells k)
    (i : Nat) (hi : i < cells.length) :
    get (some l) (i : Int) m = some (TRUE, (cells.map Prod.snd)[i]?) := by
  have e := split_at_index cells i hi
  have hl : (cells.take i).length = i := by rw [List.length_take]; omega
  rw [e] at h
  have := get_at _ _ _ h
  rw [hl] at this
  rw [this]
  simp [hi]

theorem add_at_in_range {m : Mem T} {l k : Nat} {cells : List (Nat × T)} (x : T)
    (h : Rep m l cells k) (i : Nat) (h0 : 0 < i) (hi : i < cells.length) :
    ∃ m1, add_at x (some l) (i : Int) m = some (TRUE, m1)
      ∧ Rep m1 l (cells.take i ++ (m.brk, x) :: cells.drop i) (syncPlus k) := by
  obtain ⟨pre, b, c, post, e, hl, ht, hd⟩ := split_two cells i h0 hi
  rw [e] at h
  obtain ⟨m1, e1, h1⟩ := add_at_rep x pre b c post h
  refine ⟨m1, ?_, ?_⟩
  · rw [← e1, ← hl]; push_cast; rfl
  · rw [ht, hd]; simpa using h1

theorem remove_at_in_range {m : Mem T} {l k : Nat} {cells : List (Nat × T)}
    (h : Rep m l cells k) (i : Nat) (hi : i < cells.length) :
    ∃ m1, remove_at (some l) (i : Int) m = some (TRUE, m1)
      ∧ Rep m1 l (cells.eraseIdx i) (syncPlus k) := by
  have e := split_at_index cells i hi
  have hl : (cells.take i).length = i := by rw [List.length_take]; omega
  rw [e] at h
  obtain ⟨m1, e1, h1⟩ := remove_at_rep _ _ _ h
  rw [hl] at e1
  refine ⟨m1, e1, ?_⟩
  rw [List.eraseIdx_eq_take_drop_succ]
  exact h1

end ListT

namespace ListT

variable {T : Type}

/-! ## Every operation keeps the list well formed -/

section

variable [DecidableEq T]

theorem remove_item_total {m : Mem T} {l k : Nat} {cells : List (Nat × T)} (item : T)
    (h : Rep m l cells k) :
    (item ∉ cells.map Prod.snd ∧ remove_item item (some l) m = some (FALSE, m))
      ∨ (item ∈ cells.map Prod.snd ∧ ∃ m1 cells1, remove_item item (some l) m = some (TRUE, m1)
          ∧ Rep m1 l cells1 (syncPlus k)
          ∧ cells1.map Prod.snd = (cells.map Prod.snd).erase item) := by
  by_cases hm : ∃ d ∈ cells, d.2 = item
  · right
    obtain ⟨pre, c, post, e, hc, hpre⟩ := split_first (fun d : Nat × T => d.2 = item) cells hm
    subst e
    obtain ⟨m1, e1, h1⟩ := remove_item_rep item pre c post h hpre hc
    refine ⟨?_, m1, pre ++ post, e1, h1, ?_⟩
    · simp [hc]
    · have hn : item ∉ pre.map Prod.snd := by
        intro hx
        obtain ⟨d, hd, hd2⟩ := List.mem_map.1 hx
        exact hpre d hd hd2
      rw [List.map_append, List.map_append, List.map_cons, hc, List.erase_append_right _ hn,
        List.erase_cons_head]
  · left
    have hne : ∀ d ∈ cells, d.2 ≠ item := fun d hd hd2 => hm ⟨d, hd, hd2⟩
    refine ⟨?_, remove_item_absent item h hne⟩
    intro hx
    obtain ⟨d, hd, hd2⟩ := List.mem_map.1 hx
    exact hne d hd hd2

theorem runOp_rep {m : Mem T} {l k : Nat} {cells : List (Nat × T)} (op : Op T)
    (h : Rep m l cells k) :
    ∃ r m1 cells1 k1, runOp (some l) m op = some (r, m1) ∧ Rep m1 l cells1 k1 := by
  cases op with
  | add item =>
    obtain ⟨m1, e1, h1, -⟩ := add_rep item h
    exact ⟨_, m1, _, _, e1, h1⟩
  | add_at item index =>
    by_cases hr : index < 0 ∨ index ≥ cells.length
    · exact ⟨_, m, _, _, add_at_out_of_range item h index hr, h⟩
    · by_cases hz : index = 0
      · subst hz
        have hne : cells ≠ [] := by
          rintro rfl
          simp at hr
        obtain ⟨m1, e1, h1, -⟩ := add_rep item h
        exact ⟨_, m1, _, _, (add_at_zero item h hne).trans e1, h1⟩
      · obtain ⟨i, rfl⟩ : ∃ i : Nat, index = (i : Int) := ⟨index.toNat, by omega⟩
        obtain ⟨m1, e1, h1⟩ := add_at_in_range item h i (by omega) (by omega)
        exact ⟨_, m1, _, _, e1, h1⟩
  | remove_item item =>
    rcases remove_item_total item h with ⟨-, e⟩ | ⟨-, m1, cells1, e, h1, -⟩
    · exact ⟨_, m, _, _, e, h⟩
    · exact ⟨_, m1, _, _, e, h1⟩
  | remove_at index =>
    by_cases hr : index < 0 ∨ index ≥ cells.length
    · exact ⟨_, m, _, _, remove_at_out_of_range h index hr, h⟩
    · obtain ⟨i, rfl⟩ : ∃ i : Nat, index = (i : Int) := ⟨index.toNat, by omega⟩
      obtain ⟨m1, e1, h1⟩ := remove_at_in_range h i (by omega)
      exact ⟨_, m1, _, _, e1, h1⟩
  | remove_all_items item =>
    obtain ⟨m1, e1, h1, -⟩ := remove_all_items_rep item cells h
    exact ⟨_, m1, _, _, e1, h1⟩
  | clear =>
    obtain ⟨m1, e1, h1, -⟩ := clear_rep h
    exact ⟨_, m1, _, _, e1, h1⟩

theorem runOps_rep (ops : List (Op T)) :
    ∀ {m : Mem T} {l k : Nat} {cells : List (Nat × T)}, Rep m l cells k →
      ∃ m1 cells1 k1, runOps (some l) ops m = some m1 ∧ Rep m1 l cells1 k1 := by
  induction ops with
  | nil =>
    intro m l k cells h
    exact ⟨m, cells, k, rfl, h⟩
  | cons op ops ih =>
    intro m l k cells h
    obtain ⟨r, m1, cells1, k1, e1, h1⟩ := runOp_rep op h
    obtain ⟨m2, cells2, k2, e2, h2⟩ := ih h1
    exact ⟨m2, cells2, k2, by simp [runOps, e1, e2], h2⟩

end

end ListT

namespace ListT

variable {T : Type}

/-! ## The structural invariant follows from the representation -/

theorem NextPath_of_Seg (node : Nat → Option (listNode T)) (cells : List (Nat × T))
    (p : nodePointer) (hs : Seg node p cells none) :
    NextPath node (firstOr cells none) (cells.map Prod.fst) := by
  induction cells generalizing p with
  | nil => rfl
  | cons c cs ih =>
    obtain ⟨h1, h2⟩ := hs
    exact ⟨rfl, _, h1, ih _ h2⟩

theorem lastOr_eq_getLast? (cells : List (Nat × T)) :
    lastOr cells none = (cells.map Prod.fst).getLast? := by
  rcases list_nil_or_snoc cells with rfl | ⟨init, t, rfl⟩
  · rfl
  · simp

theorem Rep.invariant {m : Mem T} {l k : Nat} {cells : List (Nat × T)} (h : Rep m l cells k) :
    Invariant m l := by
  obtain ⟨hb, -, hs, hn, -, -⟩ := h
  refine ⟨_, cells.map Prod.fst, hb, NextPath_of_Seg _ _ _ hs, by simp, lastOr_eq_getLast? _,
    ?_, ?_, ?_, ?_, ?_, ?_⟩
  · cases cells with
    | nil => simp
    | cons c cs => simp; omega
  · intro h1
    cases cells with
    | nil => simp at h1
    | cons c cs =>
      cases cs with
      | nil =>
        have hc : m.node c.1 = some ⟨none, c.2, none⟩ := hs.1
        simp [previousOf_some hc, nextOf_some hc]
      | cons d ds => simp at h1; omega
  · intro h1
    cases cells with
    | nil => simp at h1
    | cons c cs =>
      have hc : m.node c.1 = some ⟨none, c.2, firstOr cs none⟩ := hs.1
      simp [previousOf_some hc]
  · intro h1
    rcases list_nil_or_snoc cells with rfl | ⟨init, t, rfl⟩
    · simp at h1
    · have ht := Seg_mid hs
      simp [nextOf_some ht]
  · intro a ha b hab
    obtain ⟨c, hc, rfl⟩ := List.mem_map.1 ha
    obtain ⟨pre, post, rfl⟩ := List.append_of_mem hc
    have hcn := Seg_mid hs
    rw [nextOf_some hcn] at hab
    cases post with
    | nil => simp at hab
    | cons d ds =>
      simp only [firstOr_cons, Option.some.injEq] at hab
      subst hab
      have hs1 : Seg m.node none ((pre ++ [c]) ++ d :: ds) none := by simpa using hs
      have hd := Seg_mid hs1
      simp [previousOf_some hd]
  · intro a ha b hab
    obtain ⟨c, hc, rfl⟩ := List.mem_map.1 ha
    obtain ⟨pre, post, rfl⟩ := List.append_of_mem hc
    have hcn := Seg_mid hs
    rw [previousOf_some hcn] at hab
    rcases list_nil_or_snoc pre with rfl | ⟨init, t, rfl⟩
    · simp at hab
    · simp only [lastOr_append, lastOr_cons, lastOr_nil, Option.some.injEq] at hab
      subst hab
      have hs1 : Seg m.node none (init ++ t :: c :: post) none := by simpa using hs
      have ht := Seg_mid hs1
      simp [nextOf_some ht]

end ListT

namespace ListT

variable {T : Type}

/-! ## From cells to sequences -/

theorem map_snd_filter_ne [DecidableEq T] (x : T) (cells : List (Nat × T)) :
    (cells.filter (fun d => decide (d.2 ≠ x))).map Prod.snd
      = (cells.map Prod.snd).filter (fun v => decide (v ≠ x)) := by
  induction cells with
  | nil => rfl
  | cons c cs ih =>
    by_cases h : c.2 = x <;> simp_all [List.filter_cons]

theorem countP_eq_count [DecidableEq T] (x : T) (cells : List (Nat × T)) :
    cells.countP (fun d => decide (d.2 = x)) = (cells.map Prod.snd).count x := by
  induction cells with
  | nil => rfl
  | cons c cs ih =>
    by_cases h : c.2 = x <;> simp [List.countP_cons, List.count_cons, h, ih]

theorem TRUE_ne_FALSE : TRUE ≠ FALSE := by decide

/-! ## The claims -/

/-- C1. Starting from `create()`, any sequence of `add`, `add_at`, `remove_item`,
`remove_at`, `remove_all_items` and `clear` calls (whatever each one returns) runs
to completion and leaves a list that satisfies the structural invariant: the
chain from `head` counts `length` nodes and ends in `tail`, `length == 0` iff head
and tail are absent, a single node is head and tail with both links absent,
`head->previous` and `tail->next` are absent, and the links are symmetric. -/
theorem structural_invariant_after_operations [DecidableEq T] (m0 : Mem T)
    (ops : List (Op T)) :
    ∃ m, runOps (create m0).1 ops (create m0).2 = some m
      ∧ Invariant m m0.brk
      ∧ ∃ cells k, Rep m m0.brk cells k := by
  obtain ⟨m1, cells1, k1, e1, h1⟩ := runOps_rep ops (create_rep m0)
  exact ⟨m1, e1, h1.invariant, cells1, k1, h1⟩

/-- C2. On a list holding `s` (the values of `cells`), `add x` returns `TRUE`;
afterwards the list holds `s` followed by `x`, `get_last` yields `x` and the
length is one more. -/
theorem add_appends (m : Mem T) (l k : Nat) (cells : List (Nat × T)) (x : T)
    (h : Rep m l cells k) :
    ∃ m1, add x (some l) m = some (TRUE, m1)
      ∧ Rep m1 l (cells ++ [(m.brk, x)]) (syncPlus k)
      ∧ elements (some l) m1 = some (cells.map Prod.snd ++ [x])
      ∧ get_last (some l) m1 = some (TRUE, some x)
      ∧ size (some l) m1 = some ((cells.length : Int) + 1) := by
  obtain ⟨m1, e1, h1, -⟩ := add_rep x h
  refine ⟨m1, e1, h1, ?_, h1.get_last, ?_⟩
  · rw [h1.elements]; simp
  · rw [h1.size]; simp

/-- Witness for C2: `add 30` on the list `[10, 20]` built by the code. -/
theorem add_appends_witness :
    Rep (built [10, 20]) 0 [(1, 10), (2, 20)] 2
      ∧ ∃ m1, add 30 (some 0) (built [10, 20]) = some (TRUE, m1)
        ∧ Rep m1 0 ([(1, 10), (2, 20)] ++ [((built [10, 20]).brk, 30)]) (syncPlus 2)
        ∧ elements (some 0) m1 = some ([(1, 10), (2, 20)].map Prod.snd ++ [30])
        ∧ get_last (some 0) m1 = some (TRUE, some 30)
        ∧ size (some 0) m1 = some ((([(1, 10), (2, 20)] : List (Nat × Int)).length : Int) + 1) :=
  ⟨by decide, add_appends (built [10, 20]) 0 2 [(1, 10), (2, 20)] 30 (by decide)⟩

/-- C3. On a list of length `n >= 2` holding `s`, for `0 < index < n` the call
`add_at item list index` returns `TRUE`; afterwards the list holds the first
`index` elements of `s`, then `item`, then the rest of `s`, so that
`get list index` yields `item` and the length is `n + 1`.  The statement covers
every index of the range, hence both traversal directions. -/
theorem add_at_inserts (m : Mem T) (l k : Nat) (cells : List (Nat × T)) (item : T)
    (index : Int) (h : Rep m l cells k) (h0 : 0 < index) (hn : index < cells.length) :
    ∃ m1, add_at item (some l) index m = some (TRUE, m1)
      ∧ Rep m1 l (cells.take index.toNat ++ (m.brk, item) :: cells.drop index.toNat)
          (syncPlus k)
      ∧ elements (some l) m1 = some ((cells.map Prod.snd).take index.toNat
          ++ item :: (cells.map Prod.snd).drop index.toNat)
      ∧ get (some l) index m1 = some (TRUE, some item)
      ∧ size (some l) m1 = some ((cells.length : Int) + 1) := by
  obtain ⟨i, rfl⟩ : ∃ i : Nat, index = (i : Int) := ⟨index.toNat, by omega⟩
  have hi : i < cells.length := by omega
  obtain ⟨m1, e1, h1⟩ := add_at_in_range item h i (by omega) hi
  have hl : (cells.take i).length = i := by rw [List.length_take]; omega
  refine ⟨m1, e1, by simpa using h1, ?_, ?_, ?_⟩
  · rw [h1.elements]; simp
  · have := get_at _ _ _ h1
    rw [hl] at this
    exact this
  · rw [h1.size]
    simp only [List.length_append, List.length_cons, List.length_take, List.length_drop]
    congr 1
    omega

/-- Witness for C3: `add_at 99 list 4` on `[10, 20, 30, 40, 50]`, an index of the
tail-relative half. -/
theorem add_at_inserts_witness :
    Rep (built [10, 20, 30, 40, 50]) 0 [(1, 10), (2, 20), (3, 30), (4, 40), (5, 50)] 5
      ∧ (0 : Int) < 4 ∧ (4 : Int) < ([(1, 10), (2, 20), (3, 30), (4, 40), (5, 50)] :
          List (Nat × Int)).length
      ∧ ∃ m1, add_at 99 (some 0) 4 (built [10, 20, 30, 40, 50]) = some (TRUE, m1)
        ∧ elements (some 0) m1 = some [10, 20, 30, 40, 99, 50]
        ∧ get (some 0) 4 m1 = some (TRUE, some 99)
        ∧ size (some 0) m1 = some 6 := by
  refine ⟨by decide, by decide, by decide, ?_⟩
  obtain ⟨m1, e1, -, h2, h3, h4⟩ := add_at_inserts (built [10, 20, 30, 40, 50]) 0 5
    [(1, 10), (2, 20), (3, 30), (4, 40), (5, 50)] 99 4 (by decide) (by decide) (by decide)
  exact ⟨m1, e1, h2, h3, h4⟩

end ListT

namespace ListT

variable {T : Type}

theorem add_at_zero_appends {m : Mem T} {l k : Nat} {cells : List (Nat × T)} (x : T)
    (h : Rep m l cells k) (hne : cells ≠ []) :
    ∃ m1, add_at x (some l) 0 m = some (TRUE, m1)
      ∧ Rep m1 l (cells ++ [(m.brk, x)]) (syncPlus k) := by
  obtain ⟨m1, e1, h1, -⟩ := add_rep x h
  exact ⟨m1, (add_at_zero x h hne).trans e1, h1⟩

/-- C4, at the failing input.  On the list `[1, 2]` the call `add_at 9 list 0`
returns `TRUE` and leaves `[1, 2, 9]`: index 0 is handed to `add`, which appends,
so the item becomes the last element and `get list 0` still yields `1`. -/
theorem add_at_zero_appends_on_example :
    (add_at 9 (some 0) 0 (built [1, 2])).bind
        (fun r => (elements (some 0) r.2).bind
          fun e => (get (some 0) 0 r.2).map fun g => (r.1, e, g))
      = some (TRUE, [1, 2, 9], TRUE, some 1) := by
  decide

/-- C5. On a list holding `s`, `remove_item x` returns `TRUE` iff `x` occurs in
`s`; in that case the list afterwards holds `s` without its first occurrence of
`x` (`List.erase`; for `s = pre ++ x :: post` with `x` not in `pre` that is
`pre ++ post`) and the length is one less.  When `x` does not occur the call
returns `FALSE`. -/
theorem remove_item_first_occurrence [DecidableEq T] (m : Mem T) (l k : Nat)
    (cells : List (Nat × T)) (x : T) (h : Rep m l cells k) :
    ∃ r m1, remove_item x (some l) m = some (r, m1)
      ∧ (r = TRUE ↔ x ∈ cells.map Prod.snd)
      ∧ (x ∉ cells.map Prod.snd → r = FALSE)
      ∧ (x ∈ cells.map Prod.snd →
          (∃ cells1, Rep m1 l cells1 (syncPlus k)
            ∧ cells1.map Prod.snd = (cells.map Prod.snd).erase x)
          ∧ elements (some l) m1 = some ((cells.map Prod.snd).erase x)
          ∧ (∀ pre post, cells.map Prod.snd = pre ++ x :: post → x ∉ pre →
              elements (some l) m1 = some (pre ++ post))
          ∧ size (some l) m1 = some ((cells.length : Int) - 1)) := by
  rcases remove_item_total x h with ⟨hx, e⟩ | ⟨hx, m1, cells1, e, h1, hc⟩
  · refine ⟨FALSE, m, e, ?_, fun _ => rfl, fun hx1 => absurd hx1 hx⟩
    constructor
    · intro h2; exact absurd h2.symm TRUE_ne_FALSE
    · intro h2; exact absurd h2 hx
  · refine ⟨TRUE, m1, e, ⟨fun _ => hx, fun _ => rfl⟩, fun h2 => absurd hx h2, fun _ => ?_⟩
    refine ⟨⟨cells1, h1, hc⟩, ?_, ?_, ?_⟩
    · rw [h1.elements, hc]
    · intro pre post hs hpre
      rw [h1.elements, hc, hs, List.erase_append_right _ hpre, List.erase_cons_head]
    · rw [h1.size]
      have : cells1.length = (cells.map Prod.snd).length - 1 := by
        have := congrArg List.length hc
        rw [List.length_map, List.length_erase_of_mem hx] at this
        exact this
      have hpos : 0 < (cells.map Prod.snd).length := List.length_pos_of_mem hx
      simp only [List.length_map] at this hpos
      congr 1
      omega

/-- Witness for C5: `remove_item 2` on `[1, 2, 3, 2]` deletes the occurrence at index 1 only. -/
theorem remove_item_first_occurrence_witness :
    Rep (built [1, 2, 3, 2]) 0 [(1, 1), (2, 2), (3, 3), (4, 2)] 4
      ∧ ∃ r m1, remove_item 2 (some 0) (built [1, 2, 3, 2]) = some (r, m1)
        ∧ r = TRUE ∧ elements (some 0) m1 = some [1, 3, 2] ∧ size (some 0) m1 = some 3 := by
  refine ⟨by decide, ?_⟩
  obtain ⟨r, m1, e, h1, -, h3⟩ := remove_item_first_occurrence (built [1, 2, 3, 2]) 0 4
    [(1, 1), (2, 2), (3, 3), (4, 2)] 2 (by decide)
  obtain ⟨-, h4, -, h5⟩ := h3 (by decide)
  exact ⟨r, m1, e, h1.2 (by decide), h4, h5⟩

/-- C6. On a list of length `n` holding `s`, for `0 <= index < n` the call
`remove_at list index` returns `TRUE` and leaves `s` without the element at
position `index` (length `n - 1`), in each of its special cases and traversal
directions; for `index < 0` or `index >= n` it returns `FALSE`. -/
theorem remove_at_deletes (m : Mem T) (l k : Nat) (cells : List (Nat × T)) (index : Int)
    (h : Rep m l cells k) :
    (0 ≤ index ∧ index < cells.length →
      ∃ m1, remove_at (some l) index m = some (TRUE, m1)
        ∧ Rep m1 l (cells.eraseIdx index.toNat) (syncPlus k)
        ∧ elements (some l) m1 = some ((cells.map Prod.snd).eraseIdx index.toNat)
        ∧ size (some l) m1 = some ((cells.length : Int) - 1))
    ∧ (index < 0 ∨ index ≥ cells.length →
        remove_at (some l) index m = some (FALSE, m)) := by
  refine ⟨?_, remove_at_out_of_range h index⟩
  rintro ⟨h0, hn⟩
  obtain ⟨i, rfl⟩ : ∃ i : Nat, index = (i : Int) := ⟨index.toNat, by omega⟩
  have hi : i < cells.length := by omega
  obtain ⟨m1, e1, h1⟩ := remove_at_in_range h i hi
  refine ⟨m1, e1, by simpa using h1, ?_, ?_⟩
  · rw [h1.elements]
    simp only [Int.toNat_ofNat]
    rw [List.eraseIdx_eq_take_drop_succ, List.eraseIdx_eq_take_drop_succ]
    simp [List.map_take, List.map_drop]
  · rw [h1.size, List.length_eraseIdx]
    simp only [hi, if_true]
    congr 1
    omega

/-- Witness for C6: `remove_at list 3` on `[10, 20, 30, 40, 50]`, and the out-of-range
index 5. -/
theorem remove_at_deletes_witness :
    Rep (built [10, 20, 30, 40, 50]) 0 [(1, 10), (2, 20), (3, 30), (4, 40), (5, 50)] 5
      ∧ (∃ m1, remove_at (some 0) 3 (built [10, 20, 30, 40, 50]) = some (TRUE, m1)
          ∧ elements (some 0) m1 = some [10, 20, 30, 50] ∧ size (some 0) m1 = some 4)
      ∧ remove_at (some 0) 5 (built [10, 20, 30, 40, 50])
          = some (FALSE, built [10, 20, 30, 40, 50]) := by
  have h := remove_at_deletes (built [10, 20, 30, 40, 50]) 0 5
    [(1, 10), (2, 20), (3, 30), (4, 40), (5, 50)]
  refine ⟨by decide, ?_, (h 5 (by decide)).2 (by decide)⟩
  obtain ⟨m1, e1, -, h2, h3⟩ := (h 3 (by decide)).1 (by decide)
  exact ⟨m1, e1, h2, h3⟩

end ListT

namespace ListT

variable {T : Type}

theorem length_filter_add_countP [DecidableEq T] (x : T) (cells : List (Nat × T)) :
    (cells.filter (fun d => decide (d.2 ≠ x))).length
      + cells.countP (fun d => decide (d.2 = x)) = cells.length := by
  induction cells with
  | nil => rfl
  | cons c cs ih =>
    by_cases h : c.2 = x
    · simp_all [List.filter_cons, List.countP_cons]
      omega
    · simp_all [List.filter_cons, List.countP_cons]
      omega

/-- C7. On a list holding `s`, with `c` the number of occurrences of `x` in `s`,
`remove_all_items x` leaves exactly the elements of `s` different from `x`, in
order (length reduced by `c`); it returns `c` when `c > 0` and `-1` when `c = 0`;
and the 32-bit generation counter `sync` has been incremented `c` times
(`(k + c) mod 2 ^ 32`, which is `k + c` as long as the counter does not wrap). -/
theorem remove_all_items_filters [DecidableEq T] (m : Mem T) (l k : Nat)
    (cells : List (Nat × T)) (x : T) (h : Rep m l cells k) :
    ∃ m1, remove_all_items x (some l) m
        = some (if (cells.map Prod.snd).count x = 0 then -1
                else (((cells.map Prod.snd).count x : Nat) : Int), m1)
      ∧ Rep m1 l (cells.filter (fun d => decide (d.2 ≠ x)))
          ((k + (cells.map Prod.snd).count x) % 2 ^ 32)
      ∧ elements (some l) m1 = some ((cells.map Prod.snd).filter (fun v => decide (v ≠ x)))
      ∧ size (some l) m1
          = some ((cells.length : Int) - (((cells.map Prod.snd).count x : Nat) : Int))
      ∧ sync_of (some l) m = some k
      ∧ sync_of (some l) m1 = some ((k + (cells.map Prod.snd).count x) % 2 ^ 32)
      ∧ (k + (cells.map Prod.snd).count x < 2 ^ 32 →
          sync_of (some l) m1 = some (k + (cells.map Prod.snd).count x)) := by
  obtain ⟨m1, e1, h1, -⟩ := remove_all_items_rep x cells h
  rw [countP_eq_count] at e1 h1
  refine ⟨m1, e1, h1, ?_, ?_, h.sync_of, h1.sync_of, ?_⟩
  · rw [h1.elements, map_snd_filter_ne]
  · rw [h1.size]
    have := length_filter_add_countP x cells
    rw [countP_eq_count] at this
    congr 1
    omega
  · intro hlt
    rw [h1.sync_of, Nat.mod_eq_of_lt hlt]

/-- Witness for C7: `remove_all_items 2` on `[2, 1, 2, 3, 2]` returns 3, leaves `[1, 3]`
and moves `sync` from 5 to 8. -/
theorem remove_all_items_filters_witness :
    Rep (built [2, 1, 2, 3, 2]) 0 [(1, 2), (2, 1), (3, 2), (4, 3), (5, 2)] 5
      ∧ ∃ m1, remove_all_items 2 (some 0) (built [2, 1, 2, 3, 2]) = some (3, m1)
        ∧ elements (some 0) m1 = some [1, 3]
        ∧ size (some 0) m1 = some 2
        ∧ sync_of (some 0) m1 = some 8 := by
  refine ⟨by decide, ?_⟩
  obtain ⟨m1, e1, -, h2, h3, -, h4, -⟩ := remove_all_items_filters (built [2, 1, 2, 3, 2]) 0 5
    [(1, 2), (2, 1), (3, 2), (4, 3), (5, 2)] 2 (by decide)
  exact ⟨m1, e1, h2, h3, h4⟩

/-- C8, at the failing inputs.  On the list `[1, 2, 3, 4, 5]` (indices 3 and 4 lie
in the tail-relative half) `replace_at 9 list 3` returns `TRUE` but overwrites the
last element, leaving `[1, 2, 3, 4, 9]`, and `replace_at 9 list 4` returns the
stored value `5` and overwrites nothing, leaving the generation counter at 5. -/
theorem replace_at_tail_half_on_example :
    (replace_at id 9 (some 0) 3 (built [1, 2, 3, 4, 5])).bind
        (fun r => (elements (some 0) r.2).map fun e => (r.1, e))
      = some (TRUE, [1, 2, 3, 4, 9])
    ∧ (replace_at id 9 (some 0) 4 (built [1, 2, 3, 4, 5])).bind
        (fun r => (elements (some 0) r.2).map fun e => (r.1, e, sync_of (some 0) r.2))
      = some (5, [1, 2, 3, 4, 5], some 5) := by
  decide

/-- C9, at the failing inputs.  On the list `[1, 2, 3, 4, 5]`, `swap list 0 3`
returns `TRUE` and leaves `[4, 2, 3, 4, 1]`, and `swap list 0 4` returns `TRUE` and
leaves `[5, 2, 3, 4, 5]`: the write to an index of the tail-relative half goes
through the defective branch of `replace_at`. -/
theorem swap_tail_half_on_example :
    (swap id (some 0) 0 3 (built [1, 2, 3, 4, 5])).bind
        (fun r => (elements (some 0) r.2).map fun e => (r.1, e))
      = some (TRUE, [4, 2, 3, 4, 1])
    ∧ (swap id (some 0) 0 4 (built [1, 2, 3, 4, 5])).bind
        (fun r => (elements (some 0) r.2).map fun e => (r.1, e))
      = some (TRUE, [5, 2, 3, 4, 5]) := by
  decide

end ListT

namespace ListT

variable {T : Type}

theorem getElem?_length_append {α : Type} (xs ys : List α) (a : α) :
    (xs ++ a :: ys)[xs.length]? = some a := by
  rw [List.getElem?_append_right (le_refl _)]
  simp

theorem index_ge_of_not_before {x : T} (pre post : List (Nat × T)) (c : Nat × T) (t : Nat)
    (hpre : ∀ d ∈ pre, ¬ d.2 = x)
    (ht : ((pre ++ c :: post).map Prod.snd)[t]? = some x) : pre.length ≤ t := by
  by_contra hlt
  have hlt1 : t < pre.length := by omega
  rw [List.map_append, List.getElem?_append_left (by simpa using hlt1)] at ht
  obtain ⟨d, hd, hd2⟩ := List.mem_map.1 (List.mem_iff_getElem?.2 ⟨_, ht⟩)
  exact hpre d hd hd2

theorem index_le_of_not_after {x : T} (pre post : List (Nat × T)) (c : Nat × T) (t : Nat)
    (hpost : ∀ d ∈ post, ¬ d.2 = x)
    (ht : ((pre ++ c :: post).map Prod.snd)[t]? = some x) : t ≤ pre.length := by
  by_contra hlt
  have hlt1 : pre.length < t := by omega
  obtain ⟨u, rfl⟩ : ∃ u, t = pre.length + 1 + u := ⟨t - pre.length - 1, by omega⟩
  have e : (pre ++ c :: post).map Prod.snd
      = (pre.map Prod.snd ++ [c.2]) ++ post.map Prod.snd := by simp
  rw [e, List.getElem?_append_right (by simp)] at ht
  have e2 : pre.length + 1 + u - (pre.map Prod.snd ++ [c.2]).length = u := by simp
  rw [e2] at ht
  obtain ⟨d, hd, hd2⟩ := List.mem_map.1 (List.mem_iff_getElem?.2 ⟨_, ht⟩)
  exact hpost d hd hd2

/-- C10. On a list of length `n` holding `s`: `get list i` succeeds with `s[i]` for
every `0 <= i < n` (the range covers both traversal directions) and fails for
`i < 0` or `i >= n`; `index_of x` is the smallest and `last_index_of x` the largest
index at which `x` occurs, so every index `t` with `s[t] = x` lies between them,
and both are `-1` when `x` does not occur.  On the list built from
`[10, 20, 30, 40]`: `get 0 = 10`, `get 3 = 40`, `index_of 30 = 2`,
`last_index_of 30 = 2`. -/
theorem positional_symmetry [DecidableEq T] (m : Mem T) (l k : Nat) (cells : List (Nat × T))
    (h : Rep m l cells k) :
    (∀ i : Nat, i < cells.length →
        get (some l) (i : Int) m = some (TRUE, (cells.map Prod.snd)[i]?)
          ∧ ((cells.map Prod.snd)[i]?).isSome = true)
    ∧ (∀ i : Int, i < 0 ∨ i ≥ cells.length → get (some l) i m = some (FALSE, none))
    ∧ (∀ x, x ∉ cells.map Prod.snd →
        index_of x (some l) m = some (-1) ∧ last_index_of x (some l) m = some (-1))
    ∧ (∀ x, x ∈ cells.map Prod.snd → ∃ i j : Nat,
        index_of x (some l) m = some (i : Int) ∧ last_index_of x (some l) m = some (j : Int)
          ∧ (cells.map Prod.snd)[i]? = some x ∧ (cells.map Prod.snd)[j]? = some x
          ∧ ∀ t : Nat, (cells.map Prod.snd)[t]? = some x → i ≤ t ∧ t ≤ j)
    ∧ (get (some 0) 0 (built [10, 20, 30, 40]) = some (TRUE, some 10)
        ∧ get (some 0) 3 (built [10, 20, 30, 40]) = some (TRUE, some 40)
        ∧ index_of 30 (some 0) (built [10, 20, 30, 40]) = some 2
        ∧ last_index_of 30 (some 0) (built [10, 20, 30, 40]) = some 2) := by
  refine ⟨?_, get_out_of_range h, ?_, ?_, by decide⟩
  · intro i hi
    exact ⟨get_in_range h i hi, by simp [hi]⟩
  · intro x hx
    have hne : ∀ d ∈ cells, d.2 ≠ x := fun d hd hd2 =>
      hx (List.mem_map.2 ⟨d, hd, hd2⟩)
    exact ⟨index_of_absent x cells h hne, last_index_of_absent x cells h hne⟩
  · intro x hx
    have hm : ∃ d ∈ cells, d.2 = x := by
      obtain ⟨d, hd, hd2⟩ := List.mem_map.1 hx
      exact ⟨d, hd, hd2⟩
    obtain ⟨pre, c, post, e, hc, hpre⟩ := split_first (fun d : Nat × T => d.2 = x) cells hm
    obtain ⟨pre1, c1, post1, e1, hc1, hpost1⟩ :=
      split_last (fun d : Nat × T => d.2 = x) cells hm
    refine ⟨pre.length, pre1.length, ?_, ?_, ?_, ?_, ?_⟩
    · have h1 := h
      rw [e] at h1
      exact index_of_found x pre c post h1 hpre hc
    · have h1 := h
      rw [e1] at h1
      exact last_index_of_found x pre1 c1 post1 h1 hpost1 hc1
    · have := getElem?_length_append (pre.map Prod.snd) (post.map Prod.snd) x
      rw [List.length_map] at this
      rw [e, List.map_append, List.map_cons, hc]
      exact this
    · have := getElem?_length_append (pre1.map Prod.snd) (post1.map Prod.snd) x
      rw [List.length_map] at this
      rw [e1, List.map_append, List.map_cons, hc1]
      exact this
    · intro t ht
      refine ⟨?_, ?_⟩
      · rw [e] at ht
        exact index_ge_of_not_before pre post c t hpre ht
      · rw [e1] at ht
        exact index_le_of_not_after pre1 post1 c1 t hpost1 ht

/-- Witness for C10: lookups on `[10, 20, 30, 20]`, where 20 occurs at indices 1 and 3. -/
theorem positional_symmetry_witness :
    Rep (built [10, 20, 30, 20]) 0 [(1, 10), (2, 20), (3, 30), (4, 20)] 4
      ∧ get (some 0) 3 (built [10, 20, 30, 20]) = some (TRUE, some 20)
      ∧ get (some 0) 4 (built [10, 20, 30, 20]) = some (FALSE, none)
      ∧ index_of 7 (some 0) (built [10, 20, 30, 20]) = some (-1)
      ∧ ∃ i j : Nat, index_of 20 (some 0) (built [10, 20, 30, 20]) = some (i : Int)
          ∧ last_index_of 20 (some 0) (built [10, 20, 30, 20]) = some (j : Int)
          ∧ i ≤ 1 ∧ 3 ≤ j := by
  have h := positional_symmetry (built [10, 20, 30, 20]) 0 4
    [(1, 10), (2, 20), (3, 30), (4, 20)] (by decide)
  refine ⟨by decide, (h.1 3 (by decide)).1, h.2.1 4 (by decide), (h.2.2.1 7 (by decide)).1, ?_⟩
  obtain ⟨i, j, h1, h2, -, -, h3⟩ := h.2.2.2.1 20 (by decide)
  exact ⟨i, j, h1, h2, (h3 1 (by decide)).1, (h3 3 (by decide)).2⟩

end ListT

namespace ListT

variable {T : Type}

/-! ## Heaps that agree below an address -/

theorem Agree.refl (b0 : Nat) (m : Mem T) : Agree b0 m m :=
  ⟨fun _ _ => rfl, fun _ _ => rfl, le_refl _⟩

theorem Agree.trans {b0 : Nat} {m m1 m2 : Mem T} (h1 : Agree b0 m m1) (h2 : Agree b0 m1 m2) :
    Agree b0 m m2 :=
  ⟨fun b hb => (h2.1 b hb).trans (h1.1 b hb), fun a ha => (h2.2.1 a ha).trans (h1.2.1 a ha),
    le_trans h1.2.2 h2.2.2⟩

theorem Agree.mono {b0 b1 : Nat} {m m1 : Mem T} (h : Agree b0 m m1) (hb : b1 ≤ b0) :
    Agree b1 m m1 :=
  ⟨fun b hb1 => h.1 b (by omega), fun a ha => h.2.1 a (by omega), h.2.2⟩

theorem Seg_agree {b0 : Nat} {m m1 : Mem T} {cells : List (Nat × T)} {p nx : nodePointer}
    (h : Agree b0 m m1) (hc : ∀ c ∈ cells, c.1 < b0) (hs : Seg m.node p cells nx) :
    Seg m1.node p cells nx :=
  Seg_congr (fun c hcm => h.2.1 c.1 (hc c hcm)) hs

theorem Rep.agree {b0 : Nat} {m m1 : Mem T} {l k : Nat} {cells : List (Nat × T)}
    (h : Rep m l cells k) (hl : l < b0) (hc : ∀ c ∈ cells, c.1 < b0) (ha : Agree b0 m m1) :
    Rep m1 l cells k := by
  obtain ⟨hb, hk, hs, hn, hlt, hlb⟩ := h
  refine ⟨(ha.1 l hl).trans hb, hk, Seg_agree ha hc hs, hn, ?_, ?_⟩
  · intro c hcm
    have := hlt c hcm
    have := ha.2.2
    omega
  · have := ha.2.2
    omega

theorem create_agree (m : Mem T) :
    (create m).1 = some m.brk ∧ Rep (create m).2 m.brk [] 0 ∧ Agree m.brk m (create m).2
      ∧ (create m).2.brk = m.brk + 1 := by
  refine ⟨rfl, create_rep m, ⟨?_, ?_, ?_⟩, rfl⟩
  · intro b hb
    have : b ≠ m.brk := by omega
    simp [create, Function.update_noteq this]
  · intro a _
    rfl
  · simp [create]

theorem add_agree {b0 : Nat} {m : Mem T} {out ko : Nat} {oc : List (Nat × T)} (x : T)
    (h : Rep m out oc ko) (ho : b0 ≤ out) (hoc : ∀ d ∈ oc, b0 ≤ d.1) :
    ∃ m1, add x (some out) m = some (TRUE, m1)
      ∧ Rep m1 out (oc ++ [(m.brk, x)]) (syncPlus ko)
      ∧ Agree b0 m m1
      ∧ (∀ d ∈ oc ++ [(m.brk, x)], b0 ≤ d.1) := by
  have hob : out < m.brk := h.2.2.2.2.2
  obtain ⟨m1, e1, h1, hk1, hb1, hn1⟩ := add_rep x h
  refine ⟨m1, e1, h1, ⟨?_, ?_, by omega⟩, ?_⟩
  · intro b hb
    exact hb1 b (by omega)
  · intro a ha
    refine hn1 a (by omega) ?_
    intro c hc
    have := hoc c hc
    omega
  · intro d hd
    rcases List.mem_append.1 hd with hd | hd
    · exact hoc d hd
    · simp at hd
      subst hd
      simp only
      omega

end ListT

namespace ListT

variable {T : Type}

/-! ## The collecting loop -/

theorem collect_loop_spec (test : Mem T → T → Option Bool) (p : T → Bool) (out b0 : Nat)
    (m0 : Mem T) (htest : ∀ m v, Agree b0 m0 m → test m v = some (p v)) :
    ∀ (rest : List (Nat × T)) (m : Mem T) (pv : nodePointer) (oc : List (Nat × T))
      (ko fuel : Nat),
      Agree b0 m0 m → Seg m.node pv rest none → (∀ c ∈ rest, c.1 < b0) →
      Rep m out oc ko → b0 ≤ out → (∀ d ∈ oc, b0 ≤ d.1) → rest.length < fuel →
      ∃ m1 oc1 k1, collect_loop test (some out) fuel m (firstOr rest none) = some m1
        ∧ Rep m1 out oc1 k1
        ∧ oc1.map Prod.snd = oc.map Prod.snd ++ (rest.map Prod.snd).filter p
        ∧ (∀ d ∈ oc1, b0 ≤ d.1)
        ∧ Agree b0 m m1 := by
  intro rest
  induction rest with
  | nil =>
    intro m pv oc ko fuel _ _ _ hr _ hoc _
    refine ⟨m, oc, ko, ?_, hr, by simp, hoc, Agree.refl _ _⟩
    cases fuel <;> simp [collect_loop]
  | cons c cs ih =>
    intro m pv oc ko fuel ha hs hlt hr ho hoc hf
    obtain ⟨f, rfl⟩ : ∃ f, fuel = f + 1 := ⟨fuel - 1, by simp at hf; omega⟩
    obtain ⟨hc, hs1⟩ := hs
    have hcb : c.1 < b0 := hlt c (List.mem_cons_self _ _)
    by_cases hp : p c.2 = true
    · obtain ⟨m1, e1, hr1, ha1, hoc1⟩ := add_agree c.2 hr ho hoc
      have hc1 : m1.node c.1 = some ⟨pv, c.2, firstOr cs none⟩ := (ha1.2.1 c.1 hcb).trans hc
      obtain ⟨m2, oc2, k2, e2, hr2, hv2, hoc2, ha2⟩ := ih m1 (some c.1) _ _ f (ha.trans ha1)
        (Seg_agree ha1 (fun d hd => hlt d (List.mem_cons_of_mem _ hd)) hs1)
        (fun d hd => hlt d (List.mem_cons_of_mem _ hd)) hr1 ho hoc1 (by simp at hf; omega)
      refine ⟨m2, oc2, k2, ?_, hr2, ?_, hoc2, ha1.trans ha2⟩
      · simp only [firstOr_cons, collect_loop, infoOf_some hc, Option.bind_eq_bind,
          Option.some_bind, htest m c.2 ha, hp, if_true, e1, Option.map_some',
          nextOf_some hc1]
        exact e2
      · rw [hv2]
        simp [List.filter_cons, hp]
    · obtain ⟨m2, oc2, k2, e2, hr2, hv2, hoc2, ha2⟩ := ih m (some c.1) oc ko f ha hs1
        (fun d hd => hlt d (List.mem_cons_of_mem _ hd)) hr ho hoc (by simp at hf; omega)
      refine ⟨m2, oc2, k2, ?_, hr2, ?_, hoc2, ha2⟩
      · simp only [firstOr_cons, collect_loop, infoOf_some hc, Option.bind_eq_bind,
          Option.some_bind, htest m c.2 ha, hp, if_false, nextOf_some hc, Bool.false_eq_true]
        exact e2
      · rw [hv2]
        simp [List.filter_cons, hp]

end ListT

namespace ListT

variable {T : Type}

theorem create_fst (m : Mem T) : (create m).1 = some m.brk := rfl

theorem collect_from_create (test : Mem T → T → Option Bool) (p : T → Bool) {m : Mem T}
    {l k : Nat} {cells : List (Nat × T)} (h : Rep m l cells k)
    (htest : ∀ m1 v, Agree m.brk m m1 → test m1 v = some (p v)) :
    ∃ m1 oc k1, collect_loop test (some m.brk) ((create m).2.brk + 1) (create m).2
          (firstOr cells none) = some m1
      ∧ Rep m1 m.brk oc k1
      ∧ oc.map Prod.snd = (cells.map Prod.snd).filter p
      ∧ (∀ d ∈ oc, m.brk ≤ d.1)
      ∧ Agree m.brk m m1
      ∧ Rep m1 l cells k := by
  obtain ⟨-, hr0, ha0, hk0⟩ := create_agree m
  have hlen := h.length_le
  have hl : l < m.brk := h.2.2.2.2.2
  have hc : ∀ c ∈ cells, c.1 < m.brk := h.2.2.2.2.1
  have h1 := h.agree hl hc ha0
  obtain ⟨m1, oc, k1, e1, hr1, hv1, hoc1, ha1⟩ := collect_loop_spec test p m.brk m.brk m htest
    cells (create m).2 none [] 0 ((create m).2.brk + 1) ha0 h1.2.2.1 hc hr0 (le_refl _)
    (by simp) (by omega)
  exact ⟨m1, oc, k1, e1, hr1, by simpa using hv1, hoc1, ha0.trans ha1,
    h.agree hl hc (ha0.trans ha1)⟩

/-! ## `copy` and `sequence_equals` -/

theorem copy_rep {m : Mem T} {l k : Nat} {cells : List (Nat × T)} (h : Rep m l cells k) :
    ∃ m1 oc k1, copy (some l) m = some (some m.brk, m1)
      ∧ Rep m1 m.brk oc k1
      ∧ oc.map Prod.snd = cells.map Prod.snd
      ∧ (∀ d ∈ oc, m.brk ≤ d.1)
      ∧ Agree m.brk m m1
      ∧ Rep m1 l cells k := by
  obtain ⟨-, hr0, ha0, hk0⟩ := create_agree m
  have hl : l < m.brk := h.2.2.2.2.2
  have hc : ∀ c ∈ cells, c.1 < m.brk := h.2.2.2.2.1
  have h1 := h.agree hl hc ha0
  have hb1 := h1.1
  cases cells with
  | nil =>
    refine ⟨(create m).2, [], 0, ?_, hr0, rfl, by simp, ha0, h1⟩
    simp only [copy, hb1, Option.bind_eq_bind, Option.some_bind, List.length_nil, Nat.cast_zero,
      if_true]
    rfl
  | cons c cs =>
    obtain ⟨m1, oc, k1, e1, hr1, hv1, hoc1, ha1, hs1⟩ := collect_from_create
      (fun _ _ => some true) (fun _ => true) h (fun _ _ _ => rfl)
    refine ⟨m1, oc, k1, ?_, hr1, by simpa using hv1, hoc1, ha1, hs1⟩
    have hz : ¬ (((c :: cs).length : Int) = 0) := by simp; omega
    simp only [copy, hb1, Option.bind_eq_bind, Option.some_bind, hz, if_false, create_fst, e1]

end ListT

namespace ListT

variable {T : Type}

theorem sequence_equals_loop_same (expression : T → T → bool_t) (m : Mem T)
    (hrefl : ∀ v, expression v v ≠ 0) :
    ∀ (xs ys : List (Nat × T)) (p1 p2 : nodePointer) (fuel : Nat),
      Seg m.node p1 xs none → Seg m.node p2 ys none → ys.map Prod.snd = xs.map Prod.snd →
      xs.length < fuel →
      sequence_equals_loop expression m fuel (firstOr xs none) (firstOr ys none) = some TRUE := by
  intro xs
  induction xs with
  | nil =>
    intro ys p1 p2 fuel _ _ _ _
    cases fuel <;> simp [sequence_equals_loop]
  | cons c cs ih =>
    intro ys p1 p2 fuel h1 h2 hv hf
    obtain ⟨f, rfl⟩ : ∃ f, fuel = f + 1 := ⟨fuel - 1, by simp at hf; omega⟩
    cases ys with
    | nil => simp at hv
    | cons d ds =>
      simp only [List.map_cons, List.cons.injEq] at hv
      obtain ⟨hc, hs1⟩ := h1
      obtain ⟨hd, hs2⟩ := h2
      have := ih ds (some c.1) (some d.1) f hs1 hs2 hv.2 (by simp at hf; omega)
      simp only [firstOr_cons, sequence_equals_loop, infoOf_some hc, infoOf_some hd,
        nextOf_some hc, nextOf_some hd, Option.bind_eq_bind, Option.some_bind, hv.1,
        hrefl c.2, if_false]
      exact this

theorem sequence_equals_same {m : Mem T} {l1 l2 k1 k2 : Nat} {xs ys : List (Nat × T)}
    (expression : T → T → bool_t) (hrefl : ∀ v, expression v v ≠ 0)
    (h1 : Rep m l1 xs k1) (h2 : Rep m l2 ys k2) (hv : ys.map Prod.snd = xs.map Prod.snd) :
    sequence_equals (some l1) (some l2) expression m = some TRUE := by
  have hlen := h1.length_le
  have hl : ys.length = xs.length := by
    have := congrArg List.length hv
    simpa using this
  have e := sequence_equals_loop_same expression m hrefl xs ys none none (m.brk + 1)
    h1.2.2.1 h2.2.2.1 hv (by omega)
  simp only [sequence_equals, h1.1, h2.1, Option.bind_eq_bind, Option.some_bind, hl, ne_eq,
    not_true_eq_false, if_false, e]

/-- C13. For every list `L` (empty or not) and every reflexive predicate `eq`,
`copy` returns a new handle; `sequence_equals L (copy L) eq` is `TRUE`; the copy
holds the values of `L` in the same order and has the same length; and the
elements, the length and the generation counter of `L` are as before. -/
theorem copy_round_trip (m : Mem T) (l k : Nat) (cells : List (Nat × T)) (eq : T → T → bool_t)
    (h : Rep m l cells k) (hrefl : ∀ v, eq v v ≠ 0) :
    ∃ out m1, copy (some l) m = some (some out, m1)
      ∧ out ≠ l
      ∧ sequence_equals (some l) (some out) eq m1 = some TRUE
      ∧ elements (some out) m1 = some (cells.map Prod.snd)
      ∧ size (some out) m1 = some (cells.length : Int)
      ∧ Rep m1 l cells k
      ∧ elements (some l) m1 = some (cells.map Prod.snd)
      ∧ size (some l) m1 = some (cells.length : Int)
      ∧ sync_of (some l) m1 = some k
      ∧ elements (some l) m = some (cells.map Prod.snd)
      ∧ size (some l) m = some (cells.length : Int)
      ∧ sync_of (some l) m = some k := by
  obtain ⟨m1, oc, k1, e1, hr1, hv1, -, -, hs1⟩ := copy_rep h
  have hl : l < m.brk := h.2.2.2.2.2
  refine ⟨m.brk, m1, e1, by omega, sequence_equals_same eq hrefl hs1 hr1 hv1, ?_, ?_,
    hs1, hs1.elements, hs1.size, hs1.sync_of, h.elements, h.size, h.sync_of⟩
  · rw [hr1.elements, hv1]
  · rw [hr1.size]
    have := congrArg List.length hv1
    simp only [List.length_map] at this
    rw [this]

/-- Witness for C13: the copy of `[10, 20, 30]` under the equality predicate. -/
theorem copy_round_trip_witness :
    Rep (built [10, 20, 30]) 0 [(1, 10), (2, 20), (3, 30)] 3
      ∧ (∀ v, equalsInt v v ≠ 0)
      ∧ ∃ out m1, copy (some 0) (built [10, 20, 30]) = some (some out, m1)
        ∧ sequence_equals (some 0) (some out) equalsInt m1 = some TRUE
        ∧ elements (some out) m1 = some [10, 20, 30]
        ∧ elements (some 0) m1 = some [10, 20, 30]
        ∧ sync_of (some 0) m1 = some 3 := by
  have hr : ∀ v, equalsInt v v ≠ 0 := by
    intro v
    simp [equalsInt, TRUE]
  refine ⟨by decide, hr, ?_⟩
  obtain ⟨out, m1, e1, -, h2, h3, -, -, h4, -, h5, -⟩ := copy_round_trip (built [10, 20, 30]) 0 3
    [(1, 10), (2, 20), (3, 30)] equalsInt (by decide) hr
  exact ⟨out, m1, e1, h2, h3, h4, h5⟩

end ListT

namespace ListT

variable {T : Type}

/-! ## Overwriting a value -/

theorem setInfoAt_append (pre : List (Nat × T)) (c : Nat × T) (post : List (Nat × T)) (v : T) :
    setInfoAt (pre ++ c :: post) pre.length v = pre ++ (c.1, v) :: post := by
  induction pre with
  | nil => rfl
  | cons d ds ih => simp [setInfoAt, ih]

theorem setInfoAt_length (cells : List (Nat × T)) (i : Nat) (v : T) :
    (setInfoAt cells i v).length = cells.length := by
  induction cells generalizing i with
  | nil => rfl
  | cons c cs ih => cases i <;> simp [setInfoAt, ih]

theorem setInfoAt_map_snd (cells : List (Nat × T)) (i : Nat) (v : T) :
    (setInfoAt cells i v).map Prod.snd = (cells.map Prod.snd).set i v := by
  induction cells generalizing i with
  | nil => rfl
  | cons c cs ih => cases i <;> simp [setInfoAt, ih]

theorem setInfoAt_map_fst (cells : List (Nat × T)) (i : Nat) (v : T) :
    (setInfoAt cells i v).map Prod.fst = cells.map Prod.fst := by
  induction cells generalizing i with
  | nil => rfl
  | cons c cs ih => cases i <;> simp [setInfoAt, ih]

theorem setInfo_rep {m : Mem T} {l k : Nat} (pre : List (Nat × T)) (c : Nat × T)
    (post : List (Nat × T)) (v : T) (h : Rep m l (pre ++ c :: post) k) :
    ∃ m1, m.setInfo (some c.1) v = some m1
      ∧ Rep m1 l (pre ++ (c.1, v) :: post) k
      ∧ m1.brk = m.brk ∧ m1.base = m.base
      ∧ (∀ a, a ≠ c.1 → m1.node a = m.node a) := by
  obtain ⟨hb, hk, hs, hn, hlt, hl⟩ := h
  have hc := Seg_mid hs
  obtain ⟨n1, n2, -⟩ := nodup_mid hn
  have h1 := ((Seg_append m.node pre (c :: post) none none).1 hs).1
  have h2 := ((Seg_append m.node pre (c :: post) none none).1 hs).2.2
  simp only [Mem.setInfo, hc]
  refine ⟨_, rfl, ⟨?_, hk, ?_, ?_, ?_, hl⟩, rfl, rfl, ?_⟩
  · simpa using hb
  · rw [Seg_append]
    refine ⟨Seg_congr ?_ h1, ?_, Seg_congr ?_ h2⟩
    · intro d hd
      simp [Function.update_noteq (n1 d hd)]
    · simp
    · intro d hd
      simp [Function.update_noteq (n2 d hd)]
  · simpa using hn
  · intro d hd
    have : d = (c.1, v) ∨ d ∈ pre ++ c :: post := by
      simp only [List.mem_append, List.mem_cons] at hd ⊢; tauto
    rcases this with rfl | hd
    · exact hlt c (by simp)
    · exact hlt d hd
  · intro a ha
    simp [Function.update_noteq ha]

theorem Rep.setSync {m : Mem T} {l k : Nat} {cells : List (Nat × T)} (h : Rep m l cells k)
    (k1 : Nat) (hk1 : k1 < 2 ^ 32) :
    Rep (m.setBase l ⟨firstOr cells none, lastOr cells none, (cells.length : Int), k1⟩)
      l cells k1 := by
  obtain ⟨hb, hk, hs, hn, hlt, hl⟩ := h
  exact ⟨by simp [Mem.setBase], hk1, hs, hn, hlt, hl⟩

end ListT

namespace ListT

variable {T : Type}

theorem firstOr_setInfo (pre : List (Nat × T)) (c : Nat × T) (post : List (Nat × T)) (v : T)
    (d : nodePointer) : firstOr (pre ++ (c.1, v) :: post) d = firstOr (pre ++ c :: post) d := by
  cases pre <;> rfl

theorem lastOr_setInfo (pre : List (Nat × T)) (c : Nat × T) (post : List (Nat × T)) (v : T)
    (d : nodePointer) : lastOr (pre ++ (c.1, v) :: post) d = lastOr (pre ++ c :: post) d := by
  simp

/-- Overwriting the value of one node and incrementing `sync`. -/
theorem setInfo_sync_rep {m : Mem T} {l k : Nat} (pre : List (Nat × T)) (c : Nat × T)
    (post : List (Nat × T)) (v : T) (h : Rep m l (pre ++ c :: post) k) :
    ∃ m1, m.setInfo (some c.1) v = some m1
      ∧ Rep (m1.setBase l ⟨firstOr (pre ++ c :: post) none, lastOr (pre ++ c :: post) none,
            ((pre ++ c :: post).length : Int), syncPlus k⟩)
          l (pre ++ (c.1, v) :: post) (syncPlus k) := by
  obtain ⟨m1, e1, h1, -⟩ := setInfo_rep pre c post v h
  refine ⟨m1, e1, ?_⟩
  have := h1.setSync (syncPlus k) (syncPlus_lt k)
  rw [firstOr_setInfo, lastOr_setInfo] at this
  simpa using this

/-! ## `replace_at` -/

theorem replace_at_out_of_range {m : Mem T} {l k : Nat} {cells : List (Nat × T)}
    (conv : T → bool_t) (item : T) (h : Rep m l cells k) (i : Int)
    (hi : i < 0 ∨ i ≥ cells.length) :
    replace_at conv item (some l) i m = some (FALSE, m) := by
  obtain ⟨hb, -, -, -, -, -⟩ := h
  simp only [replace_at, hb, Option.bind_eq_bind, Option.some_bind, hi, if_true]

theorem replace_at_head {m : Mem T} {l k : Nat} {cells : List (Nat × T)}
    (conv : T → bool_t) (item : T) (h : Rep m l cells k) (i : Nat) (hi : i < cells.length)
    (hh : (i : Int) ≤ Int.tdiv (cells.length : Int) 2) :
    ∃ m1, replace_at conv item (some l) (i : Int) m = some (TRUE, m1)
      ∧ Rep m1 l (setInfoAt cells i item) (syncPlus k) := by
  have hlen := h.length_le
  have e := split_at_index cells i hi
  have hl : (cells.take i).length = i := by rw [List.length_take]; omega
  generalize cells.take i = pre at e hl
  generalize cells[i] = c at e
  generalize cells.drop (i + 1) = post at e
  subst e
  subst hl
  obtain ⟨m1, e1, h1⟩ := setInfo_sync_rep pre c post item h
  obtain ⟨hb, -, hs, -, -, -⟩ := h
  simp only [List.length_append, List.length_cons] at hlen
  have s1 := seekNext_spec m pre.length pre c post none none (m.brk + 1) 0 hs
    (by omega) (by simp)
  have c1 : ((pre.length : Int) < 0 ∨ (pre.length : Int) ≥ ((pre ++ c :: post).length : Int))
      ↔ False := iff_false_intro (by
    simp only [List.length_append, List.length_cons]; push_cast; omega)
  simp only [replace_at, hb, Option.bind_eq_bind, Option.some_bind, c1, if_false, hh,
    decide_True, if_true, s1, reduceCtorEq, e1]
  exact ⟨_, rfl, by rw [setInfoAt_append]; exact h1⟩

theorem replace_at_tail {m : Mem T} {l k : Nat} (init : List (Nat × T)) (t : Nat × T)
    (conv : T → bool_t) (item : T) (h : Rep m l (init ++ [t]) k) (i : Nat)
    (hi : i < (init ++ [t]).length)
    (hh : ¬ (i : Int) ≤ Int.tdiv ((init ++ [t]).length : Int) 2) :
    (i = init.length → replace_at conv item (some l) (i : Int) m = some (conv t.2, m))
    ∧ (i ≠ init.length → ∃ m1, replace_at conv item (some l) (i : Int) m = some (TRUE, m1)
        ∧ Rep m1 l (init ++ [(t.1, item)]) (syncPlus k)) := by
  obtain ⟨m1, e1, h1⟩ := setInfo_sync_rep init t [] item h
  obtain ⟨hb, -, hs, -, -, -⟩ := h
  have ht := Seg_mid hs
  have c1 : ((i : Int) < 0 ∨ (i : Int) ≥ ((init ++ [t]).length : Int)) ↔ False :=
    iff_false_intro (by omega)
  have e2 : lastOr (init ++ [t]) none = some t.1 := by simp
  constructor
  · intro hi1
    have c2 : (((init ++ [t]).length : Int) - 1 = (i : Int)) ↔ True := iff_true_intro (by
      simp only [List.length_append, List.length_singleton]; push_cast; omega)
    simp only [replace_at, hb, Option.bind_eq_bind, Option.some_bind, c1, if_false, hh,
      decide_False, Bool.false_eq_true, e2, reduceCtorEq, c2, if_true, infoOf_some ht]
  · intro hi1
    have c2 : (((init ++ [t]).length : Int) - 1 = (i : Int)) ↔ False := iff_false_intro (by
      simp only [List.length_append, List.length_singleton] at hi ⊢; push_cast; omega)
    simp only [replace_at, hb, Option.bind_eq_bind, Option.some_bind, c1, if_false, hh,
      decide_False, Bool.false_eq_true, e2, reduceCtorEq, c2, e1]
    rw [e2] at h1
    exact ⟨_, rfl, h1⟩

end ListT

namespace ListT

variable {T : Type}

theorem replace_at_total {m : Mem T} {l k : Nat} {cells : List (Nat × T)}
    (conv : T → bool_t) (item : T) (h : Rep m l cells k) (index : Int) :
    ∃ r m1 cells1 k1, replace_at conv item (some l) index m = some (r, m1)
      ∧ Rep m1 l cells1 k1 ∧ cells1.length = cells.length
      ∧ (r = FALSE → m1 = m) := by
  by_cases hr : index < 0 ∨ index ≥ cells.length
  · exact ⟨_, m, cells, k, replace_at_out_of_range conv item h index hr, h, rfl, fun _ => rfl⟩
  · obtain ⟨i, rfl⟩ : ∃ i : Nat, index = (i : Int) := ⟨index.toNat, by omega⟩
    have hi : i < cells.length := by omega
    by_cases hh : (i : Int) ≤ Int.tdiv (cells.length : Int) 2
    · obtain ⟨m1, e1, h1⟩ := replace_at_head conv item h i hi hh
      exact ⟨_, m1, _, _, e1, h1, setInfoAt_length _ _ _,
        fun e => absurd e TRUE_ne_FALSE⟩
    · rcases list_nil_or_snoc cells with rfl | ⟨init, t, rfl⟩
      · simp at hi
      · obtain ⟨a1, a2⟩ := replace_at_tail init t conv item h i hi hh
        by_cases hl : i = init.length
        · exact ⟨_, m, _, k, a1 hl, h, rfl, fun _ => rfl⟩
        · obtain ⟨m1, e1, h1⟩ := a2 hl
          exact ⟨_, m1, _, _, e1, h1, by simp, fun e => absurd e TRUE_ne_FALSE⟩

/-! ## `swap` -/

theorem swap_guard {m : Mem T} {l k : Nat} {cells : List (Nat × T)} (conv : T → bool_t)
    (h : Rep m l cells k) (i j : Int)
    (hg : i < 0 ∨ i ≥ cells.length ∨ j < 0 ∨ j ≥ cells.length ∨ i = j) :
    swap conv (some l) i j m = some (FALSE, m) := by
  obtain ⟨hb, -, -, -, -, -⟩ := h
  simp only [swap, hb, Option.bind_eq_bind, Option.some_bind, hg, if_true, ite_self]

theorem swap_in_range {m : Mem T} {l k : Nat} {cells : List (Nat × T)} (conv : T → bool_t)
    (h : Rep m l cells k) (i j : Nat) (hi : i < cells.length) (hj : j < cells.length)
    (hij : i ≠ j) :
    ∃ v1 v2, (cells.map Prod.snd)[i]? = some v1 ∧ (cells.map Prod.snd)[j]? = some v2
      ∧ swap conv (some l) (i : Int) (j : Int) m
        = (replace_at conv v2 (some l) (i : Int) m).bind
            (fun r1 => (replace_at conv v1 (some l) (j : Int) r1.2).bind
              (fun r2 => some (TRUE, r2.2))) := by
  have g1 := get_in_range h i hi
  have g2 := get_in_range h j hj
  have e1 : (cells.map Prod.snd)[i]? = some (cells[i]).2 := by simp [hi]
  have e2 : (cells.map Prod.snd)[j]? = some (cells[j]).2 := by simp [hj]
  rw [e1] at g1
  rw [e2] at g2
  refine ⟨_, _, e1, e2, ?_⟩
  obtain ⟨hb, -, -, -, -, -⟩ := h
  have c0 : ((cells.length : Int) = 0) ↔ False := iff_false_intro (by omega)
  have c1 : ((i : Int) < 0 ∨ (i : Int) ≥ cells.length ∨ (j : Int) < 0 ∨ (j : Int) ≥ cells.length
      ∨ (i : Int) = (j : Int)) ↔ False := iff_false_intro (by omega)
  simp only [swap, hb, Option.bind_eq_bind, Option.some_bind, c0, c1, if_false, g1, g2]

theorem swap_total {m : Mem T} {l k : Nat} {cells : List (Nat × T)} (conv : T → bool_t)
    (h : Rep m l cells k) (i j : Int) :
    ∃ r m1 cells1 k1, swap conv (some l) i j m = some (r, m1) ∧ Rep m1 l cells1 k1
      ∧ (r = FALSE → m1 = m) := by
  by_cases hg : i < 0 ∨ i ≥ cells.length ∨ j < 0 ∨ j ≥ cells.length ∨ i = j
  · exact ⟨_, m, cells, k, swap_guard conv h i j hg, h, fun _ => rfl⟩
  · obtain ⟨a, rfl⟩ : ∃ a : Nat, i = (a : Int) := ⟨i.toNat, by omega⟩
    obtain ⟨b, rfl⟩ : ∃ b : Nat, j = (b : Int) := ⟨j.toNat, by omega⟩
    obtain ⟨v1, v2, -, -, e⟩ := swap_in_range conv h a b (by omega) (by omega) (by omega)
    obtain ⟨r1, m1, cells1, k1, e1, h1, -, -⟩ := replace_at_total conv v2 h (a : Int)
    obtain ⟨r2, m2, cells2, k2, e2, h2, -, -⟩ := replace_at_total conv v1 h1 (b : Int)
    refine ⟨TRUE, m2, cells2, k2, ?_, h2, fun e => absurd e TRUE_ne_FALSE⟩
    rw [e, e1]
    simp only [Option.bind_eq_bind, Option.some_bind, e2]

theorem swap_head {m : Mem T} {l k : Nat} {cells : List (Nat × T)} (conv : T → bool_t)
    (h : Rep m l cells k) (i j : Nat) (hi : i < cells.length) (hj : j < cells.length)
    (hij : i ≠ j) (hhi : (i : Int) ≤ Int.tdiv (cells.length : Int) 2)
    (hhj : (j : Int) ≤ Int.tdiv (cells.length : Int) 2) :
    ∃ v1 v2 m1, (cells.map Prod.snd)[i]? = some v1 ∧ (cells.map Prod.snd)[j]? = some v2
      ∧ swap conv (some l) (i : Int) (j : Int) m = some (TRUE, m1)
      ∧ Rep m1 l (setInfoAt (setInfoAt cells i v2) j v1) (syncPlus (syncPlus k)) := by
  obtain ⟨v1, v2, a1, a2, e⟩ := swap_in_range conv h i j hi hj hij
  obtain ⟨m1, e1, h1⟩ := replace_at_head conv v2 h i hi hhi
  obtain ⟨m2, e2, h2⟩ := replace_at_head conv v1 h1 j
    (by rw [setInfoAt_length]; exact hj) (by rw [setInfoAt_length]; exact hhj)
  refine ⟨v1, v2, m2, a1, a2, ?_, h2⟩
  rw [e, e1]
  simp only [Option.bind_eq_bind, Option.some_bind, e2]

end ListT

namespace ListT

variable {T : Type}

section

variable [DecidableEq T]

/-! ## `replace_item` and `replace_all_items` -/

theorem replace_item_absent {m : Mem T} {l k : Nat} {cells : List (Nat × T)}
    (target replacement : T) (h : Rep m l cells k) (hne : ∀ d ∈ cells, d.2 ≠ target) :
    replace_item target replacement (some l) m = some (FALSE, m) := by
  have hlen := h.length_le
  obtain ⟨hb, -, hs, -, -, -⟩ := h
  have h1 := remove_item_loop_absent m target cells none (m.brk + 1) hs (by omega) hne
  simp only [replace_item, hb, Option.bind_eq_bind, Option.some_bind, h1, if_true, ite_self]

theorem replace_item_rep {m : Mem T} {l k : Nat} (target replacement : T)
    (pre : List (Nat × T)) (c : Nat × T) (post : List (Nat × T))
    (h : Rep m l (pre ++ c :: post) k) (hpre : ∀ d ∈ pre, d.2 ≠ target) (hc : c.2 = target) :
    ∃ m1, replace_item target replacement (some l) m = some (TRUE, m1)
      ∧ Rep m1 l (pre ++ (c.1, replacement) :: post) (syncPlus k) := by
  have hlen := h.length_le
  obtain ⟨m1, e1, h1⟩ := setInfo_sync_rep pre c post replacement h
  obtain ⟨hb, -, hs, -, -, -⟩ := h
  simp only [List.length_append, List.length_cons] at hlen
  have s1 := remove_item_loop_found m target pre c post none none (m.brk + 1) hs
    (by omega) hpre hc
  have c0 : (((pre ++ c :: post).length : Int) = 0) ↔ False := iff_false_intro (by
    simp only [List.length_append, List.length_cons]; push_cast; omega)
  simp only [replace_item, hb, Option.bind_eq_bind, Option.some_bind, c0, if_false, s1,
    reduceCtorEq, e1]
  exact ⟨_, rfl, h1⟩

/-- The cells after `replace_all_items`: every value equal to the target is
overwritten. -/
theorem replace_all_items_loop_spec (target replacement : T) (l : Nat)
    (rest : List (Nat × T)) :
    ∀ (m : Mem T) (done : List (Nat × T)) (k : Nat) (total : Int) (fuel : Nat),
      Rep m l (done ++ rest) k → rest.length < fuel →
      ∃ m1, replace_all_items_loop target replacement fuel m (firstOr rest none) total
          = some (total + (rest.countP (fun d => decide (d.2 = target)) : Nat), m1)
        ∧ Rep m1 l (done ++ rest.map
            (fun d => if d.2 = target then (d.1, replacement) else d)) k
        ∧ m1.base = m.base ∧ m1.brk = m.brk
        ∧ (rest.countP (fun d => decide (d.2 = target)) = 0 → m1 = m) := by
  induction rest with
  | nil =>
    intro m done k total fuel h _
    refine ⟨m, ?_, by simpa using h, rfl, rfl, fun _ => rfl⟩
    cases fuel <;> simp [replace_all_items_loop]
  | cons c cs ih =>
    intro m done k total fuel h hf
    obtain ⟨f, rfl⟩ : ∃ f, fuel = f + 1 := ⟨fuel - 1, by simp at hf; omega⟩
    have hc := Seg_mid h.2.2.1
    by_cases hci : c.2 = target
    · obtain ⟨m1, e1, h1, hk1, hb1, -⟩ := setInfo_rep done c cs replacement h
      have hc1 := Seg_mid h1.2.2.1
      have e : done ++ (c.1, replacement) :: cs = (done ++ [(c.1, replacement)]) ++ cs := by
        simp
      obtain ⟨m2, e2, h2, hb2, hk2, -⟩ := ih m1 (done ++ [(c.1, replacement)]) k (total + 1) f
        (e ▸ h1) (by simp at hf; omega)
      refine ⟨m2, ?_, ?_, hb2.trans hb1, hk2.trans hk1, ?_⟩
      · simp only [firstOr_cons, replace_all_items_loop, infoOf_some hc, Option.bind_eq_bind,
          Option.some_bind, hci, if_true, e1, nextOf_some hc1]
        rw [e2]
        simp only [List.countP_cons, hci, decide_True, if_true]
        push_cast
        congr 2
        ring
      · simpa [hci] using h2
      · intro hz
        simp [List.countP_cons, hci] at hz
    · have e : done ++ c :: cs = (done ++ [c]) ++ cs := by simp
      obtain ⟨m2, e2, h2, hb2, hk2, hz2⟩ := ih m (done ++ [c]) k total f (e ▸ h)
        (by simp at hf; omega)
      refine ⟨m2, ?_, ?_, hb2, hk2, ?_⟩
      · simp only [firstOr_cons, replace_all_items_loop, infoOf_some hc, Option.bind_eq_bind,
          Option.some_bind, hci, if_false, nextOf_some hc]
        rw [e2]
        simp [List.countP_cons, hci]
      · simpa [hci] using h2
      · intro hz
        exact hz2 (by simpa [List.countP_cons, hci] using hz)

theorem replace_all_items_rep {m : Mem T} {l k : Nat} (target replacement : T)
    (cells : List (Nat × T)) (h : Rep m l cells k) :
    ∃ m1, replace_all_items target replacement (some l) m
        = some (if (cells.map Prod.snd).count target = 0 then -1
                else (((cells.map Prod.snd).count target : Nat) : Int), m1)
      ∧ Rep m1 l (cells.map (fun d => if d.2 = target then (d.1, replacement) else d))
          (if (cells.map Prod.snd).count target = 0 then k else syncPlus k)
      ∧ ((cells.map Prod.snd).count target = 0 → m1 = m) := by
  have hlen := h.length_le
  have hb0 := h.1
  cases cells with
  | nil =>
    refine ⟨m, ?_, by simpa using h, fun _ => rfl⟩
    simp [replace_all_items, hb0]
  | cons c cs =>
    obtain ⟨m1, e1, h1, hb1, hk1, hz1⟩ := replace_all_items_loop_spec target replacement l
      (c :: cs) m [] k 0 (m.brk + 1) (by simpa using h) (by omega)
    rw [countP_eq_count] at e1 hz1
    have c0 : (((c :: cs).length : Int) = 0) ↔ False := iff_false_intro (by simp; omega)
    simp only [replace_all_items, hb0, Option.bind_eq_bind, Option.some_bind, c0, if_false, e1,
      zero_add]
    by_cases hz : (List.map Prod.snd (c :: cs)).count target = 0
    · have := hz1 hz
      subst this
      simp only [hz, Nat.cast_zero, ne_eq, not_true_eq_false, if_false, if_true]
      exact ⟨_, rfl, by simpa using h1, fun _ => rfl⟩
    · have hz2 : ¬ ((((List.map Prod.snd (c :: cs)).count target : Nat) : Int) = 0) := by
        exact_mod_cast hz
      have hb2 := h1.1
      simp only [List.nil_append] at hb2
      simp only [hz, hz2, ne_eq, not_false_eq_true, if_true, if_false, hb2, Option.some_bind]
      refine ⟨_, rfl, ?_, fun e => False.elim e⟩
      have := h1.setSync (syncPlus k) (syncPlus_lt k)
      simpa using this

end

end ListT

namespace ListT

variable {T : Type}

section

variable [DecidableEq T]

theorem remove_all_items_loop_absent (item : T) (l : Nat) (m : Mem T) (cells : List (Nat × T))
    (p : nodePointer) (fuel : Nat) (total : Int)
    (hs : Seg m.node p cells none) (hf : cells.length < fuel)
    (hne : ∀ d ∈ cells, d.2 ≠ item) :
    remove_all_items_loop item l fuel m (firstOr cells none) total
      = some (if total = 0 then -1 else total, m) := by
  induction cells generalizing p fuel with
  | nil => cases fuel <;> simp [remove_all_items_loop]
  | cons d ds ih =>
    obtain ⟨f, rfl⟩ : ∃ f, fuel = f + 1 := ⟨fuel - 1, by simp at hf; omega⟩
    obtain ⟨h1, h2⟩ := hs
    have hd : d.2 ≠ item := hne d (List.mem_cons_self _ _)
    have := ih (some d.1) f h2 (by simp at hf; omega)
      (fun e he => hne e (List.mem_cons_of_mem _ he))
    simp only [firstOr_cons, remove_all_items_loop, infoOf_some h1, nextOf_some h1,
      Option.bind_eq_bind, Option.some_bind, hd, if_false]
    exact this

theorem remove_all_items_absent {m : Mem T} {l k : Nat} {cells : List (Nat × T)} (item : T)
    (h : Rep m l cells k) (hne : ∀ d ∈ cells, d.2 ≠ item) :
    remove_all_items item (some l) m = some (-1, m) := by
  have hlen := h.length_le
  obtain ⟨hb, -, hs, -, -, -⟩ := h
  have h1 := remove_all_items_loop_absent item l m cells none (m.brk + 1) 0 hs (by omega) hne
  cases cells with
  | nil => simp [remove_all_items, hb]
  | cons c post =>
    have hc : m.node c.1 = some ⟨none, c.2, firstOr post none⟩ := hs.1
    have hci : c.2 ≠ item := hne c (by simp)
    simp only [firstOr_cons] at h1
    simp only [remove_all_items, hb, Option.bind_eq_bind, Option.some_bind, h1, firstOr_cons,
      infoOf_some hc, hci, if_false, if_true, ite_self]

/-- The result of `remove_all_items` is `-1` only when nothing matches, and then
the heap is untouched. -/
theorem remove_all_items_total {m : Mem T} {l k : Nat} {cells : List (Nat × T)} (item : T)
    (h : Rep m l cells k) :
    ∃ r m1, remove_all_items item (some l) m = some (r, m1) ∧ (r = -1 → m1 = m) := by
  by_cases hm : ∃ d ∈ cells, d.2 = item
  · obtain ⟨m1, e1, -, -⟩ := remove_all_items_rep item cells h
    refine ⟨_, m1, e1, ?_⟩
    intro hr
    exfalso
    have hpos : 0 < cells.countP (fun d => decide (d.2 = item)) := by
      obtain ⟨d, hd, hd2⟩ := hm
      exact List.countP_pos_iff.2 ⟨d, hd, by simpa using hd2⟩
    have hz : ¬ (cells.countP (fun d => decide (d.2 = item)) = 0) := by omega
    simp only [hz, if_false] at hr
    omega
  · have hne : ∀ d ∈ cells, d.2 ≠ item := fun d hd hd2 => hm ⟨d, hd, hd2⟩
    exact ⟨_, m, remove_all_items_absent item h hne, fun _ => rfl⟩

end

end ListT

namespace ListT

variable {T : Type}

theorem add_at_total {m : Mem T} {l k : Nat} {cells : List (Nat × T)} (item : T)
    (h : Rep m l cells k) (index : Int) :
    ∃ r m1, add_at item (some l) index m = some (r, m1) ∧ (r = FALSE → m1 = m)
      ∧ (r = TRUE → sync_of (some l) m1 = some (syncPlus k)) := by
  by_cases hr : index < 0 ∨ index ≥ cells.length
  · exact ⟨_, m, add_at_out_of_range item h index hr, fun _ => rfl,
      fun e => absurd e.symm TRUE_ne_FALSE⟩
  · by_cases hz : index = 0
    · subst hz
      have hne : cells ≠ [] := by
        rintro rfl
        simp at hr
      obtain ⟨m1, e1, h1⟩ := add_at_zero_appends item h hne
      exact ⟨_, m1, e1, fun e => absurd e TRUE_ne_FALSE, fun _ => h1.sync_of⟩
    · obtain ⟨i, rfl⟩ : ∃ i : Nat, index = (i : Int) := ⟨index.toNat, by omega⟩
      obtain ⟨m1, e1, h1⟩ := add_at_in_range item h i (by omega) (by omega)
      exact ⟨_, m1, e1, fun e => absurd e TRUE_ne_FALSE, fun _ => h1.sync_of⟩

theorem remove_at_total {m : Mem T} {l k : Nat} {cells : List (Nat × T)}
    (h : Rep m l cells k) (index : Int) :
    ∃ r m1, remove_at (some l) index m = some (r, m1) ∧ (r = FALSE → m1 = m)
      ∧ (r = TRUE → sync_of (some l) m1 = some (syncPlus k)) := by
  by_cases hr : index < 0 ∨ index ≥ cells.length
  · exact ⟨_, m, remove_at_out_of_range h index hr, fun _ => rfl,
      fun e => absurd e.symm TRUE_ne_FALSE⟩
  · obtain ⟨i, rfl⟩ : ∃ i : Nat, index = (i : Int) := ⟨index.toNat, by omega⟩
    obtain ⟨m1, e1, h1⟩ := remove_at_in_range h i (by omega)
    exact ⟨_, m1, e1, fun e => absurd e TRUE_ne_FALSE, fun _ => h1.sync_of⟩

section

variable [DecidableEq T]

theorem replace_item_total {m : Mem T} {l k : Nat} {cells : List (Nat × T)}
    (target replacement : T) (h : Rep m l cells k) :
    ∃ r m1, replace_item target replacement (some l) m = some (r, m1) ∧ (r = FALSE → m1 = m)
      ∧ (r = TRUE → sync_of (some l) m1 = some (syncPlus k)) := by
  by_cases hm : ∃ d ∈ cells, d.2 = target
  · obtain ⟨pre, c, post, e, hc, hpre⟩ := split_first (fun d : Nat × T => d.2 = target) cells hm
    subst e
    obtain ⟨m1, e1, h1⟩ := replace_item_rep target replacement pre c post h hpre hc
    exact ⟨_, m1, e1, fun e => absurd e TRUE_ne_FALSE, fun _ => h1.sync_of⟩
  · have hne : ∀ d ∈ cells, d.2 ≠ target := fun d hd hd2 => hm ⟨d, hd, hd2⟩
    exact ⟨_, m, replace_item_absent target replacement h hne, fun _ => rfl,
      fun e => absurd e.symm TRUE_ne_FALSE⟩

/-- C12. Failure atomicity on a well-formed list: each of `add_at`, `remove_item`,
`remove_at`, `replace_item`, `replace_at` and `swap` returns, and when the result
is `FALSE` the heap is the heap before the call; `remove_all_items` and
`replace_all_items` return, and when the result is `-1` the heap is the heap
before the call.  So the list has the same elements in the same order, the same
length and the same generation counter. -/
theorem failure_atomicity (m : Mem T) (l k : Nat) (cells : List (Nat × T))
    (conv : T → bool_t) (h : Rep m l cells k) :
    (∀ item index, ∃ r m1, add_at item (some l) index m = some (r, m1) ∧ (r = FALSE → m1 = m))
    ∧ (∀ item, ∃ r m1, remove_item item (some l) m = some (r, m1) ∧ (r = FALSE → m1 = m))
    ∧ (∀ index, ∃ r m1, remove_at (some l) index m = some (r, m1) ∧ (r = FALSE → m1 = m))
    ∧ (∀ target replacement, ∃ r m1,
        replace_item target replacement (some l) m = some (r, m1) ∧ (r = FALSE → m1 = m))
    ∧ (∀ item index, ∃ r m1,
        replace_at conv item (some l) index m = some (r, m1) ∧ (r = FALSE → m1 = m))
    ∧ (∀ index1 index2, ∃ r m1,
        swap conv (some l) index1 index2 m = some (r, m1) ∧ (r = FALSE → m1 = m))
    ∧ (∀ item, ∃ r m1, remove_all_items item (some l) m = some (r, m1) ∧ (r = -1 → m1 = m))
    ∧ (∀ target replacement, ∃ r m1,
        replace_all_items target replacement (some l) m = some (r, m1) ∧ (r = -1 → m1 = m))
    ∧ elements (some l) m = some (cells.map Prod.snd)
    ∧ size (some l) m = some (cells.length : Int)
    ∧ sync_of (some l) m = some k := by
  refine ⟨?_, ?_, ?_, ?_, ?_, ?_, ?_, ?_, h.elements, h.size, h.sync_of⟩
  · intro item index
    obtain ⟨r, m1, e, hf, -⟩ := add_at_total item h index
    exact ⟨r, m1, e, hf⟩
  · intro item
    rcases remove_item_total item h with ⟨-, e⟩ | ⟨-, m1, cells1, e, -, -⟩
    · exact ⟨_, m, e, fun _ => rfl⟩
    · exact ⟨_, m1, e, fun e1 => absurd e1 TRUE_ne_FALSE⟩
  · intro index
    obtain ⟨r, m1, e, hf, -⟩ := remove_at_total h index
    exact ⟨r, m1, e, hf⟩
  · intro target replacement
    obtain ⟨r, m1, e, hf, -⟩ := replace_item_total target replacement h
    exact ⟨r, m1, e, hf⟩
  · intro item index
    obtain ⟨r, m1, -, -, e, -, -, hf⟩ := replace_at_total conv item h index
    exact ⟨r, m1, e, hf⟩
  · intro i j
    obtain ⟨r, m1, -, -, e, -, hf⟩ := swap_total conv h i j
    exact ⟨r, m1, e, hf⟩
  · intro item
    exact remove_all_items_total item h
  · intro target replacement
    obtain ⟨m1, e1, -, hz⟩ := replace_all_items_rep target replacement cells h
    refine ⟨_, m1, e1, ?_⟩
    intro hr
    apply hz
    by_contra hne
    simp only [hne, if_false] at hr
    omega

/-- Witness for C12: failing calls on the list `[1, 2, 3]` leave the heap as it was. -/
theorem failure_atomicity_witness :
    Rep (built [1, 2, 3]) 0 [(1, 1), (2, 2), (3, 3)] 3
      ∧ add_at 9 (some 0) 3 (built [1, 2, 3]) = some (FALSE, built [1, 2, 3])
      ∧ remove_item 7 (some 0) (built [1, 2, 3]) = some (FALSE, built [1, 2, 3])
      ∧ swap id (some 0) 1 1 (built [1, 2, 3]) = some (FALSE, built [1, 2, 3])
      ∧ remove_all_items 7 (some 0) (built [1, 2, 3]) = some (-1, built [1, 2, 3]) := by
  have h := failure_atomicity (built [1, 2, 3]) 0 3 [(1, 1), (2, 2), (3, 3)] id (by decide)
  refine ⟨by decide, ?_, ?_, ?_, ?_⟩
  · obtain ⟨r, m1, e, hf⟩ := h.1 9 3
    have hr : r = FALSE := by
      have : (add_at 9 (some 0) 3 (built [1, 2, 3])).map Prod.fst = some FALSE := by decide
      rw [e] at this
      simpa using this
    rw [e, hr, hf hr]
  · obtain ⟨r, m1, e, hf⟩ := h.2.1 7
    have hr : r = FALSE := by
      have : (remove_item 7 (some 0) (built [1, 2, 3])).map Prod.fst = some FALSE := by decide
      rw [e] at this
      simpa using this
    rw [e, hr, hf hr]
  · obtain ⟨r, m1, e, hf⟩ := h.2.2.2.2.2.1 1 1
    have hr : r = FALSE := by
      have : (swap id (some 0) 1 1 (built [1, 2, 3])).map Prod.fst = some FALSE := by decide
      rw [e] at this
      simpa using this
    rw [e, hr, hf hr]
  · obtain ⟨r, m1, e, hf⟩ := h.2.2.2.2.2.2.1 7
    have hr : r = -1 := by
      have : (remove_all_items 7 (some 0) (built [1, 2, 3])).map Prod.fst = some (-1) := by
        decide
      rw [e] at this
      simpa using this
    rw [e, hr, hf hr]

end

end ListT

namespace ListT

variable {T : Type}

/-- C11, at the refuting input.  On the list `[1, 2, 3, 4, 5]`, whose generation
counter is 5, the successful call `swap list 0 1` leaves the counter at 7: each
of its two `replace_at` calls increments it. -/
theorem swap_increments_twice_on_example :
    sync_of (some 0) (built [1, 2, 3, 4, 5]) = some 5
      ∧ (swap id (some 0) 0 1 (built [1, 2, 3, 4, 5])).bind
          (fun r => (sync_of (some 0) r.2).map fun s => (r.1, s)) = some (TRUE, 7)
      ∧ syncPlus 5 = 6 := by
  decide

/-- C11, amended.  On a well-formed list with generation counter `k`, every
successful call of `add`, `add_at`, `remove_item`, `remove_at`, `replace_item`,
`replace_all_items`, `clear` (of a non-empty list) and of `replace_at` at a
head-relative index (`index <= length / 2`) leaves the counter at `k + 1` modulo
`2 ^ 32`; a successful `swap` of two head-relative indices makes two `replace_at`
calls and leaves it at `k + 2` modulo `2 ^ 32`. -/
theorem generation_counter_steps [DecidableEq T] (m : Mem T) (l k : Nat)
    (cells : List (Nat × T)) (conv : T → bool_t) (h : Rep m l cells k) :
    sync_of (some l) m = some k
    ∧ (∀ item, ∃ m1, add item (some l) m = some (TRUE, m1)
        ∧ sync_of (some l) m1 = some (syncPlus k))
    ∧ (∀ item index, ∃ r m1, add_at item (some l) index m = some (r, m1)
        ∧ (r = TRUE → sync_of (some l) m1 = some (syncPlus k)))
    ∧ (∀ item, ∃ r m1, remove_item item (some l) m = some (r, m1)
        ∧ (r = TRUE → sync_of (some l) m1 = some (syncPlus k)))
    ∧ (∀ index, ∃ r m1, remove_at (some l) index m = some (r, m1)
        ∧ (r = TRUE → sync_of (some l) m1 = some (syncPlus k)))
    ∧ (∀ target replacement, ∃ r m1, replace_item target replacement (some l) m = some (r, m1)
        ∧ (r = TRUE → sync_of (some l) m1 = some (syncPlus k)))
    ∧ (∀ target replacement, ∃ r m1,
        replace_all_items target replacement (some l) m = some (r, m1)
        ∧ (r ≠ -1 → sync_of (some l) m1 = some (syncPlus k)))
    ∧ (cells ≠ [] → ∃ m1, clear (some l) m = some (TRUE, m1)
        ∧ sync_of (some l) m1 = some (syncPlus k))
    ∧ (∀ item index, index ≤ Int.tdiv (cells.length : Int) 2 →
        ∃ r m1, replace_at conv item (some l) index m = some (r, m1)
          ∧ (r = TRUE → sync_of (some l) m1 = some (syncPlus k)))
    ∧ (∀ index1 index2, index1 ≤ Int.tdiv (cells.length : Int) 2 →
        index2 ≤ Int.tdiv (cells.length : Int) 2 →
        ∃ r m1, swap conv (some l) index1 index2 m = some (r, m1)
          ∧ (r = TRUE → sync_of (some l) m1 = some (syncPlus (syncPlus k)))) := by
  refine ⟨h.sync_of, ?_, ?_, ?_, ?_, ?_, ?_, ?_, ?_, ?_⟩
  · intro item
    obtain ⟨m1, e1, h1, -⟩ := add_rep item h
    exact ⟨m1, e1, h1.sync_of⟩
  · intro item index
    obtain ⟨r, m1, e, -, hs⟩ := add_at_total item h index
    exact ⟨r, m1, e, hs⟩
  · intro item
    rcases remove_item_total item h with ⟨-, e⟩ | ⟨-, m1, cells1, e, h1, -⟩
    · exact ⟨_, m, e, fun e1 => absurd e1.symm TRUE_ne_FALSE⟩
    · exact ⟨_, m1, e, fun _ => h1.sync_of⟩
  · intro index
    obtain ⟨r, m1, e, -, hs⟩ := remove_at_total h index
    exact ⟨r, m1, e, hs⟩
  · intro target replacement
    obtain ⟨r, m1, e, -, hs⟩ := replace_item_total target replacement h
    exact ⟨r, m1, e, hs⟩
  · intro target replacement
    obtain ⟨m1, e1, h1, -⟩ := replace_all_items_rep target replacement cells h
    refine ⟨_, m1, e1, ?_⟩
    intro hr
    by_cases hz : (cells.map Prod.snd).count target = 0
    · simp [hz] at hr
    · rw [h1.sync_of]
      simp [hz]
  · intro hne
    obtain ⟨m1, e1, h1, -⟩ := clear_rep h
    refine ⟨m1, e1, ?_⟩
    have hz : ¬ (cells.length = 0) := by
      intro hz
      exact hne (List.length_eq_zero.1 hz)
    rw [h1.sync_of]
    simp [hz]
  · intro item index hh
    by_cases hr : index < 0 ∨ index ≥ cells.length
    · exact ⟨_, m, replace_at_out_of_range conv item h index hr,
        fun e => absurd e.symm TRUE_ne_FALSE⟩
    · obtain ⟨i, rfl⟩ : ∃ i : Nat, index = (i : Int) := ⟨index.toNat, by omega⟩
      obtain ⟨m1, e1, h1⟩ := replace_at_head conv item h i (by omega) hh
      exact ⟨_, m1, e1, fun _ => h1.sync_of⟩
  · intro i j hi hj
    by_cases hg : i < 0 ∨ i ≥ cells.length ∨ j < 0 ∨ j ≥ cells.length ∨ i = j
    · exact ⟨_, m, swap_guard conv h i j hg, fun e => absurd e.symm TRUE_ne_FALSE⟩
    · obtain ⟨a, rfl⟩ : ∃ a : Nat, i = (a : Int) := ⟨i.toNat, by omega⟩
      obtain ⟨b, rfl⟩ : ∃ b : Nat, j = (b : Int) := ⟨j.toNat, by omega⟩
      obtain ⟨v1, v2, m1, -, -, e, h1⟩ := swap_head conv h a b (by omega) (by omega) (by omega)
        hi hj
      exact ⟨_, m1, e, fun _ => h1.sync_of⟩

/-- Witness for C11: on `[1, 2, 3, 4, 5]` (counter 5) a successful `remove_item`
leaves the counter at 6 and the `swap` of the head-relative indices 0 and 1 at 7. -/
theorem generation_counter_steps_witness :
    Rep (built [1, 2, 3, 4, 5]) 0 [(1, 1), (2, 2), (3, 3), (4, 4), (5, 5)] 5
      ∧ (∃ r m1, remove_item 3 (some 0) (built [1, 2, 3, 4, 5]) = some (r, m1)
          ∧ (r = TRUE → sync_of (some 0) m1 = some (syncPlus 5)))
      ∧ (∃ r m1, swap id (some 0) 0 1 (built [1, 2, 3, 4, 5]) = some (r, m1)
          ∧ (r = TRUE → sync_of (some 0) m1 = some (syncPlus (syncPlus 5)))) := by
  have h := generation_counter_steps (built [1, 2, 3, 4, 5]) 0 5
    [(1, 1), (2, 2), (3, 3), (4, 4), (5, 5)] id (by decide)
  exact ⟨by decide, h.2.2.2.1 3, h.2.2.2.2.2.2.2.2.2 0 1 (by decide) (by decide)⟩

end ListT

namespace ListT

variable {T : Type}

/-! ## Iterators -/

theorem syncPlus_ne (k : Nat) : syncPlus k ≠ k := by
  unfold syncPlus
  omega

theorem list_sync_eq {m : Mem T} {l k1 : Nat} (it : listIterator) (hl : it.list = some l)
    (hs : sync_of (some l) m = some k1) : it.list_sync m = some k1 := by
  cases hb : m.base l with
  | none => simp [sync_of, hb] at hs
  | some L =>
    simp only [sync_of, hb, Option.map_some', Option.some.injEq] at hs
    simp [listIterator.list_sync, hl, hb, hs]

/-- Every read or advance operation fails, without touching the iterator, as soon
as the snapshot of the iterator differs from the counter of its list. -/
theorem stale_operations {m : Mem T} {l k1 : Nat} (it : listIterator) (hl : it.list = some l)
    (hs : sync_of (some l) m = some k1) (hne : it.sync ≠ k1) :
    is_synced (some it) m = some FALSE
      ∧ get_current (some it) m = some (FALSE, none)
      ∧ next (some it) m = some (FALSE, none, some it)
      ∧ move_next (some it) m = some (FALSE, some it)
      ∧ move_back (some it) m = some (FALSE, some it)
      ∧ can_go_forward (some it) m = some FALSE
      ∧ can_go_back (some it) m = some FALSE
      ∧ actual_position (some it) m = some (-1)
      ∧ elements_left (some it) m = some (-1)
      ∧ for_each_remaining (some it) m = some (-1, some it, []) := by
  have e := list_sync_eq it hl hs
  have hf : FALSE = (0 : Int) := rfl
  refine ⟨?_, ?_, ?_, ?_, ?_, ?_, ?_, ?_, ?_, ?_⟩
  · simp [is_synced, e, hne]
  · simp [get_current, e, hne]
  · simp [next, e, hne]
  · simp [move_next, checkGoForward, e, hne, hf]
  · simp [move_back, checkGoBack, e, hne, hf]
  · simp [can_go_forward, checkGoForward, e, hne]
  · simp [can_go_back, checkGoBack, e, hne]
  · simp [actual_position, e, hne]
  · simp [elements_left, e, hne]
  · simp [for_each_remaining, e, hne]

section

variable [DecidableEq T]

theorem op_success_sync {m : Mem T} {l k : Nat} {cells : List (Nat × T)} (h : Rep m l cells k)
    (hne : cells ≠ []) (hlen : cells.length < 2 ^ 31) (op : Op T) (r : Int) (m1 : Mem T)
    (hrun : runOp (some l) m op = some (r, m1)) (hok : succeeded op r) :
    ∃ k1, sync_of (some l) m1 = some k1 ∧ k1 ≠ k := by
  cases op with
  | add item =>
    obtain ⟨m2, e2, h2, -⟩ := add_rep item h
    simp only [runOp] at hrun
    rw [e2] at hrun
    simp only [Option.some.injEq, Prod.mk.injEq] at hrun
    rw [← hrun.2]
    exact ⟨_, h2.sync_of, syncPlus_ne k⟩
  | add_at item index =>
    obtain ⟨r2, m2, e2, -, hs⟩ := add_at_total item h index
    simp only [runOp] at hrun
    rw [e2] at hrun
    simp only [Option.some.injEq, Prod.mk.injEq] at hrun
    obtain ⟨rfl, rfl⟩ := hrun
    exact ⟨_, hs hok, syncPlus_ne k⟩
  | remove_item item =>
    simp only [runOp] at hrun
    rcases remove_item_total item h with ⟨-, e⟩ | ⟨-, m2, cells2, e, h2, -⟩
    · rw [e] at hrun
      simp only [Option.some.injEq, Prod.mk.injEq] at hrun
      obtain ⟨rfl, rfl⟩ := hrun
      exact absurd hok.symm TRUE_ne_FALSE
    · rw [e] at hrun
      simp only [Option.some.injEq, Prod.mk.injEq] at hrun
      obtain ⟨rfl, rfl⟩ := hrun
      exact ⟨_, h2.sync_of, syncPlus_ne k⟩
  | remove_at index =>
    obtain ⟨r2, m2, e2, -, hs⟩ := remove_at_total h index
    simp only [runOp] at hrun
    rw [e2] at hrun
    simp only [Option.some.injEq, Prod.mk.injEq] at hrun
    obtain ⟨rfl, rfl⟩ := hrun
    exact ⟨_, hs hok, syncPlus_ne k⟩
  | remove_all_items item =>
    obtain ⟨m2, e2, h2, -⟩ := remove_all_items_rep item cells h
    simp only [runOp] at hrun
    rw [e2] at hrun
    simp only [Option.some.injEq, Prod.mk.injEq] at hrun
    obtain ⟨hr, rfl⟩ := hrun
    have hc : cells.countP (fun d => decide (d.2 = item)) ≤ cells.length :=
      List.countP_le_length _
    have hz : cells.countP (fun d => decide (d.2 = item)) ≠ 0 := by
      intro hz
      rw [hz] at hr
      simp only [if_true] at hr
      exact hok hr.symm
    refine ⟨_, h2.sync_of, ?_⟩
    omega
  | clear =>
    obtain ⟨m2, e2, h2, -⟩ := clear_rep h
    simp only [runOp] at hrun
    rw [e2] at hrun
    simp only [Option.some.injEq, Prod.mk.injEq] at hrun
    obtain ⟨-, rfl⟩ := hrun
    have hz : ¬ (cells.length = 0) := fun hz => hne (List.length_eq_zero.1 hz)
    refine ⟨_, h2.sync_of, ?_⟩
    simp only [hz, if_false]
    exact syncPlus_ne k

/-- C14. An iterator obtained by `get_iterator` on a non-empty list carries the
list and its generation counter `k`.  After one successful `add`, `add_at`,
`remove_item`, `remove_at`, `remove_all_items` or `clear` on the list, every
iterator on it with snapshot `k` (at any cursor position) is stale: `is_synced`
is `FALSE`; `get_current`, `next`, `move_next`, `move_back`, `can_go_forward` and
`can_go_back` return `FALSE`; `actual_position`, `elements_left` and
`for_each_remaining` return `-1`; the iterator object is unchanged and nothing is
handed to the visitor.  The length of the list fits the C type `int`. -/
theorem stale_iterator_fails (m : Mem T) (l k : Nat) (cells : List (Nat × T))
    (h : Rep m l cells k) (hne : cells ≠ []) (hlen : cells.length < 2 ^ 31)
    (op : Op T) (r : Int) (m1 : Mem T) (hrun : runOp (some l) m op = some (r, m1))
    (hok : succeeded op r) :
    (∃ it0, get_iterator (some l) m = some (some it0) ∧ it0.list = some l ∧ it0.sync = k)
    ∧ ∀ it : listIterator, it.list = some l → it.sync = k →
      is_synced (some it) m1 = some FALSE
        ∧ get_current (some it) m1 = some (FALSE, none)
        ∧ next (some it) m1 = some (FALSE, none, some it)
        ∧ move_next (some it) m1 = some (FALSE, some it)
        ∧ move_back (some it) m1 = some (FALSE, some it)
        ∧ can_go_forward (some it) m1 = some FALSE
        ∧ can_go_back (some it) m1 = some FALSE
        ∧ actual_position (some it) m1 = some (-1)
        ∧ elements_left (some it) m1 = some (-1)
        ∧ for_each_remaining (some it) m1 = some (-1, some it, []) := by
  obtain ⟨k1, hs1, hk1⟩ := op_success_sync h hne hlen op r m1 hrun hok
  constructor
  · have hz : ¬ ((cells.length : Int) = 0) := by
      intro hz
      exact hne (List.length_eq_zero.1 (by exact_mod_cast hz))
    refine ⟨⟨firstOr cells none, some l, 0, k, FALSE⟩, ?_, rfl, rfl⟩
    simp [get_iterator, h.1, hz]
  · intro it hl hs
    exact stale_operations it hl hs1 (by rw [hs]; exact fun e => hk1 e.symm)

/-- Witness for C14: an iterator on `[1, 2, 3]` (snapshot 3) after `add 4`. -/
theorem stale_iterator_fails_witness :
    Rep (built [1, 2, 3]) 0 [(1, 1), (2, 2), (3, 3)] 3
      ∧ runOp (some 0) (built [1, 2, 3]) (Op.add 4) = some (TRUE, built [1, 2, 3, 4])
      ∧ get_iterator (some 0) (built [1, 2, 3]) = some (some ⟨some 1, some 0, 0, 3, FALSE⟩)
      ∧ next (some ⟨some 1, some 0, 0, 3, FALSE⟩) (built [1, 2, 3, 4])
          = some (FALSE, none, some ⟨some 1, some 0, 0, 3, FALSE⟩)
      ∧ for_each_remaining (some ⟨some 1, some 0, 0, 3, FALSE⟩) (built [1, 2, 3, 4])
          = some (-1, some ⟨some 1, some 0, 0, 3, FALSE⟩, []) := by
  have hrun : runOp (some 0) (built [1, 2, 3]) (Op.add 4) = some (TRUE, built [1, 2, 3, 4]) := by
    rfl
  have h := (stale_iterator_fails (built [1, 2, 3]) 0 3 [(1, 1), (2, 2), (3, 3)] (by decide)
    (by decide) (by decide) (Op.add 4) TRUE (built [1, 2, 3, 4]) hrun rfl).2
    ⟨some 1, some 0, 0, 3, FALSE⟩ rfl rfl
  exact ⟨by decide, hrun, by decide, h.2.2.1, h.2.2.2.2.2.2.2.2.2⟩

end

end ListT

namespace ListT

variable {T : Type}

theorem TRUE_eq_zero_iff : (TRUE = (0 : Int)) ↔ False := by decide

theorem FALSE_eq_zero_iff : (FALSE = (0 : Int)) ↔ True := by decide

theorem TRUE_eq_FALSE_iff : (TRUE = FALSE) ↔ False := by decide

theorem next_started_step {m : Mem T} {l k : Nat} (pre : List (Nat × T)) (c d : Nat × T)
    (post : List (Nat × T)) (pos : Int) (h : Rep m l (pre ++ c :: d :: post) k) :
    next (some ⟨some c.1, some l, pos, k, TRUE⟩) m
      = some (TRUE, some d.2, some ⟨some d.1, some l, pos + 1, k, TRUE⟩) := by
  have hs := list_sync_eq ⟨some c.1, some l, pos, k, TRUE⟩ rfl h.sync_of
  have hc := Seg_mid h.2.2.1
  have h1 : Rep m l ((pre ++ [c]) ++ d :: post) k := by simpa using h
  have hd := Seg_mid h1.2.2.1
  simp only [next, move_next, checkGoForward, hs, nextOf_some hc, Option.bind_eq_bind,
    Option.some_bind, ne_eq, not_true_eq_false, if_false, firstOr_cons, reduceCtorEq,
    not_false_eq_true, if_true, TRUE_eq_zero_iff, TRUE_eq_FALSE_iff, infoOf_some hd]

theorem next_started_last {m : Mem T} {l k : Nat} (pre : List (Nat × T)) (c : Nat × T)
    (pos : Int) (h : Rep m l (pre ++ [c]) k) :
    next (some ⟨some c.1, some l, pos, k, TRUE⟩) m
      = some (FALSE, none, some ⟨some c.1, some l, pos, k, TRUE⟩) := by
  have hs := list_sync_eq ⟨some c.1, some l, pos, k, TRUE⟩ rfl h.sync_of
  have hc := Seg_mid h.2.2.1
  simp only [next, move_next, checkGoForward, hs, nextOf_some hc, Option.bind_eq_bind,
    Option.some_bind, ne_eq, not_true_eq_false, if_false, firstOr_nil,
    if_true, FALSE_eq_zero_iff, TRUE_eq_FALSE_iff]

theorem next_times_started {m : Mem T} {l k : Nat} (post : List (Nat × T)) :
    ∀ (pre : List (Nat × T)) (c : Nat × T) (pos : Int),
      Rep m l (pre ++ c :: post) k →
      next_times m (post.length + 1) (some ⟨some c.1, some l, pos, k, TRUE⟩)
        = some (post.map (fun d => (TRUE, some d.2)) ++ [(FALSE, none)]) := by
  induction post with
  | nil =>
    intro pre c pos h
    rw [List.length_nil, Nat.zero_add, next_times, next_started_last pre c pos h]
    simp only [next_times, Option.bind_eq_bind, Option.some_bind, List.map_nil,
      List.nil_append]
  | cons d ds ih =>
    intro pre c pos h
    have h1 : Rep m l ((pre ++ [c]) ++ d :: ds) k := by simpa using h
    have := ih (pre ++ [c]) d (pos + 1) h1
    rw [List.length_cons, next_times, next_started_step pre c d ds pos h]
    simp only [Option.bind_eq_bind, Option.some_bind, List.map_cons, List.cons_append]
    rw [this]
    rfl

/-- C15. Whatever the state of an iterator on a list that holds `n >= 1` elements
`s`, `restart` succeeds and leaves it synced at position 0; the first `next`
yields the head and only sets the started flag; `n` successive calls of `next`
return `TRUE` with `s[0]`, ..., `s[n-1]` in order and call `n + 1` returns `FALSE`. -/
theorem restart_revives (m : Mem T) (l k : Nat) (cells : List (Nat × T)) (it : listIterator)
    (h : Rep m l cells k) (hne : cells ≠ []) (hl : it.list = some l) :
    ∃ it0, restart (some it) m = some (TRUE, some it0)
      ∧ is_synced (some it0) m = some TRUE
      ∧ actual_position (some it0) m = some 0
      ∧ next (some it0) m = some (TRUE, (cells.map Prod.snd).head?,
          some { it0 with started := TRUE })
      ∧ next_times m (cells.length + 1) (some it0)
          = some ((cells.map Prod.snd).map (fun v => (TRUE, some v)) ++ [(FALSE, none)]) := by
  cases cells with
  | nil => exact absurd rfl hne
  | cons c rest =>
    have hb := h.1
    have hc : m.node c.1 = some ⟨none, c.2, firstOr rest none⟩ := h.2.2.1.1
    have hs := list_sync_eq ⟨some c.1, some l, 0, k, FALSE⟩ rfl h.sync_of
    have hs1 := list_sync_eq ⟨some c.1, some l, 0, k, TRUE⟩ rfl h.sync_of
    have hn := next_times_started rest [] c 0 (by simpa using h)
    have ht : TRUE = (1 : Int) := rfl
    have hf : FALSE = (0 : Int) := rfl
    have hnext : next (some ⟨some c.1, some l, 0, k, FALSE⟩) m
        = some (TRUE, some c.2, some ⟨some c.1, some l, 0, k, TRUE⟩) := by
      simp [next, hs, infoOf_some hc]
    refine ⟨⟨some c.1, some l, 0, k, FALSE⟩, ?_, ?_, ?_, ?_, ?_⟩
    · simp [restart, hl, hb]
    · simp [is_synced, hs]
    · simp [actual_position, hs]
    · simpa using hnext
    · rw [List.length_cons, next_times, hnext]
      simp only [Option.bind_eq_bind, Option.some_bind, hn, List.map_cons, List.map_map,
        List.cons_append]
      rfl

/-- Witness for C15: a stale iterator parked on the last node of `[10, 20, 30]`. -/
theorem restart_revives_witness :
    Rep (built [10, 20, 30]) 0 [(1, 10), (2, 20), (3, 30)] 3
      ∧ ∃ it0, restart (some ⟨some 3, some 0, 2, 1, TRUE⟩) (built [10, 20, 30])
            = some (TRUE, some it0)
          ∧ is_synced (some it0) (built [10, 20, 30]) = some TRUE
          ∧ next_times (built [10, 20, 30]) 4 (some it0)
            = some [(TRUE, some 10), (TRUE, some 20), (TRUE, some 30), (FALSE, none)] := by
  refine ⟨by decide, ?_⟩
  obtain ⟨it0, h1, h2, -, -, h3⟩ := restart_revives (built [10, 20, 30]) 0 3
    [(1, 10), (2, 20), (3, 30)] ⟨some 3, some 0, 2, 1, TRUE⟩ (by decide) (by decide) rfl
  exact ⟨it0, h1, h2, h3⟩

end ListT

namespace ListT

variable {T : Type}

/-! ## `take_range` -/

theorem take_range_loop_spec (out b0 : Nat) (seg : List (Nat × T)) :
    ∀ (rest : List (Nat × T)) (m : Mem T) (pv : nodePointer) (oc : List (Nat × T)) (ko : Nat),
      Seg m.node pv (seg ++ rest) none → (∀ c ∈ seg ++ rest, c.1 < b0) →
      Rep m out oc ko → b0 ≤ out → (∀ d ∈ oc, b0 ≤ d.1) →
      ∃ m1 oc1 k1, take_range_loop (some out) seg.length m (firstOr (seg ++ rest) none) = some m1
        ∧ Rep m1 out oc1 k1
        ∧ oc1.map Prod.snd = oc.map Prod.snd ++ seg.map Prod.snd
        ∧ Agree b0 m m1 := by
  induction seg with
  | nil =>
    intro rest m pv oc ko _ _ hr _ _
    exact ⟨m, oc, ko, rfl, hr, by simp, Agree.refl _ _⟩
  | cons c cs ih =>
    intro rest m pv oc ko hs hlt hr ho hoc
    rw [List.cons_append] at hs hlt
    obtain ⟨hc, hs1⟩ := (Seg_cons _ _ _ _ _).1 hs
    have hcb : c.1 < b0 := hlt c (List.mem_cons_self _ _)
    obtain ⟨m1, e1, hr1, ha1, hoc1⟩ := add_agree c.2 hr ho hoc
    have hc1 : m1.node c.1 = some ⟨pv, c.2, firstOr (cs ++ rest) none⟩ :=
      (ha1.2.1 c.1 hcb).trans hc
    obtain ⟨m2, oc2, k2, e2, hr2, hv2, ha2⟩ := ih rest m1 (some c.1) _ _
      (Seg_agree ha1 (fun d hd => hlt d (List.mem_cons_of_mem _ hd)) hs1)
      (fun d hd => hlt d (List.mem_cons_of_mem _ hd)) hr1 ho hoc1
    refine ⟨m2, oc2, k2, ?_, hr2, ?_, ha1.trans ha2⟩
    · simp only [List.cons_append, firstOr_cons, List.length_cons, take_range_loop,
        infoOf_some hc, Option.bind_eq_bind, Option.some_bind, e1, nextOf_some hc1]
      exact e2
    · rw [hv2]
      simp

theorem take_range_guard {m : Mem T} {l k : Nat} {cells : List (Nat × T)}
    (h : Rep m l cells k) (start end_ : Int)
    (hg : start < 0 ∨ end_ < 0 ∨ start ≥ cells.length ∨ end_ ≥ cells.length ∨ start ≥ end_) :
    take_range (some l) start end_ m = some (none, m) := by
  obtain ⟨hb, -, -, -, -, -⟩ := h
  simp only [take_range, hb, Option.bind_eq_bind, Option.some_bind, hg, if_true, ite_self]

theorem take_range_rep {m : Mem T} {l k : Nat} (pre seg rest : List (Nat × T))
    (h : Rep m l (pre ++ seg ++ rest) k) (h2 : 2 ≤ seg.length) :
    ∃ m1 oc k1, take_range (some l) (pre.length : Int)
          ((pre.length : Int) + (seg.length : Int) - 1) m = some (some m.brk, m1)
      ∧ Rep m1 m.brk oc k1
      ∧ oc.map Prod.snd = seg.map Prod.snd
      ∧ Agree m.brk m m1
      ∧ Rep m1 l (pre ++ seg ++ rest) k := by
  obtain ⟨-, hr0, ha0, hk0⟩ := create_agree m
  have hlen := h.length_le
  have hl : l < m.brk := h.2.2.2.2.2
  have hc : ∀ c ∈ pre ++ seg ++ rest, c.1 < m.brk := h.2.2.2.2.1
  have h1 := h.agree hl hc ha0
  have hb1 := h1.1
  have hb := h.1
  cases seg with
  | nil => simp at h2
  | cons c cs =>
    have e : pre ++ c :: cs ++ rest = pre ++ c :: (cs ++ rest) := by simp
    rw [e] at h1 hc hlen
    have hs1 := h1.2.2.1
    simp only [List.length_append, List.length_cons] at hlen h2
    have s1 := seekNext_spec (create m).2 pre.length pre c (cs ++ rest) none none
      ((create m).2.brk + 1) 0 hs1 (by omega) (by simp)
    have s2 := seekBack_spec (create m).2 pre.length pre c (cs ++ rest) none none
      ((create m).2.brk + 1) (((pre ++ c :: (cs ++ rest)).length : Int) - 1) hs1
      (by simp only [List.length_append]; omega)
      (by simp only [List.length_append, List.length_cons]; push_cast; omega)
    have hs2 := ((Seg_append (create m).2.node pre (c :: (cs ++ rest)) none none).1 hs1).2
    obtain ⟨m1, oc, k1, e1, hr1, hv1, ha1⟩ := take_range_loop_spec m.brk m.brk (c :: cs) rest
      (create m).2 (lastOr pre none) [] 0 (by simpa using hs2)
      (fun d hd => hc d (by
        simp only [List.mem_append, List.mem_cons] at hd ⊢; tauto))
      hr0 (le_refl _) (by simp)
    refine ⟨m1, oc, k1, ?_, hr1, by simpa using hv1, ha0.trans ha1,
      h.agree hl (h.2.2.2.2.1) (ha0.trans ha1)⟩
    have c0 : (((pre ++ c :: cs ++ rest).length : Int) = 0) ↔ False := iff_false_intro (by
      simp only [List.length_append, List.length_cons]; push_cast; omega)
    have c1 : ((pre.length : Int) < 0 ∨ (pre.length : Int) + ((c :: cs).length : Int) - 1 < 0
        ∨ (pre.length : Int) ≥ ((pre ++ c :: cs ++ rest).length : Int)
        ∨ (pre.length : Int) + ((c :: cs).length : Int) - 1
            ≥ ((pre ++ c :: cs ++ rest).length : Int)
        ∨ (pre.length : Int) ≥ (pre.length : Int) + ((c :: cs).length : Int) - 1) ↔ False :=
      iff_false_intro (by
        simp only [List.length_append, List.length_cons]; push_cast; omega)
    have c2 : ((pre.length : Int) + ((c :: cs).length : Int) - 1 + 1 - (pre.length : Int)).toNat
        = (c :: cs).length := by
      simp only [List.length_cons]; push_cast; omega
    rw [e] at hb c0 c1
    simp only [take_range, hb, Option.bind_eq_bind, Option.some_bind, c0, c1, if_false,
      create_fst, s1, s2, ite_self, c2]
    have e3 : firstOr (c :: cs ++ rest) none = some c.1 := rfl
    rw [e3] at e1
    rw [e1]
    rfl

end ListT

namespace ListT

variable {T : Type}

/-- C16. On a list of length `n` holding `s`, for `0 <= start < end < n` the call
`take_range list start end` returns a new list holding `s[start], ..., s[end]` in
order (`end - start + 1` elements), from either traversal direction, and the
input list is as before; when `start` or `end` is negative or `>= n`, or
`start >= end`, it returns the absent result and the heap is untouched. -/
theorem take_range_slices (m : Mem T) (l k : Nat) (cells : List (Nat × T)) (start end_ : Int)
    (h : Rep m l cells k) :
    (0 ≤ start ∧ start < end_ ∧ end_ < cells.length →
      ∃ out m1, take_range (some l) start end_ m = some (some out, m1)
        ∧ out ≠ l
        ∧ elements (some out) m1
            = some (((cells.map Prod.snd).drop start.toNat).take (end_ + 1 - start).toNat)
        ∧ size (some out) m1 = some (end_ - start + 1)
        ∧ Rep m1 l cells k
        ∧ elements (some l) m1 = some (cells.map Prod.snd)
        ∧ size (some l) m1 = some (cells.length : Int)
        ∧ sync_of (some l) m1 = some k)
    ∧ (start < 0 ∨ end_ < 0 ∨ start ≥ cells.length ∨ end_ ≥ cells.length ∨ start ≥ end_ →
        take_range (some l) start end_ m = some (none, m)) := by
  refine ⟨?_, take_range_guard h start end_⟩
  rintro ⟨h0, h1, h2⟩
  obtain ⟨a, rfl⟩ : ∃ a : Nat, start = (a : Int) := ⟨start.toNat, by omega⟩
  obtain ⟨c, hc⟩ : ∃ c : Nat, end_ = (a : Int) + (c : Int) - 1 :=
    ⟨(end_ + 1 - a).toNat, by omega⟩
  subst hc
  have hl : l < m.brk := h.2.2.2.2.2
  have e : cells = cells.take a ++ (cells.drop a).take c ++ (cells.drop a).drop c := by
    rw [List.append_assoc, List.take_append_drop, List.take_append_drop]
  have l1 : (cells.take a).length = a := by rw [List.length_take]; omega
  have l2 : ((cells.drop a).take c).length = c := by
    rw [List.length_take, List.length_drop]; omega
  have hrep := h
  rw [e] at hrep
  obtain ⟨m1, oc, k1, e1, hr1, hv1, -, hs1⟩ := take_range_rep _ _ _ hrep (by omega)
  rw [l1, l2] at e1
  rw [← e] at hs1
  refine ⟨m.brk, m1, e1, by omega, ?_, ?_, hs1, hs1.elements, hs1.size, hs1.sync_of⟩
  · rw [hr1.elements, hv1]
    have e2 : ((a : Int) + (c : Int) - 1 + 1 - (a : Int)).toNat = c := by omega
    simp only [Int.toNat_ofNat, e2, List.map_take, List.map_drop]
  · rw [hr1.size]
    have := congrArg List.length hv1
    simp only [List.length_map] at this
    rw [this, l2]
    congr 1
    omega

/-- Witness for C16: `take_range list 3 4` on `[10, 20, 30, 40, 50]`, located from
the tail, and the rejected range `(2, 1)`. -/
theorem take_range_slices_witness :
    Rep (built [10, 20, 30, 40, 50]) 0 [(1, 10), (2, 20), (3, 30), (4, 40), (5, 50)] 5
      ∧ (∃ out m1, take_range (some 0) 3 4 (built [10, 20, 30, 40, 50]) = some (some out, m1)
          ∧ elements (some out) m1 = some [40, 50]
          ∧ elements (some 0) m1 = some [10, 20, 30, 40, 50])
      ∧ take_range (some 0) 2 1 (built [10, 20, 30, 40, 50])
          = some (none, built [10, 20, 30, 40, 50]) := by
  have h := take_range_slices (built [10, 20, 30, 40, 50]) 0 5
    [(1, 10), (2, 20), (3, 30), (4, 40), (5, 50)]
  refine ⟨by decide, ?_, (h 2 1 (by decide)).2 (by decide)⟩
  obtain ⟨out, m1, e1, -, h2, -, -, h3, -⟩ := (h 3 4 (by decide)).1 (by decide)
  exact ⟨out, m1, e1, h2, h3⟩

/-- C17, at the refuting input.  On the list `[10, 20, 30]` the call
`take_range list 1 1` returns the absent result, not the list `[20]`. -/
theorem take_range_single_on_example :
    (take_range (some 0) 1 1 (built [10, 20, 30])).map Prod.fst = some none := by
  decide

/-- C17, amended.  For every list and every index `i`, `take_range list i i`
returns the absent result and leaves the heap untouched: the guard `start >= end`
rejects a one-element range.  On `[10, 20, 30]` both `take_range list 1 1` and
`take_range list 2 1` return the absent result. -/
theorem take_range_single_absent (m : Mem T) (l k : Nat) (cells : List (Nat × T)) (i : Int)
    (h : Rep m l cells k) :
    take_range (some l) i i m = some (none, m)
      ∧ (take_range (some 0) 1 1 (built [10, 20, 30])).map Prod.fst = some none
      ∧ (take_range (some 0) 2 1 (built [10, 20, 30])).map Prod.fst = some none := by
  refine ⟨take_range_guard h i i ?_, by decide, by decide⟩
  right; right; right; right
  exact le_refl _

/-- Witness for C17: the one-element range `(1, 1)` on `[10, 20, 30]`. -/
theorem take_range_single_absent_witness :
    Rep (built [10, 20, 30]) 0 [(1, 10), (2, 20), (3, 30)] 3
      ∧ take_range (some 0) 1 1 (built [10, 20, 30]) = some (none, built [10, 20, 30]) :=
  ⟨by decide, (take_range_single_absent (built [10, 20, 30]) 0 3 [(1, 10), (2, 20), (3, 30)] 1
    (by decide)).1⟩

end ListT

namespace ListT

variable {T : Type}

/-! ## `remove_where` -/

theorem remove_where_empty {m : Mem T} {l k : Nat} (expression : T → bool_t)
    (h : Rep m l [] k) : remove_where (some l) expression m = some (none, m) := by
  have hb := h.1
  simp only [remove_where, hb, Option.bind_eq_bind, Option.some_bind, List.length_nil,
    Nat.cast_zero, if_true]

theorem remove_where_rep {m : Mem T} {l k : Nat} {cells : List (Nat × T)}
    (expression : T → bool_t) (h : Rep m l cells k) (hne : cells ≠ []) :
    ∃ m1 oc k1, remove_where (some l) expression m = some (some m.brk, m1)
      ∧ Rep m1 m.brk oc k1
      ∧ oc.map Prod.snd = (cells.map Prod.snd).filter (fun v => decide (expression v = 0))
      ∧ (∀ d ∈ oc, m.brk ≤ d.1)
      ∧ Agree m.brk m m1
      ∧ Rep m1 l cells k := by
  obtain ⟨m1, oc, k1, e1, hr1, hv1, hoc1, ha1, hs1⟩ := collect_from_create
    (fun _ v => some (decide (expression v = 0))) (fun v => decide (expression v = 0)) h
    (fun _ _ _ => rfl)
  refine ⟨m1, oc, k1, ?_, hr1, hv1, hoc1, ha1, hs1⟩
  have hb := h.1
  have hz : ¬ ((cells.length : Int) = 0) := by
    cases cells with
    | nil => exact absurd rfl hne
    | cons c cs => simp; omega
  simp only [remove_where, hb, Option.bind_eq_bind, Option.some_bind, hz, if_false]
  have e2 : (create m).2.brk = m.brk + 1 := rfl
  rw [e2] at e1
  show (collect_loop _ (some m.brk) _ (create m).2 _).bind _ = _
  rw [e2, e1]
  rfl

end ListT

namespace ListT

variable {T : Type}

/-- C18, at the refuting input.  On `[10, 20, 30]` with a predicate that holds for
every element, the first `remove_where` returns a new, empty list, and
`remove_where` on that result returns the absent result, not an empty list. -/
theorem remove_where_twice_on_example :
    (remove_where (some 0) (fun _ => TRUE) (built [10, 20, 30])).map Prod.fst = some (some 4)
      ∧ (remove_where (some 0) (fun _ => TRUE) (built [10, 20, 30])).bind
          (fun r => elements r.1 r.2) = some []
      ∧ (remove_where (some 0) (fun _ => TRUE) (built [10, 20, 30])).bind
          (fun r => (remove_where r.1 (fun _ => TRUE) r.2).map Prod.fst) = some none := by
  decide

/-- C18, amended.  For a non-empty list and a predicate `p`, `remove_where`
returns a new list holding the elements for which `p` is false, in order.  If `p`
is false for some element, `remove_where` with `p` on that result returns a list
holding the same sequence (the second pass removes nothing).  If `p` holds for
every element, the first result is an empty list and `remove_where` on it
returns the absent result, leaving the heap untouched. -/
theorem remove_where_idempotent (m : Mem T) (l k : Nat) (cells : List (Nat × T))
    (expression : T → bool_t) (h : Rep m l cells k) (hne : cells ≠ []) :
    ∃ out m1, remove_where (some l) expression m = some (some out, m1)
      ∧ elements (some out) m1
          = some ((cells.map Prod.snd).filter (fun v => decide (expression v = 0)))
      ∧ ((∃ v ∈ cells.map Prod.snd, expression v = 0) →
          ∃ out2 m2, remove_where (some out) expression m1 = some (some out2, m2)
            ∧ out2 ≠ out
            ∧ elements (some out2) m2 = elements (some out) m1
            ∧ elements (some out) m2 = elements (some out) m1)
      ∧ ((∀ v ∈ cells.map Prod.snd, expression v ≠ 0) →
          elements (some out) m1 = some []
            ∧ remove_where (some out) expression m1 = some (none, m1)) := by
  obtain ⟨m1, oc, k1, e1, hr1, hv1, -, -, -⟩ := remove_where_rep expression h hne
  refine ⟨m.brk, m1, e1, by rw [hr1.elements, hv1], ?_, ?_⟩
  · rintro ⟨v, hv, hz⟩
    have hmem : v ∈ oc.map Prod.snd := by
      rw [hv1, List.mem_filter]
      exact ⟨hv, by simpa using hz⟩
    have hne1 : oc ≠ [] := by
      rintro rfl
      simp at hmem
    obtain ⟨m2, oc2, k2, e2, hr2, hv2, -, -, hs2⟩ := remove_where_rep expression hr1 hne1
    have hlt : m.brk < m1.brk := hr1.2.2.2.2.2
    refine ⟨m1.brk, m2, e2, by omega, ?_, ?_⟩
    · rw [hr2.elements, hr1.elements, hv2, hv1, List.filter_filter]
      simp
    · rw [hs2.elements, hr1.elements]
  · intro hall
    have hnil : oc = [] := by
      have : oc.map Prod.snd = [] := by
        rw [hv1, List.filter_eq_nil_iff]
        intro v hv
        simpa using hall v hv
      simpa using this
    subst hnil
    exact ⟨by rw [hr1.elements]; rfl, remove_where_empty expression hr1⟩

/-- Witness for C18: on `[10, 20, 30]` with the predicate `v = 20`. -/
theorem remove_where_idempotent_witness :
    Rep (built [10, 20, 30]) 0 [(1, 10), (2, 20), (3, 30)] 3
      ∧ ∃ out m1, remove_where (some 0) (fun v => if v = 20 then TRUE else FALSE)
            (built [10, 20, 30]) = some (some out, m1)
          ∧ elements (some out) m1 = some [10, 30]
          ∧ ∃ out2 m2, remove_where (some out) (fun v => if v = 20 then TRUE else FALSE) m1
              = some (some out2, m2)
            ∧ elements (some out2) m2 = some [10, 30] := by
  refine ⟨by decide, ?_⟩
  obtain ⟨out, m1, e1, h1, h2, -⟩ := remove_where_idempotent (built [10, 20, 30]) 0 3
    [(1, 10), (2, 20), (3, 30)] (fun v => if v = 20 then TRUE else FALSE) (by decide)
    (by decide)
  have h1b : elements (some out) m1 = some [10, 30] := by rw [h1]; decide
  obtain ⟨out2, m2, e2, -, h3, -⟩ := h2 ⟨10, by decide, by decide⟩
  exact ⟨out, m1, e1, h1b, out2, m2, e2, by rw [h3, h1b]⟩

end ListT

namespace ListT

variable {T : Type}

/-! ## `intersect` and `except` -/

theorem LIST_CONTAINS_loop_spec (expression : T → T → bool_t) (m : Mem T) (v : T) :
    ∀ (cells : List (Nat × T)) (p : nodePointer) (fuel : Nat),
      Seg m.node p cells none → cells.length < fuel →
      LIST_CONTAINS_loop expression m v fuel (firstOr cells none)
        = some ((cells.map Prod.snd).any (fun y => decide (expression v y ≠ 0))) := by
  intro cells
  induction cells with
  | nil =>
    intro p fuel _ _
    cases fuel <;> simp [LIST_CONTAINS_loop]
  | cons c cs ih =>
    intro p fuel h hf
    obtain ⟨f, rfl⟩ : ∃ f, fuel = f + 1 := ⟨fuel - 1, by simp at hf; omega⟩
    obtain ⟨hc, hs⟩ := h
    have := ih (some c.1) f hs (by simp at hf; omega)
    simp only [firstOr_cons, LIST_CONTAINS_loop, infoOf_some hc, nextOf_some hc,
      Option.bind_eq_bind, Option.some_bind, List.map_cons, List.any_cons]
    by_cases he : expression v c.2 = 0
    · simp only [he, ne_eq, not_true_eq_false, if_false, decide_False, Bool.false_or]
      exact this
    · simp only [he, ne_eq, not_false_eq_true, if_true, decide_True, Bool.true_or]

theorem LIST_CONTAINS_spec {m : Mem T} {l k : Nat} {cells : List (Nat × T)}
    (expression : T → T → bool_t) (v : T) (h : Rep m l cells k) :
    LIST_CONTAINS expression l m v
      = some ((cells.map Prod.snd).any (fun y => decide (expression v y ≠ 0))) := by
  have hlen := h.length_le
  have e := LIST_CONTAINS_loop_spec expression m v cells none (m.brk + 1) h.2.2.1 (by omega)
  simp only [LIST_CONTAINS, h.1, Option.bind_eq_bind, Option.some_bind, e]

theorem length_cast_ne_zero {cells : List (Nat × T)} (hne : cells ≠ []) :
    ¬ ((cells.length : Int) = 0) := by
  cases cells with
  | nil => exact absurd rfl hne
  | cons c cs => simp; omega

theorem intersect_rep {m : Mem T} {l1 l2 k1 k2 : Nat} {c1 c2 : List (Nat × T)}
    (expression : T → T → bool_t) (h1 : Rep m l1 c1 k1) (h2 : Rep m l2 c2 k2) :
    ∃ m1 oc ko, intersect (some l1) (some l2) expression m = some (some m.brk, m1)
      ∧ Rep m1 m.brk oc ko
      ∧ oc.map Prod.snd = (c1.map Prod.snd).filter
          (fun x => (c2.map Prod.snd).any (fun y => decide (expression x y ≠ 0)))
      ∧ Rep m1 l1 c1 k1 ∧ Rep m1 l2 c2 k2 := by
  obtain ⟨-, hr0, ha0, -⟩ := create_agree m
  have g1 := h1.agree h1.2.2.2.2.2 h1.2.2.2.2.1 ha0
  have g2 := h2.agree h2.2.2.2.2.2 h2.2.2.2.2.1 ha0
  by_cases hz : c1 = [] ∨ c2 = []
  · refine ⟨(create m).2, [], 0, ?_, hr0, ?_, g1, g2⟩
    · have hz2 : ((c1.length : Int) = 0 ∨ (c2.length : Int) = 0) := by
        rcases hz with rfl | rfl
        · exact Or.inl rfl
        · exact Or.inr rfl
      simp only [intersect, h1.1, h2.1, Option.bind_eq_bind, Option.some_bind, hz2, if_true]
      rfl
    · rcases hz with rfl | rfl
      · rfl
      · simp
  · have hn1 : c1 ≠ [] := fun e => hz (Or.inl e)
    have hn2 : c2 ≠ [] := fun e => hz (Or.inr e)
    obtain ⟨m1, oc, ko, e1, hr1, hv1, -, ha1, hs1⟩ := collect_from_create
      (LIST_CONTAINS expression l2)
      (fun x => (c2.map Prod.snd).any (fun y => decide (expression x y ≠ 0))) h1
      (fun m1 v ha => LIST_CONTAINS_spec expression v
        (h2.agree h2.2.2.2.2.2 h2.2.2.2.2.1 ha))
    refine ⟨m1, oc, ko, ?_, hr1, hv1, hs1, h2.agree h2.2.2.2.2.2 h2.2.2.2.2.1 ha1⟩
    have hz2 : ¬ ((c1.length : Int) = 0 ∨ (c2.length : Int) = 0) := by
      rintro (e | e)
      · exact length_cast_ne_zero hn1 e
      · exact length_cast_ne_zero hn2 e
    simp only [intersect, h1.1, h2.1, Option.bind_eq_bind, Option.some_bind, hz2, if_false]
    have e2 : (create m).2.brk = m.brk + 1 := rfl
    rw [e2] at e1
    show (collect_loop _ (some m.brk) _ (create m).2 _).bind _ = _
    rw [e2, e1]
    rfl

theorem except_rep {m : Mem T} {l1 l2 k1 k2 : Nat} {c1 c2 : List (Nat × T)}
    (expression : T → T → bool_t) (h1 : Rep m l1 c1 k1) (h2 : Rep m l2 c2 k2) :
    ∃ m1 oc ko, except (some l1) (some l2) expression m = some (some m.brk, m1)
      ∧ Rep m1 m.brk oc ko
      ∧ oc.map Prod.snd = (c1.map Prod.snd).filter
          (fun x => !(c2.map Prod.snd).any (fun y => decide (expression x y ≠ 0)))
      ∧ Rep m1 l1 c1 k1 ∧ Rep m1 l2 c2 k2 := by
  obtain ⟨-, hr0, ha0, -⟩ := create_agree m
  have g1 := h1.agree h1.2.2.2.2.2 h1.2.2.2.2.1 ha0
  have g2 := h2.agree h2.2.2.2.2.2 h2.2.2.2.2.1 ha0
  by_cases hz1 : c1 = []
  · subst hz1
    refine ⟨(create m).2, [], 0, ?_, hr0, rfl, g1, g2⟩
    simp only [except, h1.1, Option.bind_eq_bind, Option.some_bind, List.length_nil,
      Nat.cast_zero, if_true]
    rfl
  · have hn1 := length_cast_ne_zero hz1
    by_cases hz2 : c2 = []
    · subst hz2
      obtain ⟨m1, oc, ko, e1, hr1, hv1, -, ha1, hs1⟩ := copy_rep h1
      refine ⟨m1, oc, ko, ?_, hr1, ?_, hs1, h2.agree h2.2.2.2.2.2 h2.2.2.2.2.1 ha1⟩
      · simp only [except, h1.1, h2.1, Option.bind_eq_bind, Option.some_bind, hn1, if_false,
          List.length_nil, Nat.cast_zero, if_true, e1]
      · rw [hv1]
        simp
    · have hn2 := length_cast_ne_zero hz2
      obtain ⟨m1, oc, ko, e1, hr1, hv1, -, ha1, hs1⟩ := collect_from_create
        (fun m v => (LIST_CONTAINS expression l2 m v).map not)
        (fun x => !(c2.map Prod.snd).any (fun y => decide (expression x y ≠ 0))) h1
        (fun m1 v ha => by
          show (LIST_CONTAINS expression l2 m1 v).map not = _
          rw [LIST_CONTAINS_spec expression v (h2.agree h2.2.2.2.2.2 h2.2.2.2.2.1 ha)]
          rfl)
      refine ⟨m1, oc, ko, ?_, hr1, hv1, hs1, h2.agree h2.2.2.2.2.2 h2.2.2.2.2.1 ha1⟩
      simp only [except, h1.1, h2.1, Option.bind_eq_bind, Option.some_bind, hn1, hn2, if_false]
      have e2 : (create m).2.brk = m.brk + 1 := rfl
      rw [e2] at e1
      show (collect_loop _ (some m.brk) _ (create m).2 _).bind _ = _
      rw [e2, e1]
      rfl

end ListT

namespace ListT

variable {T : Type}

/-- C19. For all lists `l1` (holding `s1`) and `l2` (holding `s2`) and every
predicate `eq`, `intersect l1 l2 eq` returns a new list holding exactly the
elements `x` of `s1`, in the order and with the multiplicity of `s1`, for which
`eq x y` holds for some `y` of `s2`, and `except l1 l2 eq` returns a new list
holding exactly those for which it holds for no `y` of `s2`; the two results
together are a rearrangement of `s1`, and both inputs are as before.  For
`[1, 2, 3]` and `[2, 3, 4]` with equality the results are `[2, 3]` and `[1]`. -/
theorem set_algebra (m : Mem T) (l1 l2 k1 k2 : Nat) (c1 c2 : List (Nat × T))
    (eq : T → T → bool_t) (h1 : Rep m l1 c1 k1) (h2 : Rep m l2 c2 k2) :
    (∃ o1 m1 o2 m2 I E,
      intersect (some l1) (some l2) eq m = some (some o1, m1)
        ∧ elements (some o1) m1 = some I
        ∧ except (some l1) (some l2) eq m = some (some o2, m2)
        ∧ elements (some o2) m2 = some E
        ∧ I = (c1.map Prod.snd).filter
            (fun x => (c2.map Prod.snd).any (fun y => decide (eq x y ≠ 0)))
        ∧ E = (c1.map Prod.snd).filter
            (fun x => !(c2.map Prod.snd).any (fun y => decide (eq x y ≠ 0)))
        ∧ (∀ x, x ∈ I ↔ x ∈ c1.map Prod.snd ∧ ∃ y ∈ c2.map Prod.snd, eq x y ≠ 0)
        ∧ (∀ x, x ∈ E ↔ x ∈ c1.map Prod.snd ∧ ¬ ∃ y ∈ c2.map Prod.snd, eq x y ≠ 0)
        ∧ (I ++ E).Perm (c1.map Prod.snd)
        ∧ o1 ≠ l1 ∧ o1 ≠ l2 ∧ o2 ≠ l1 ∧ o2 ≠ l2
        ∧ elements (some l1) m1 = some (c1.map Prod.snd)
        ∧ elements (some l2) m1 = some (c2.map Prod.snd)
        ∧ elements (some l1) m2 = some (c1.map Prod.snd)
        ∧ elements (some l2) m2 = some (c2.map Prod.snd))
    ∧ (intersect (some 0) (some 4) equalsInt (built2 [1, 2, 3] [2, 3, 4])).bind
        (fun r => elements r.1 r.2) = some [2, 3]
    ∧ (except (some 0) (some 4) equalsInt (built2 [1, 2, 3] [2, 3, 4])).bind
        (fun r => elements r.1 r.2) = some [1] := by
  refine ⟨?_, by decide, by decide⟩
  obtain ⟨m1, oc1, ko1, e1, hr1, hv1, hs1, hs2⟩ := intersect_rep eq h1 h2
  obtain ⟨m2, oc2, ko2, e2, hr2, hv2, ht1, ht2⟩ := except_rep eq h1 h2
  have hl1 : l1 < m.brk := h1.2.2.2.2.2
  have hl2 : l2 < m.brk := h2.2.2.2.2.2
  refine ⟨m.brk, m1, m.brk, m2, _, _, e1, by rw [hr1.elements, hv1], e2,
    by rw [hr2.elements, hv2], rfl, rfl, ?_, ?_, List.filter_append_perm _ _,
    by omega, by omega, by omega, by omega, hs1.elements, hs2.elements, ht1.elements,
    ht2.elements⟩
  · intro x
    simp only [List.mem_filter, List.any_eq_true, decide_eq_true_eq]
  · intro x
    simp only [List.mem_filter, Bool.not_eq_true', List.any_eq_false, decide_eq_true_eq,
      decide_eq_false_iff_not, not_exists, not_and]

/-- Witness for C19: the lists `[1, 2, 3]` and `[2, 3, 4]` under equality. -/
theorem set_algebra_witness :
    Rep (built2 [1, 2, 3] [2, 3, 4]) 0 [(1, 1), (2, 2), (3, 3)] 3
      ∧ Rep (built2 [1, 2, 3] [2, 3, 4]) 4 [(5, 2), (6, 3), (7, 4)] 3
      ∧ ∃ o1 m1 o2 m2,
          intersect (some 0) (some 4) equalsInt (built2 [1, 2, 3] [2, 3, 4]) = some (some o1, m1)
          ∧ elements (some o1) m1 = some [2, 3]
          ∧ except (some 0) (some 4) equalsInt (built2 [1, 2, 3] [2, 3, 4]) = some (some o2, m2)
          ∧ elements (some o2) m2 = some [1] := by
  refine ⟨by decide, by decide, ?_⟩
  obtain ⟨⟨o1, m1, o2, m2, I, E, e1, i1, e2, i2, hI, hE, -⟩, -, -⟩ :=
    set_algebra (built2 [1, 2, 3] [2, 3, 4]) 0 4 3 3 [(1, 1), (2, 2), (3, 3)]
      [(5, 2), (6, 3), (7, 4)] equalsInt (by decide) (by decide)
  refine ⟨o1, m1, o2, m2, e1, ?_, e2, ?_⟩
  · rw [i1, hI]; decide
  · rw [i2, hE]; decide

end ListT

namespace ListT

variable {T : Type}

/-! ## The exchange sort -/

theorem inversions_le (gt : T → T → Bool) (xs : List T) :
    inversions gt xs ≤ xs.length * xs.length := by
  induction xs with
  | nil => simp [inversions]
  | cons x xs ih =>
    have := List.countP_le_length (fun y => gt x y) (l := xs)
    simp only [inversions, List.length_cons]
    nlinarith

theorem inversions_swap (gt : T → T → Bool) (a b : T) (hab : gt a b = true)
    (hba : gt b a = false) (pre post : List T) :
    inversions gt (pre ++ b :: a :: post) + 1 = inversions gt (pre ++ a :: b :: post) := by
  induction pre with
  | nil =>
    simp only [List.nil_append, inversions, List.countP_cons, hab, hba, if_true]
    simp
    omega
  | cons x xs ih =>
    have e1 : (xs ++ b :: a :: post).countP (fun y => gt x y)
        = (xs ++ a :: b :: post).countP (fun y => gt x y) := by
      simp only [List.countP_append, List.countP_cons]
      omega
    show (xs ++ b :: a :: post).countP (fun y => gt x y) + inversions gt (xs ++ b :: a :: post)
      + 1 = (xs ++ a :: b :: post).countP (fun y => gt x y)
        + inversions gt (xs ++ a :: b :: post)
    rw [e1]
    omega

theorem measure_step (a b N r f : Nat) (hab : a ≤ b) (h : r + b * N ≤ f) : r + a * N ≤ f := by
  have := Nat.mul_le_mul_right N hab
  omega

theorem two_cells {α : Type} (xs : List α) (h : 2 ≤ xs.length) :
    ∃ c d post, xs = c :: d :: post := by
  match xs, h with
  | c :: d :: post, _ => exact ⟨c, d, post, rfl⟩

theorem orderHelper_step (expression : T → T → comparation) (reverse : bool_t) (out : Nat)
    (gt : T → T → Bool)
    (hgt : ∀ a b, ((if reverse ≠ 0 ∧ expression a b ≠ comparation.EQUAL then
        (if expression a b = comparation.GREATER then comparation.LOWER
          else comparation.GREATER)
        else expression a b) = comparation.GREATER) ↔ gt a b = true)
    {m : Mem T} {ko : Nat} (pre : List (Nat × T)) (c d : Nat × T) (post : List (Nat × T))
    (h : Rep m out (pre ++ c :: d :: post) ko) (fuel : Nat) (sorted : Bool) :
    ∃ m1, Rep m1 out (pre ++ (if gt c.2 d.2 = true then (c.1, d.2) :: (d.1, c.2) :: post
          else c :: d :: post)) ko
      ∧ m1.brk = m.brk ∧ m1.base = m.base
      ∧ (∀ a, a ≠ c.1 → a ≠ d.1 → m1.node a = m.node a)
      ∧ orderHelper_loop expression reverse out (fuel + 1) m (some c.1) sorted
        = (if post.length = 0 then
            (if (sorted || gt c.2 d.2) = true then
              orderHelper_loop expression reverse out fuel m1 (firstOr (pre ++ [c]) none) false
            else some m1)
          else orderHelper_loop expression reverse out fuel m1 (some d.1)
            (sorted || gt c.2 d.2)) := by
  have hc := Seg_mid h.2.2.1
  have h' : Rep m out ((pre ++ [c]) ++ d :: post) ko := by simpa using h
  have hd := Seg_mid h'.2.2.1
  by_cases hg : gt c.2 d.2 = true
  · obtain ⟨m1, e1, r1, b1, f1, n1⟩ := setInfo_rep pre c (d :: post) d.2 h
    have r1' : Rep m1 out ((pre ++ [(c.1, d.2)]) ++ d :: post) ko := by simpa using r1
    have hc1 := Seg_mid r1.2.2.1
    obtain ⟨m2, e2, r2, b2, f2, n2⟩ := setInfo_rep (pre ++ [(c.1, d.2)]) d post c.2 r1'
    have r2' : Rep m2 out (pre ++ (c.1, d.2) :: (d.1, c.2) :: post) ko := by simpa using r2
    have hc2 := Seg_mid r2'.2.2.1
    have hd2 := Seg_mid r2.2.2.1
    have hb2 := r2'.1
    refine ⟨m2, by simpa [hg] using r2', by rw [b2, b1], by rw [f2, f1], ?_, ?_⟩
    · intro a ha1 ha2
      rw [n2 a ha2, n1 a ha1]
    · have hg2 := (hgt c.2 d.2).2 hg
      simp only [orderHelper_loop, infoOf_some hc, nextOf_some hc, infoOf_some hd,
        Option.bind_eq_bind, Option.some_bind, firstOr_cons, hg2, if_true, e1,
        nextOf_some hc1, e2, nextOf_some hc2, nextOf_some hd2, hg, Bool.or_true, hb2]
      cases post with
      | nil =>
        simp only [firstOr_nil, decide_True, and_self, if_true, List.length_nil]
        cases pre <;> rfl
      | cons e es =>
        simp [firstOr_cons]
  · have hg2 : ¬ _ := fun e => hg ((hgt c.2 d.2).1 e)
    have hb := h.1
    refine ⟨m, by simpa [hg] using h, rfl, rfl, fun _ _ _ => rfl, ?_⟩
    simp only [orderHelper_loop, infoOf_some hc, nextOf_some hc, infoOf_some hd,
      Option.bind_eq_bind, Option.some_bind, firstOr_cons, hg2, if_false, hg,
      Bool.or_false, hb, nextOf_some hd]
    cases post with
    | nil =>
      simp only [firstOr_nil, decide_True, true_and, List.length_nil, if_true]
      cases pre <;> rfl
    | cons e es =>
      simp [firstOr_cons]

end ListT

namespace ListT

variable {T : Type}

theorem orderHelper_round (expression : T → T → comparation) (reverse : bool_t) (out : Nat)
    (gt : T → T → Bool)
    (hgt : ∀ a b, ((if reverse ≠ 0 ∧ expression a b ≠ comparation.EQUAL then
        (if expression a b = comparation.GREATER then comparation.LOWER
          else comparation.GREATER)
        else expression a b) = comparation.GREATER) ↔ gt a b = true)
    (hasym : ∀ a b, gt a b = true → gt b a = false)
    {m : Mem T} {ko : Nat} (pre : List (Nat × T)) (c d : Nat × T) (post : List (Nat × T))
    (h : Rep m out (pre ++ c :: d :: post) ko) (fuel : Nat) (sorted : Bool) :
    ∃ m1 c1 d1 s1, Rep m1 out (pre ++ c1 :: d1 :: post) ko
      ∧ c1.1 = c.1 ∧ d1.1 = d.1
      ∧ ((pre ++ c1 :: d1 :: post).map Prod.snd).Perm ((pre ++ c :: d :: post).map Prod.snd)
      ∧ inversions gt ((pre ++ c1 :: d1 :: post).map Prod.snd) + (if s1 = true then 1 else 0)
          ≤ inversions gt ((pre ++ c :: d :: post).map Prod.snd)
            + (if sorted = true then 1 else 0)
      ∧ (s1 = false → sorted = false ∧ c1 = c ∧ d1 = d ∧ gt c.2 d.2 = false)
      ∧ m1.brk = m.brk ∧ m1.base = m.base
      ∧ (∀ a, a ≠ c.1 → a ≠ d.1 → m1.node a = m.node a)
      ∧ orderHelper_loop expression reverse out (fuel + 1) m (some c.1) sorted
        = (if post.length = 0 then
            (if s1 = true then
              orderHelper_loop expression reverse out fuel m1 (firstOr (pre ++ [c]) none) false
            else some m1)
          else orderHelper_loop expression reverse out fuel m1 (some d.1) s1) := by
  obtain ⟨m1, r1, b1, f1, n1, e1⟩ :=
    orderHelper_step expression reverse out gt hgt pre c d post h fuel sorted
  by_cases hg : gt c.2 d.2 = true
  · simp only [hg, if_true, Bool.or_true] at r1 e1
    have hinv := inversions_swap gt c.2 d.2 hg (hasym _ _ hg) (pre.map Prod.snd)
      (post.map Prod.snd)
    refine ⟨m1, (c.1, d.2), (d.1, c.2), true, r1, rfl, rfl, ?_, ?_, ?_, b1, f1, n1, ?_⟩
    · simp only [List.map_append, List.map_cons]
      exact List.Perm.append_left _ (List.Perm.swap _ _ _)
    · simp only [List.map_append, List.map_cons, if_true]
      split <;> omega
    · intro e
      cases e
    · simpa using e1
  · have hg' : gt c.2 d.2 = false := by simpa using hg
    simp only [hg', Bool.or_false, Bool.false_eq_true, if_false] at r1 e1
    refine ⟨m1, c, d, sorted, r1, rfl, rfl, List.Perm.refl _, le_refl _, ?_, b1, f1, n1, e1⟩
    intro e
    exact ⟨e, rfl, rfl, hg'⟩

end ListT

namespace ListT

variable {T : Type}

theorem firstOr_snoc_eq (pre : List (Nat × T)) (c c1 : Nat × T) (rest : List (Nat × T))
    (h : c1.1 = c.1) : firstOr (pre ++ [c]) none = firstOr (pre ++ c1 :: rest) none := by
  cases pre with
  | nil => simp [h]
  | cons p ps => rfl

theorem chain_snoc {α : Type} (R : α → α → Prop) (xs : List α) (a b : α)
    (h : List.Chain' R (xs ++ [a])) (hab : R a b) : List.Chain' R (xs ++ [a, b]) := by
  have e : xs ++ [a, b] = (xs ++ [a]) ++ [b] := by simp
  rw [e, List.chain'_append]
  refine ⟨h, List.chain'_singleton _, ?_⟩
  intro x hx y hy
  rw [List.getLast?_concat] at hx
  simp only [Option.mem_def, Option.some.injEq, List.head?_cons] at hx hy
  subst hx hy
  exact hab

theorem orderHelper_loop_spec (expression : T → T → comparation) (reverse : bool_t)
    (out b0 : Nat) (gt : T → T → Bool)
    (hgt : ∀ a b, ((if reverse ≠ 0 ∧ expression a b ≠ comparation.EQUAL then
        (if expression a b = comparation.GREATER then comparation.LOWER
          else comparation.GREATER)
        else expression a b) = comparation.GREATER) ↔ gt a b = true)
    (hasym : ∀ a b, gt a b = true → gt b a = false) (ko N : Nat) :
    ∀ (fuel : Nat) (m : Mem T) (pre : List (Nat × T)) (c d : Nat × T)
      (post : List (Nat × T)) (sorted : Bool),
      Rep m out (pre ++ c :: d :: post) ko →
      (∀ x ∈ (pre ++ c :: d :: post).map Prod.fst, b0 ≤ x) →
      N = pre.length + post.length + 1 →
      (sorted = false →
        List.Chain' (fun a b => gt a b = false) ((pre ++ [c]).map Prod.snd)) →
      (post.length + 1) + (inversions gt ((pre ++ c :: d :: post).map Prod.snd)
        + (if sorted = true then 1 else 0)) * N ≤ fuel →
      ∃ m1 oc1, orderHelper_loop expression reverse out fuel m (some c.1) sorted = some m1
        ∧ Rep m1 out oc1 ko
        ∧ (oc1.map Prod.snd).Perm ((pre ++ c :: d :: post).map Prod.snd)
        ∧ List.Chain' (fun a b => gt a b = false) (oc1.map Prod.snd)
        ∧ oc1.map Prod.fst = (pre ++ c :: d :: post).map Prod.fst
        ∧ m1.brk = m.brk ∧ m1.base = m.base ∧ (∀ a, a < b0 → m1.node a = m.node a) := by
  intro fuel
  induction fuel with
  | zero =>
    intro m pre c d post sorted _ _ _ _ hf
    omega
  | succ f ih =>
    intro m pre c d post sorted h hb hN hch hf
    obtain ⟨m1, c1, d1, s1, r1, hc1, hd1, hp1, hi1, hs1, b1, f1, n1, e1⟩ :=
      orderHelper_round expression reverse out gt hgt hasym pre c d post h f sorted
    have hfst : (pre ++ c1 :: d1 :: post).map Prod.fst = (pre ++ c :: d :: post).map Prod.fst := by
      simp [hc1, hd1]
    have hcb : b0 ≤ c.1 := hb c.1 (by simp)
    have hdb : b0 ≤ d.1 := hb d.1 (by simp)
    have hfr : ∀ a, a < b0 → m1.node a = m.node a :=
      fun a ha => n1 a (by omega) (by omega)
    have hmul := Nat.mul_le_mul_right N hi1
    rw [e1]
    cases post with
    | cons e es =>
      have r1' : Rep m1 out ((pre ++ [c1]) ++ d1 :: e :: es) ko := by simpa using r1
      have eqc : (pre ++ [c1]) ++ d1 :: e :: es = pre ++ c1 :: d1 :: e :: es := by simp
      obtain ⟨m2, oc2, e2, r2, p2, c2, a2, b2, f2, n2⟩ := ih m1 (pre ++ [c1]) d1 e es s1 r1'
        (by rw [eqc, hfst]; exact hb)
        (by simp only [List.length_append, List.length_cons, List.length_nil] at hN ⊢; omega)
        (by
          intro hs
          obtain ⟨h1, h2, h3, h4⟩ := hs1 hs
          subst h2 h3
          have := hch h1
          simp only [List.map_append, List.map_cons, List.map_nil, List.append_assoc,
            List.singleton_append] at this ⊢
          exact chain_snoc _ _ _ _ this h4)
        (by
          rw [eqc]
          simp only [List.length_cons] at hf ⊢
          omega)
      simp only [List.length_cons, Nat.add_one_ne_zero, if_false, hd1.symm]
      refine ⟨m2, oc2, e2, r2, ?_, c2, ?_, by rw [b2, b1], by rw [f2, f1], ?_⟩
      · rw [eqc] at p2
        exact p2.trans hp1
      · rw [a2, eqc, hfst]
      · intro a ha
        rw [n2 a ha, hfr a ha]
    | nil =>
      simp only [List.length_nil, if_true]
      cases s1 with
      | true =>
        simp only [if_true]
        obtain ⟨c', d', post', e⟩ := two_cells (pre ++ [c1, d1]) (by simp)
        have hlen := congrArg List.length e
        simp only [List.length_append, List.length_cons, List.length_nil] at hlen hN
        have ef : firstOr (pre ++ [c]) none = some c'.1 := by
          rw [firstOr_snoc_eq pre c c1 [d1] hc1, e]
          rfl
        rw [ef]
        rw [e] at r1 hp1 hfst hi1
        simp only [if_true] at hi1
        have hmul2 := Nat.mul_le_mul_right N hi1
        rw [Nat.add_mul, Nat.one_mul] at hmul2
        obtain ⟨m2, oc2, e2, r2, p2, c2, a2, b2, f2, n2⟩ := ih m1 [] c' d' post' false r1
          (by
            simp only [List.nil_append]
            rw [hfst]
            exact hb)
          (by simp only [List.length_nil]; omega)
          (by
            intro _
            simp)
          (by
            simp only [List.nil_append, Bool.false_eq_true, if_false, Nat.add_zero]
            simp only [List.length_nil] at hf
            omega)
        refine ⟨m2, oc2, e2, r2, ?_, c2, ?_, by rw [b2, b1], by rw [f2, f1], ?_⟩
        · exact p2.trans hp1
        · rw [a2]
          exact hfst
        · intro a ha
          rw [n2 a ha, hfr a ha]
      | false =>
        obtain ⟨h1, h2, h3, h4⟩ := hs1 rfl
        subst h2 h3
        simp only [Bool.false_eq_true, if_false]
        refine ⟨m1, pre ++ [c1, d1], rfl, r1, List.Perm.refl _, ?_, rfl, b1, f1, hfr⟩
        have := hch h1
        simp only [List.map_append, List.map_cons, List.map_nil] at this ⊢
        exact chain_snoc _ _ _ _ this h4

end ListT

namespace ListT

variable {T : Type}

theorem cube_bound (n N inv b : Nat) (hN : n = N + 1) (hinv : inv ≤ n * n) (hb : n ≤ b) :
    N + inv * N ≤ (b + 1) ^ 3 := by
  have h1 : inv * N ≤ n * n * N := Nat.mul_le_mul_right N hinv
  have h2 : n ^ 3 ≤ (b + 1) ^ 3 := Nat.pow_le_pow_left (by omega) 3
  have h3 : N + n * n * N ≤ n ^ 3 := by
    subst hN
    nlinarith
  omega

theorem orderHelper_rep (expression : T → T → comparation) (reverse : bool_t)
    (gt : T → T → Bool)
    (hgt : ∀ a b, ((if reverse ≠ 0 ∧ expression a b ≠ comparation.EQUAL then
        (if expression a b = comparation.GREATER then comparation.LOWER
          else comparation.GREATER)
        else expression a b) = comparation.GREATER) ↔ gt a b = true)
    (hasym : ∀ a b, gt a b = true → gt b a = false)
    {m : Mem T} {l k : Nat} {cells : List (Nat × T)} (h : Rep m l cells k)
    (hne : cells ≠ []) :
    ∃ m1 oc ko, orderHelper (some l) expression reverse m = some (some m.brk, m1)
      ∧ Rep m1 m.brk oc ko
      ∧ (oc.map Prod.snd).Perm (cells.map Prod.snd)
      ∧ List.Chain' (fun a b => gt a b = false) (oc.map Prod.snd)
      ∧ Rep m1 l cells k := by
  obtain ⟨m0, oc0, k0, e0, r0, hv0, ho0, ha0, hs0⟩ := copy_rep h
  have hlen : oc0.length = cells.length := by
    have := congrArg List.length hv0
    simpa using this
  have hb0 := hs0.1
  by_cases h1 : cells.length = 1
  · refine ⟨m0, oc0, k0, ?_, r0, by rw [hv0], ?_, hs0⟩
    · have hz : ((cells.length : Int) = 1) := by rw [h1]; rfl
      simp only [orderHelper, e0, hb0, Option.bind_eq_bind, Option.some_bind, hz, if_true]
    · match oc0, hlen.trans h1 with
      | [c], _ => simp
  · have h2 : 2 ≤ oc0.length := by
      have : cells.length ≠ 0 := fun e => hne (List.length_eq_zero.1 e)
      omega
    obtain ⟨c, d, post, e⟩ := two_cells oc0 h2
    subst e
    have hbrk := r0.length_le
    have r0' : Rep m0 m.brk ([] ++ c :: d :: post) k0 := r0
    obtain ⟨m1, oc1, e1, r1, p1, c1, a1, b1, f1, n1⟩ := orderHelper_loop_spec expression reverse
      m.brk m.brk gt hgt hasym k0 (post.length + 1) ((m0.brk + 1) ^ 3) m0 [] c d post false r0'
      (by
        intro x hx
        obtain ⟨y, hy, rfl⟩ := List.mem_map.1 hx
        exact ho0 y hy)
      (by simp)
      (by intro _; simp)
      (by
        simp only [Bool.false_eq_true, if_false, Nat.add_zero, List.nil_append]
        refine cube_bound (c :: d :: post).length (post.length + 1) _ m0.brk (by simp) ?_ hbrk
        have := inversions_le gt ((c :: d :: post).map Prod.snd)
        simpa using this)
    have hz : ¬ ((cells.length : Int) = 1) := by omega
    have hob := r0.1
    refine ⟨m1, oc1, k0, ?_, r1, ?_, c1, ?_⟩
    · simp only [orderHelper, e0, hb0, Option.bind_eq_bind, Option.some_bind, hz, if_false, hob,
        firstOr_cons, e1]
    · exact p1.trans (by rw [← hv0]; rfl)
    · exact hs0.agree h.2.2.2.2.2 h.2.2.2.2.1 ⟨fun b _ => by rw [f1], n1, by omega⟩

end ListT

namespace ListT

variable {T : Type}

theorem in_place_order_by_rep (expression : T → T → comparation)
    (hanti : ∀ a b, expression a b = comparation.GREATER ↔ expression b a = comparation.LOWER)
    {m : Mem T} {l k : Nat} {cells : List (Nat × T)} (h : Rep m l cells k)
    (hne : cells ≠ []) :
    ∃ m1 oc ko, in_place_order_by (some l) expression m = some (some m.brk, m1)
      ∧ Rep m1 m.brk oc ko
      ∧ (oc.map Prod.snd).Perm (cells.map Prod.snd)
      ∧ List.Chain' (fun a b => expression a b ≠ comparation.GREATER) (oc.map Prod.snd)
      ∧ Rep m1 l cells k := by
  obtain ⟨m1, oc, ko, e1, r1, p1, c1, s1⟩ := orderHelper_rep expression FALSE
    (fun a b => decide (expression a b = comparation.GREATER))
    (by
      intro a b
      simp [FALSE])
    (by
      intro a b hab
      have h1 : expression a b = comparation.GREATER := by simpa using hab
      have h2 := (hanti a b).1 h1
      simp [h2])
    h hne
  refine ⟨m1, oc, ko, ?_, r1, p1, c1.imp (by intro a b hab; simpa using hab), s1⟩
  simp only [in_place_order_by, h.1, Option.bind_eq_bind, Option.some_bind,
    length_cast_ne_zero hne, if_false, e1]

theorem in_place_order_by_descending_rep (expression : T → T → comparation)
    (hanti : ∀ a b, expression a b = comparation.GREATER ↔ expression b a = comparation.LOWER)
    {m : Mem T} {l k : Nat} {cells : List (Nat × T)} (h : Rep m l cells k)
    (hne : cells ≠ []) :
    ∃ m1 oc ko, in_place_order_by_descending (some l) expression m = some (some m.brk, m1)
      ∧ Rep m1 m.brk oc ko
      ∧ (oc.map Prod.snd).Perm (cells.map Prod.snd)
      ∧ List.Chain' (fun a b => expression a b ≠ comparation.LOWER) (oc.map Prod.snd)
      ∧ Rep m1 l cells k := by
  obtain ⟨m1, oc, ko, e1, r1, p1, c1, s1⟩ := orderHelper_rep expression TRUE
    (fun a b => decide (expression a b = comparation.LOWER))
    (by
      intro a b
      cases hc : expression a b <;> simp [TRUE, hc])
    (by
      intro a b hab
      have h1 : expression a b = comparation.LOWER := by simpa using hab
      have h2 := (hanti b a).2 h1
      simp [h2])
    h hne
  refine ⟨m1, oc, ko, ?_, r1, p1, c1.imp (by intro a b hab; simpa using hab), s1⟩
  simp only [in_place_order_by_descending, h.1, Option.bind_eq_bind, Option.some_bind,
    length_cast_ne_zero hne, if_false, e1]

/-- C20. For every non-empty list `L` and every three-way comparator under which
`a` compares GREATER than `b` exactly when `b` compares LOWER than `a` (as for a
consistent total order), `in_place_order_by` returns a new list that is a
rearrangement of `L` in which no element compares GREATER than its successor,
and `in_place_order_by_descending` returns a rearrangement in which no element
compares LOWER than its successor; `L` itself is as before.  For
`[5, 3, 1, 4, 2]` with the numeric comparison the results are `[1, 2, 3, 4, 5]`
and `[5, 4, 3, 2, 1]`. -/
theorem exchange_sort_correct (m : Mem T) (l k : Nat) (cells : List (Nat × T))
    (cmp : T → T → comparation) (h : Rep m l cells k) (hne : cells ≠ [])
    (hanti : ∀ a b, cmp a b = comparation.GREATER ↔ cmp b a = comparation.LOWER) :
    (∃ out m1 s, in_place_order_by (some l) cmp m = some (some out, m1)
        ∧ out ≠ l
        ∧ elements (some out) m1 = some s
        ∧ s.Perm (cells.map Prod.snd)
        ∧ List.Chain' (fun a b => cmp a b ≠ comparation.GREATER) s
        ∧ Rep m1 l cells k
        ∧ elements (some l) m1 = some (cells.map Prod.snd)
        ∧ sync_of (some l) m1 = some k)
    ∧ (∃ out m1 s, in_place_order_by_descending (some l) cmp m = some (some out, m1)
        ∧ out ≠ l
        ∧ elements (some out) m1 = some s
        ∧ s.Perm (cells.map Prod.snd)
        ∧ List.Chain' (fun a b => cmp a b ≠ comparation.LOWER) s
        ∧ Rep m1 l cells k
        ∧ elements (some l) m1 = some (cells.map Prod.snd)
        ∧ sync_of (some l) m1 = some k)
    ∧ (in_place_order_by (some 0) compareInt (built [5, 3, 1, 4, 2])).bind
        (fun r => elements r.1 r.2) = some [1, 2, 3, 4, 5]
    ∧ (in_place_order_by_descending (some 0) compareInt (built [5, 3, 1, 4, 2])).bind
        (fun r => elements r.1 r.2) = some [5, 4, 3, 2, 1] := by
  have hl : l < m.brk := h.2.2.2.2.2
  refine ⟨?_, ?_, by decide, by decide⟩
  · obtain ⟨m1, oc, ko, e1, r1, p1, c1, s1⟩ := in_place_order_by_rep cmp hanti h hne
    exact ⟨m.brk, m1, _, e1, by omega, r1.elements, p1, c1, s1, s1.elements, s1.sync_of⟩
  · obtain ⟨m1, oc, ko, e1, r1, p1, c1, s1⟩ := in_place_order_by_descending_rep cmp hanti h hne
    exact ⟨m.brk, m1, _, e1, by omega, r1.elements, p1, c1, s1, s1.elements, s1.sync_of⟩

/-- Witness for C20: the list `[5, 3, 1, 4, 2]` under the numeric comparison. -/
theorem exchange_sort_correct_witness :
    Rep (built [5, 3, 1, 4, 2]) 0 [(1, 5), (2, 3), (3, 1), (4, 4), (5, 2)] 5
      ∧ (∀ a b, compareInt a b = comparation.GREATER ↔ compareInt b a = comparation.LOWER)
      ∧ (∃ out m1 s, in_place_order_by (some 0) compareInt (built [5, 3, 1, 4, 2])
            = some (some out, m1)
          ∧ elements (some out) m1 = some s
          ∧ s.Perm [5, 3, 1, 4, 2]
          ∧ List.Chain' (fun a b => compareInt a b ≠ comparation.GREATER) s
          ∧ elements (some 0) m1 = some [5, 3, 1, 4, 2]) := by
  have hanti : ∀ a b : Int,
      compareInt a b = comparation.GREATER ↔ compareInt b a = comparation.LOWER := by
    intro a b
    unfold compareInt
    constructor
    · intro hab
      split at hab
      · cases hab
      · split at hab
        · cases hab
        · rw [if_pos (by omega)]
    · intro hba
      split at hba
      · rw [if_neg (by omega), if_neg (by omega)]
      · split at hba <;> cases hba
  refine ⟨by decide, hanti, ?_⟩
  obtain ⟨⟨out, m1, s, e1, -, h2, h3, h4, -, h5, -⟩, -⟩ :=
    exchange_sort_correct (built [5, 3, 1, 4, 2]) 0 5 [(1, 5), (2, 3), (3, 1), (4, 4), (5, 2)]
      compareInt (by decide) (by decide) hanti
  exact ⟨out, m1, s, e1, h2, h3, h4, h5⟩

end ListT

namespace ListT

variable {T : Type}

/-! ## `order_by_descending` -/

/-- C21, at the failing input.  Whatever the external sort is, if it leaves the
array exported from `[5, 3, 1, 4, 2]` sorted as `[1, 2, 3, 4, 5]`, then `order_by`
returns `[1, 2, 3, 4, 5]` and `order_by_descending` returns `[3, 2, 1, 4, 5]`, not
`[5, 4, 3, 2, 1]`: its reversal loop starts at `target = len >> 1`, so it only
exchanges the entries 0 and 2. -/
theorem order_by_descending_half_reversal_on_example
    (introsort : List Int → Int → (Int → Int → comparation) → List Int)
    (h : introsort [5, 3, 1, 4, 2] 5 compareInt = [1, 2, 3, 4, 5]) :
    (order_by introsort (some 0) compareInt (built [5, 3, 1, 4, 2])).bind
        (fun r => elements r.1 r.2) = some [1, 2, 3, 4, 5]
    ∧ (order_by_descending introsort (some 0) compareInt (built [5, 3, 1, 4, 2])).bind
        (fun r => elements r.1 r.2) = some [3, 2, 1, 4, 5] := by
  have e0 : (built [5, 3, 1, 4, 2]).base 0 = some ⟨some 1, some 5, 5, 5⟩ := by decide
  have e1 : to_array (some 0) (built [5, 3, 1, 4, 2]) = some (some [5, 3, 1, 4, 2], 5) := by
    decide
  have z : ¬ ((5 : Int) = 0) := by decide
  constructor
  · simp only [order_by, e0, e1, h, Option.bind_eq_bind, Option.some_bind, z, if_false]
    decide
  · simp only [order_by_descending, e0, e1, h, Option.bind_eq_bind, Option.some_bind, z,
      if_false]
    decide

/-- Witness for C21: the insertion sort `exampleSort` as the external sort. -/
theorem order_by_descending_half_reversal_on_example_witness :
    exampleSort [5, 3, 1, 4, 2] 5 compareInt = [1, 2, 3, 4, 5]
      ∧ (order_by_descending exampleSort (some 0) compareInt (built [5, 3, 1, 4, 2])).bind
          (fun r => elements r.1 r.2) = some [3, 2, 1, 4, 5] :=
  ⟨by decide, (order_by_descending_half_reversal_on_example exampleSort (by decide)).2⟩

end ListT

namespace ListT

variable {T : Type}

/-! ## `any`, `all` and `single` -/

theorem any_loop_spec (expression : T → bool_t) (m : Mem T) :
    ∀ (cells : List (Nat × T)) (p : nodePointer) (fuel : Nat),
      Seg m.node p cells none → cells.length < fuel →
      any_loop expression m fuel (firstOr cells none)
        = some (if (cells.map Prod.snd).any (fun v => decide (expression v ≠ 0)) = true
            then TRUE else FALSE) := by
  intro cells
  induction cells with
  | nil =>
    intro p fuel _ _
    cases fuel <;> simp [any_loop]
  | cons c cs ih =>
    intro p fuel h hf
    obtain ⟨f, rfl⟩ : ∃ f, fuel = f + 1 := ⟨fuel - 1, by simp at hf; omega⟩
    obtain ⟨hc, hs⟩ := h
    have := ih (some c.1) f hs (by simp at hf; omega)
    simp only [firstOr_cons, any_loop, infoOf_some hc, nextOf_some hc,
      Option.bind_eq_bind, Option.some_bind, List.map_cons, List.any_cons]
    by_cases he : expression c.2 = 0
    · simp only [he, ne_eq, not_true_eq_false, if_false, decide_False, Bool.false_or]
      exact this
    · simp only [he, ne_eq, not_false_eq_true, if_true, decide_True, Bool.true_or]

theorem all_loop_spec (expression : T → bool_t) (m : Mem T) :
    ∀ (cells : List (Nat × T)) (p : nodePointer) (fuel : Nat),
      Seg m.node p cells none → cells.length < fuel →
      all_loop expression m fuel (firstOr cells none)
        = some (if (cells.map Prod.snd).all (fun v => decide (expression v ≠ 0)) = true
            then TRUE else FALSE) := by
  intro cells
  induction cells with
  | nil =>
    intro p fuel _ _
    cases fuel <;> simp [all_loop]
  | cons c cs ih =>
    intro p fuel h hf
    obtain ⟨f, rfl⟩ : ∃ f, fuel = f + 1 := ⟨fuel - 1, by simp at hf; omega⟩
    obtain ⟨hc, hs⟩ := h
    have := ih (some c.1) f hs (by simp at hf; omega)
    simp only [firstOr_cons, all_loop, infoOf_some hc, nextOf_some hc,
      Option.bind_eq_bind, Option.some_bind, List.map_cons, List.all_cons]
    by_cases he : expression c.2 = 0
    · simp only [he, ne_eq, not_true_eq_false, if_true, decide_False, Bool.false_and,
        Bool.false_eq_true, if_false]
    · simp only [he, ne_eq, not_false_eq_true, if_false, decide_True, Bool.true_and]
      exact this

theorem any_rep {m : Mem T} {l k : Nat} {cells : List (Nat × T)} (expression : T → bool_t)
    (h : Rep m l cells k) :
    any (some l) expression m
      = some (if (cells.map Prod.snd).any (fun v => decide (expression v ≠ 0)) = true
          then TRUE else FALSE) := by
  have hlen := h.length_le
  cases cells with
  | nil =>
    simp only [any, h.1, Option.bind_eq_bind, Option.some_bind, List.length_nil, Nat.cast_zero,
      if_true]
    rfl
  | cons c cs =>
    have e := any_loop_spec expression m (c :: cs) none (m.brk + 1) h.2.2.1 (by omega)
    simp only [any, h.1, Option.bind_eq_bind, Option.some_bind,
      length_cast_ne_zero (List.cons_ne_nil c cs), if_false, e]

theorem all_rep {m : Mem T} {l k : Nat} {cells : List (Nat × T)} (expression : T → bool_t)
    (h : Rep m l cells k) :
    all (some l) expression m
      = some (if (!cells.isEmpty && (cells.map Prod.snd).all (fun v => decide (expression v ≠ 0)))
            = true
          then TRUE else FALSE) := by
  have hlen := h.length_le
  cases cells with
  | nil =>
    simp only [all, h.1, Option.bind_eq_bind, Option.some_bind, List.length_nil, Nat.cast_zero,
      if_true, List.isEmpty_nil, Bool.not_true, Bool.false_and, Bool.false_eq_true, if_false]
  | cons c cs =>
    have e := all_loop_spec expression m (c :: cs) none (m.brk + 1) h.2.2.1 (by omega)
    simp only [all, h.1, Option.bind_eq_bind, Option.some_bind,
      length_cast_ne_zero (List.cons_ne_nil c cs), if_false, e, List.isEmpty_cons,
      Bool.not_false, Bool.true_and]

/-- C22. For every list (holding `s`) and predicate `p`, `all` returns `TRUE` when
the list is non-empty and `p` holds for every element and `FALSE` otherwise, so
`FALSE` on an empty or absent list; `any` returns `TRUE` when some element
satisfies `p` and `FALSE` otherwise; and on a non-empty list `all` with `p` is
`TRUE` exactly when `any` with a negation of `p` is `FALSE`. -/
theorem any_all_scan (m : Mem T) (l k : Nat) (cells : List (Nat × T)) (p : T → bool_t)
    (h : Rep m l cells k) :
    (∃ r, all (some l) p m = some r ∧ (r = TRUE ∨ r = FALSE)
        ∧ (r = TRUE ↔ cells ≠ [] ∧ ∀ v ∈ cells.map Prod.snd, p v ≠ 0))
    ∧ (∃ r, any (some l) p m = some r ∧ (r = TRUE ∨ r = FALSE)
        ∧ (r = TRUE ↔ ∃ v ∈ cells.map Prod.snd, p v ≠ 0))
    ∧ (cells = [] → all (some l) p m = some FALSE ∧ any (some l) p m = some FALSE)
    ∧ all none p m = some FALSE
    ∧ any none p m = some FALSE
    ∧ (cells ≠ [] → ∀ np : T → bool_t, (∀ v, np v ≠ 0 ↔ p v = 0) →
        (all (some l) p m = some TRUE ↔ any (some l) np m = some FALSE)) := by
  have hall := all_rep p h
  have hany := any_rep p h
  refine ⟨?_, ?_, ?_, rfl, rfl, ?_⟩
  · refine ⟨_, hall, ?_, ?_⟩
    · split
      · exact Or.inl rfl
      · exact Or.inr rfl
    · have hiff : ((!cells.isEmpty && (cells.map Prod.snd).all (fun v => decide (p v ≠ 0)))
          = true) ↔ (cells ≠ [] ∧ ∀ v ∈ cells.map Prod.snd, p v ≠ 0) := by
        simp only [Bool.and_eq_true, Bool.not_eq_true', List.isEmpty_eq_false,
          List.all_eq_true, decide_eq_true_eq]
      rw [← hiff]
      split
      · rename_i hc
        exact ⟨fun _ => hc, fun _ => rfl⟩
      · rename_i hc
        exact ⟨fun e => absurd e.symm TRUE_ne_FALSE, fun e => absurd e hc⟩
  · refine ⟨_, hany, ?_, ?_⟩
    · split
      · exact Or.inl rfl
      · exact Or.inr rfl
    · simp only [List.any_eq_true, decide_eq_true_eq]
      split
      · rename_i hc
        exact ⟨fun _ => hc, fun _ => rfl⟩
      · rename_i hc
        exact ⟨fun e => absurd e.symm TRUE_ne_FALSE, fun e => absurd e hc⟩
  · rintro rfl
    exact ⟨by rw [hall]; simp, by rw [hany]; simp⟩
  · intro hne np hnp
    rw [hall, any_rep np h]
    have e1 : (cells.map Prod.snd).any (fun v => decide (np v ≠ 0))
        = !(cells.map Prod.snd).all (fun v => decide (p v ≠ 0)) := by
      rw [List.not_all_eq_any_not]
      congr 1
      funext v
      by_cases hv : p v = 0
      · simp [hv, (hnp v).2 hv]
      · have : np v = 0 := by
          by_contra hc
          exact hv ((hnp v).1 hc)
        simp [hv, this]
    rw [e1]
    have hemp : cells.isEmpty = false := by simpa using hne
    rw [hemp]
    cases hb : (cells.map Prod.snd).all (fun v => decide (p v ≠ 0))
    · simp [TRUE_ne_FALSE, Ne.symm TRUE_ne_FALSE]
    · simp [TRUE_ne_FALSE, Ne.symm TRUE_ne_FALSE]

/-- Witness for C22: the list `[1, 2, 3]` with the predicate `v >= 2`. -/
theorem any_all_scan_witness :
    Rep (built [1, 2, 3]) 0 [(1, 1), (2, 2), (3, 3)] 3
      ∧ all (some 0) (fun v => if v ≥ 2 then TRUE else FALSE) (built [1, 2, 3]) = some FALSE
      ∧ any (some 0) (fun v => if v ≥ 2 then TRUE else FALSE) (built [1, 2, 3]) = some TRUE := by
  obtain ⟨⟨r1, e1, h1, i1⟩, ⟨r2, e2, h2, i2⟩, -⟩ := any_all_scan (built [1, 2, 3]) 0 3
    [(1, 1), (2, 2), (3, 3)] (fun v => if v ≥ 2 then TRUE else FALSE) (by decide)
  refine ⟨by decide, ?_, ?_⟩
  · rw [e1]
    rcases h1 with h1 | h1
    · have := (i1.1 h1).2 1 (by simp)
      exact absurd rfl this
    · rw [h1]
  · rw [e2, i2.2 ⟨2, by simp, by simp [TRUE]⟩]

end ListT

namespace ListT

variable {T : Type}

theorem single_loop_spec (expression : T → bool_t) (m : Mem T) :
    ∀ (cells : List (Nat × T)) (p : nodePointer) (fuel : Nat) (found : bool_t)
      (result : Option T),
      Seg m.node p cells none → cells.length < fuel → (found = TRUE ∨ found = FALSE) →
      ∃ r res, single_loop expression m fuel (firstOr cells none) found result = some (r, res)
        ∧ (r = TRUE ∨ r = FALSE)
        ∧ (r = TRUE ↔ (if found = TRUE then 1 else 0)
            + ((cells.map Prod.snd).filter (fun v => decide (expression v ≠ 0))).length = 1)
        ∧ (r = TRUE → found = FALSE →
            res = ((cells.map Prod.snd).filter (fun v => decide (expression v ≠ 0))).head?)
        ∧ (r = TRUE → found = TRUE → res = result) := by
  intro cells
  induction cells with
  | nil =>
    intro p fuel found result _ _ hfound
    refine ⟨found, result, ?_, hfound, ?_, ?_, fun _ _ => rfl⟩
    · cases fuel <;> simp [single_loop]
    · rcases hfound with rfl | rfl
      · simp
      · simp [Ne.symm TRUE_ne_FALSE]
    · intro h1 h2
      rw [h1] at h2
      exact absurd h2 TRUE_ne_FALSE
  | cons c cs ih =>
    intro p fuel found result h hf hfound
    obtain ⟨f, rfl⟩ : ∃ f, fuel = f + 1 := ⟨fuel - 1, by simp at hf; omega⟩
    obtain ⟨hc, hs⟩ := h
    by_cases he : expression c.2 = 0
    · obtain ⟨r, res, e, hr, h1, h2, h3⟩ := ih (some c.1) f found result hs
        (by simp at hf; omega) hfound
      refine ⟨r, res, ?_, hr, ?_, ?_, h3⟩
      · simp only [firstOr_cons, single_loop, infoOf_some hc, nextOf_some hc,
          Option.bind_eq_bind, Option.some_bind, he, ne_eq, not_true_eq_false, if_false]
        exact e
      · simpa [List.filter_cons, he] using h1
      · simpa [List.filter_cons, he] using h2
    · rcases hfound with rfl | rfl
      · refine ⟨FALSE, result, ?_, Or.inr rfl, ?_, ?_, ?_⟩
        · have : ¬ (TRUE = (0 : Int)) := by decide
          simp only [firstOr_cons, single_loop, infoOf_some hc, nextOf_some hc,
            Option.bind_eq_bind, Option.some_bind, he, ne_eq, not_false_eq_true, if_true, this]
        · simp [List.filter_cons, he, Ne.symm TRUE_ne_FALSE]
        · intro h1
          exact absurd h1.symm TRUE_ne_FALSE
        · intro h1
          exact absurd h1.symm TRUE_ne_FALSE
      · obtain ⟨r, res, e, hr, h1, h2, h3⟩ := ih (some c.1) f TRUE (some c.2) hs
          (by simp at hf; omega) (Or.inl rfl)
        refine ⟨r, res, ?_, hr, ?_, ?_, ?_⟩
        · have : FALSE = (0 : Int) := rfl
          simp only [firstOr_cons, single_loop, infoOf_some hc, nextOf_some hc,
            Option.bind_eq_bind, Option.some_bind, he, ne_eq, not_false_eq_true, if_true, this,
            not_true_eq_false, if_false]
          exact e
        · rw [h1]
          simp [List.filter_cons, he, Ne.symm TRUE_ne_FALSE]
        · intro hr1 _
          rw [h3 hr1 rfl]
          simp [List.filter_cons, he]
        · intro _ h4
          exact absurd h4.symm TRUE_ne_FALSE

/-- C23. For every list (holding `s`) and predicate `p`, `single` returns `TRUE`
or `FALSE`; it returns `TRUE` exactly when one element of `s`, counted by
position, satisfies `p`, and then the value stored through `result` is that
element; so it returns `FALSE` when no element or more than one satisfies `p`,
and on an empty or absent list. -/
theorem single_unique_match (m : Mem T) (l k : Nat) (cells : List (Nat × T)) (p : T → bool_t)
    (h : Rep m l cells k) :
    (∃ r res, single (some l) p m = some (r, res)
      ∧ (r = TRUE ∨ r = FALSE)
      ∧ (r = TRUE ↔ (cells.map Prod.snd).countP (fun v => decide (p v ≠ 0)) = 1)
      ∧ (r = TRUE → ∃ x, res = some x ∧ p x ≠ 0
          ∧ (cells.map Prod.snd).filter (fun v => decide (p v ≠ 0)) = [x]))
    ∧ (cells = [] → single (some l) p m = some (FALSE, none))
    ∧ single none p m = some (FALSE, none) := by
  have hlen := h.length_le
  refine ⟨?_, ?_, rfl⟩
  · cases cells with
    | nil =>
      refine ⟨FALSE, none, ?_, Or.inr rfl, ?_, ?_⟩
      · simp only [single, h.1, Option.bind_eq_bind, Option.some_bind, List.length_nil,
          Nat.cast_zero, if_true]
      · simp [Ne.symm TRUE_ne_FALSE]
      · intro e
        exact absurd e.symm TRUE_ne_FALSE
    | cons c cs =>
      obtain ⟨r, res, e, hr, h1, h2, -⟩ := single_loop_spec p m (c :: cs) none (m.brk + 1) FALSE
        none h.2.2.1 (by omega) (Or.inr rfl)
      refine ⟨r, res, ?_, hr, ?_, ?_⟩
      · simp only [single, h.1, Option.bind_eq_bind, Option.some_bind,
          length_cast_ne_zero (List.cons_ne_nil c cs), if_false]
        exact e
      · rw [h1, List.countP_eq_length_filter]
        simp [Ne.symm TRUE_ne_FALSE]
      · intro hr1
        have hl := h1.1 hr1
        have hh := h2 hr1 rfl
        simp only [Ne.symm TRUE_ne_FALSE, if_false, Nat.zero_add] at hl
        match hf : (List.map Prod.snd (c :: cs)).filter (fun v => decide (p v ≠ 0)), hl with
        | [x], _ =>
          rw [hf] at hh
          have hx : x ∈ (List.map Prod.snd (c :: cs)).filter (fun v => decide (p v ≠ 0)) := by
            rw [hf]; simp
          exact ⟨x, hh, by simpa using (List.mem_filter.1 hx).2, rfl⟩
  · rintro rfl
    simp only [single, h.1, Option.bind_eq_bind, Option.some_bind, List.length_nil,
      Nat.cast_zero, if_true]

/-- Witness for C23: on `[1, 2, 3]` the predicate `v = 2` has one match and the
predicate `v >= 2` has two. -/
theorem single_unique_match_witness :
    Rep (built [1, 2, 3]) 0 [(1, 1), (2, 2), (3, 3)] 3
      ∧ (∃ r res, single (some 0) (fun v => if v = 2 then TRUE else FALSE) (built [1, 2, 3])
            = some (r, res)
          ∧ (r = TRUE ↔ ([1, 2, 3] : List Int).countP
              (fun v => decide ((if v = 2 then TRUE else FALSE) ≠ 0)) = 1))
      ∧ single (some 0) (fun v => if v = 2 then TRUE else FALSE) (built [1, 2, 3])
          = some (TRUE, some 2)
      ∧ single (some 0) (fun v => if v ≥ 2 then TRUE else FALSE) (built [1, 2, 3])
          = some (FALSE, some 2) := by
  obtain ⟨⟨r, res, e, -, h1, -⟩, -⟩ := single_unique_match (built [1, 2, 3]) 0 3
    [(1, 1), (2, 2), (3, 3)] (fun v => if v = 2 then TRUE else FALSE) (by decide)
  exact ⟨by decide, ⟨r, res, e, h1⟩, by decide, by decide⟩

end ListT

namespace ListT

variable {T : Type}

/-! ## `get_min` and `get_max` -/

theorem get_min_loop_spec (expression : T → T → comparation) (m : Mem T) :
    ∀ (cells : List (Nat × T)) (p : nodePointer) (fuel : Nat) (result : T),
      Seg m.node p cells none → cells.length < fuel →
      get_min_loop expression m fuel (firstOr cells none) result
        = some ((cells.map Prod.snd).foldl
            (fun r v => if expression r v = comparation.GREATER then v else r) result) := by
  intro cells
  induction cells with
  | nil =>
    intro p fuel result _ _
    cases fuel <;> simp [get_min_loop]
  | cons c cs ih =>
    intro p fuel result h hf
    obtain ⟨f, rfl⟩ : ∃ f, fuel = f + 1 := ⟨fuel - 1, by simp at hf; omega⟩
    obtain ⟨hc, hs⟩ := h
    simp only [firstOr_cons, get_min_loop, infoOf_some hc, nextOf_some hc,
      Option.bind_eq_bind, Option.some_bind, List.map_cons, List.foldl_cons]
    exact ih (some c.1) f _ hs (by simp at hf; omega)

theorem get_max_loop_spec (expression : T → T → comparation) (m : Mem T) :
    ∀ (cells : List (Nat × T)) (p : nodePointer) (fuel : Nat) (result : T),
      Seg m.node p cells none → cells.length < fuel →
      get_max_loop expression m fuel (firstOr cells none) result
        = some ((cells.map Prod.snd).foldl
            (fun r v => if expression r v = comparation.LOWER then v else r) result) := by
  intro cells
  induction cells with
  | nil =>
    intro p fuel result _ _
    cases fuel <;> simp [get_max_loop]
  | cons c cs ih =>
    intro p fuel result h hf
    obtain ⟨f, rfl⟩ : ∃ f, fuel = f + 1 := ⟨fuel - 1, by simp at hf; omega⟩
    obtain ⟨hc, hs⟩ := h
    simp only [firstOr_cons, get_max_loop, infoOf_some hc, nextOf_some hc,
      Option.bind_eq_bind, Option.some_bind, List.map_cons, List.foldl_cons]
    exact ih (some c.1) f _ hs (by simp at hf; omega)

/-- The scan retaining the current extremum: for a relation `worse r v` (the
retained value must give way to `v`) whose complement is reflexive and
transitive and which is asymmetric, the value retained at the end is an element
and gives way to no element. -/
theorem extremum_scan (worse : T → T → Prop) [DecidableRel worse]
    (hrefl : ∀ a, ¬ worse a a) (hasym : ∀ a b, worse a b → ¬ worse b a)
    (htrans : ∀ a b c, ¬ worse a b → ¬ worse b c → ¬ worse a c) :
    ∀ (xs seen : List T) (r : T), r ∈ seen → (∀ x ∈ seen, ¬ worse r x) →
      (xs.foldl (fun r v => if worse r v then v else r) r) ∈ seen ++ xs
        ∧ ∀ x ∈ seen ++ xs, ¬ worse (xs.foldl (fun r v => if worse r v then v else r) r) x := by
  intro xs
  induction xs with
  | nil =>
    intro seen r hr hall
    simpa using ⟨hr, hall⟩
  | cons v vs ih =>
    intro seen r hr hall
    have e : seen ++ v :: vs = (seen ++ [v]) ++ vs := by simp
    rw [e, List.foldl_cons]
    by_cases hw : worse r v
    · rw [if_pos hw]
      refine ih (seen ++ [v]) v (by simp) ?_
      intro x hx
      rcases List.mem_append.1 hx with hx | hx
      · exact htrans v r x (hasym r v hw) (hall x hx)
      · simp at hx
        subst hx
        exact hrefl x
    · rw [if_neg hw]
      refine ih (seen ++ [v]) r (by simp [hr]) ?_
      intro x hx
      rcases List.mem_append.1 hx with hx | hx
      · exact hall x hx
      · simp at hx
        subst hx
        exact hw

/-- On a list of two or more elements `get_min` and `get_max` do what the
specification says, for a comparator that is a consistent total order. -/
theorem get_min_max_two_or_more (conv : T → bool_t) {m : Mem T} {l k : Nat}
    {cells : List (Nat × T)} (cmp : T → T → comparation) (h : Rep m l cells k)
    (h2 : 2 ≤ cells.length)
    (hanti : ∀ a b, cmp a b = comparation.GREATER ↔ cmp b a = comparation.LOWER)
    (htrans : ∀ a b c, cmp a b ≠ comparation.GREATER → cmp b c ≠ comparation.GREATER →
      cmp a c ≠ comparation.GREATER) :
    (∃ lo, get_min conv (some l) cmp m = some (TRUE, some lo) ∧ lo ∈ cells.map Prod.snd
        ∧ ∀ x ∈ cells.map Prod.snd, cmp lo x ≠ comparation.GREATER)
    ∧ (∃ hi, get_max conv (some l) cmp m = some (TRUE, some hi) ∧ hi ∈ cells.map Prod.snd
        ∧ ∀ x ∈ cells.map Prod.snd, cmp hi x ≠ comparation.LOWER) := by
  have hlen := h.length_le
  obtain ⟨c, d, post, rfl⟩ := two_cells cells h2
  have hb := h.1
  obtain ⟨hc, hs⟩ := h.2.2.1
  have hz : ¬ (((c :: d :: post).length : Int) = 0) := by simp; omega
  have hz1 : ¬ (((c :: d :: post).length : Int) = 1) := by simp; omega
  have hreflG : ∀ a, ¬ cmp a a = comparation.GREATER := by
    intro a ha
    have := (hanti a a).1 ha
    rw [ha] at this
    cases this
  have hreflL : ∀ a, ¬ cmp a a = comparation.LOWER := by
    intro a ha
    have := (hanti a a).2 ha
    rw [ha] at this
    cases this
  constructor
  · have e := get_min_loop_spec cmp m (d :: post) (some c.1) (m.brk + 1) c.2 hs
      (by simp at hlen ⊢; omega)
    obtain ⟨h1, h3⟩ := extremum_scan (fun a b => cmp a b = comparation.GREATER) hreflG
      (by
        intro a b hab hba
        have := (hanti a b).1 hab
        rw [hba] at this
        cases this)
      htrans ((d :: post).map Prod.snd) [c.2] c.2 (by simp) (by
        intro x hx
        simp at hx
        subst hx
        exact hreflG _)
    rw [firstOr_cons] at e
    refine ⟨((d :: post).map Prod.snd).foldl
      (fun r v => if cmp r v = comparation.GREATER then v else r) c.2, ?_, ?_, ?_⟩
    · simp only [get_min, hb, Option.bind_eq_bind, Option.some_bind, hz, hz1, if_false,
        firstOr_cons, infoOf_some hc, nextOf_some hc, e]
    · simpa using h1
    · simpa using h3
  · have e := get_max_loop_spec cmp m (d :: post) (some c.1) (m.brk + 1) c.2 hs
      (by simp at hlen ⊢; omega)
    obtain ⟨h1, h3⟩ := extremum_scan (fun a b => cmp a b = comparation.LOWER) hreflL
      (by
        intro a b hab hba
        have := (hanti a b).2 hba
        rw [hab] at this
        cases this)
      (by
        intro a b x hab hbx hax
        have g1 : cmp x b ≠ comparation.GREATER := fun e => hbx ((hanti x b).1 e)
        have g2 : cmp b a ≠ comparation.GREATER := fun e => hab ((hanti b a).1 e)
        exact htrans x b a g1 g2 ((hanti x a).2 hax))
      ((d :: post).map Prod.snd) [c.2] c.2 (by simp) (by
        intro x hx
        simp at hx
        subst hx
        exact hreflL _)
    rw [firstOr_cons] at e
    refine ⟨((d :: post).map Prod.snd).foldl
      (fun r v => if cmp r v = comparation.LOWER then v else r) c.2, ?_, ?_, ?_⟩
    · simp only [get_max, hb, Option.bind_eq_bind, Option.some_bind, hz, hz1, if_false,
        firstOr_cons, infoOf_some hc, nextOf_some hc, e]
    · simpa using h1
    · simpa using h3

/-- C24, at the failing input.  On the one-element list `[7]`, `get_min` and
`get_max` return the element itself (7, converted to `bool_t`) instead of `TRUE`
and store nothing through `result`; on `[0]` they return `FALSE`.  On
`[3, 1, 2]` they return `TRUE` with 1 and 3. -/
theorem get_min_single_item_on_example :
    get_min id (some 0) compareInt (built [7]) = some (7, none)
      ∧ get_max id (some 0) compareInt (built [7]) = some (7, none)
      ∧ get_min id (some 0) compareInt (built [0]) = some (FALSE, none)
      ∧ get_max id (some 0) compareInt (built [0]) = some (FALSE, none)
      ∧ get_min id (some 0) compareInt (built [3, 1, 2]) = some (TRUE, some 1)
      ∧ get_max id (some 0) compareInt (built [3, 1, 2]) = some (TRUE, some 3) := by
  decide

end ListT

namespace ListT

variable {T : Type}

/-! ## `reverse_range` -/

/-- C25, at the failing input.  On `[1, 2, 3, 4, 5]` the call
`reverse_range list 0 4` returns `[5, 4, 3, 4, 2]`, not `[5, 4, 3, 2, 1]`, and on
`[1, 2, 3]` the call `reverse_range list 0 2` returns `[3, 2, 3]`: the writes of
`swap` to the tail-relative half go through the defective branch of
`replace_at`.  With both bounds in the head-relative half, `reverse_range list 0 2`
on `[1, 2, 3, 4, 5]` returns `[3, 2, 1, 4, 5]`; the input list is as before. -/
theorem reverse_range_tail_half_on_example :
    (reverse_range id (some 0) 0 4 (built [1, 2, 3, 4, 5])).bind
        (fun r => elements r.1 r.2) = some [5, 4, 3, 4, 2]
      ∧ (reverse_range id (some 0) 0 2 (built [1, 2, 3])).bind
        (fun r => elements r.1 r.2) = some [3, 2, 3]
      ∧ (reverse_range id (some 0) 0 2 (built [1, 2, 3, 4, 5])).bind
        (fun r => elements r.1 r.2) = some [3, 2, 1, 4, 5]
      ∧ (reverse_range id (some 0) 0 4 (built [1, 2, 3, 4, 5])).bind
        (fun r => elements (some 0) r.2) = some [1, 2, 3, 4, 5] := by
  decide

end ListT

namespace ListT

variable {T : Type}

/-! ## `distinct` and `count_distinct` -/

theorem distinctFold_append (eq : T → T → bool_t) :
    ∀ (xs acc : List T), ∃ D, distinctFold eq acc xs = acc ++ D ∧ D.Sublist xs := by
  intro xs
  induction xs with
  | nil =>
    intro acc
    exact ⟨[], by simp [distinctFold], List.Sublist.refl _⟩
  | cons x xs ih =>
    intro acc
    by_cases hx : acc.any (fun y => decide (eq x y ≠ 0)) = true
    · obtain ⟨D, e, hD⟩ := ih acc
      exact ⟨D, by rw [distinctFold, if_pos hx, e], hD.cons x⟩
    · obtain ⟨D, e, hD⟩ := ih (acc ++ [x])
      refine ⟨x :: D, ?_, hD.cons₂ x⟩
      rw [distinctFold, if_neg hx, e]
      simp

theorem distinctFold_pairwise (eq : T → T → bool_t) :
    ∀ (xs acc : List T), acc.Pairwise (fun earlier later => eq later earlier = 0) →
      (distinctFold eq acc xs).Pairwise (fun earlier later => eq later earlier = 0) := by
  intro xs
  induction xs with
  | nil =>
    intro acc h
    simpa [distinctFold] using h
  | cons x xs ih =>
    intro acc h
    by_cases hx : acc.any (fun y => decide (eq x y ≠ 0)) = true
    · rw [distinctFold, if_pos hx]
      exact ih acc h
    · rw [distinctFold, if_neg hx]
      refine ih (acc ++ [x]) ?_
      rw [List.pairwise_append]
      refine ⟨h, List.pairwise_singleton _ _, ?_⟩
      intro a ha b hb
      simp only [List.mem_singleton] at hb
      subst hb
      simp only [List.any_eq_true, decide_eq_true_eq, not_exists, not_and, ne_eq,
        not_not] at hx
      exact hx a ha

theorem distinctFold_covers (eq : T → T → bool_t) :
    ∀ (xs acc pre : List T) (x : T) (post : List T), xs = pre ++ x :: post →
      x ∈ distinctFold eq acc xs
        ∨ ∃ y ∈ distinctFold eq acc xs, (y ∈ acc ∨ y ∈ pre) ∧ eq x y ≠ 0 := by
  intro xs
  induction xs with
  | nil =>
    intro acc pre x post e
    simp at e
  | cons z zs ih =>
    intro acc pre x post e
    cases pre with
    | nil =>
      simp only [List.nil_append, List.cons.injEq] at e
      obtain ⟨rfl, rfl⟩ := e
      by_cases hz : acc.any (fun y => decide (eq z y ≠ 0)) = true
      · right
        rw [distinctFold, if_pos hz]
        obtain ⟨D, e1, -⟩ := distinctFold_append eq zs acc
        simp only [List.any_eq_true, decide_eq_true_eq] at hz
        obtain ⟨y, hy, hzy⟩ := hz
        exact ⟨y, by rw [e1]; simp [hy], Or.inl hy, hzy⟩
      · left
        rw [distinctFold, if_neg hz]
        obtain ⟨D, e1, -⟩ := distinctFold_append eq zs (acc ++ [z])
        rw [e1]
        simp
    | cons p pre1 =>
      simp only [List.cons_append, List.cons.injEq] at e
      obtain ⟨rfl, rfl⟩ := e
      by_cases hz : acc.any (fun y => decide (eq z y ≠ 0)) = true
      · rw [distinctFold, if_pos hz]
        rcases ih acc pre1 x post rfl with h | ⟨y, hy, hm, hxy⟩
        · exact Or.inl h
        · refine Or.inr ⟨y, hy, ?_, hxy⟩
          rcases hm with hm | hm
          · exact Or.inl hm
          · exact Or.inr (List.mem_cons_of_mem _ hm)
      · rw [distinctFold, if_neg hz]
        rcases ih (acc ++ [z]) pre1 x post rfl with h | ⟨y, hy, hm, hxy⟩
        · exact Or.inl h
        · refine Or.inr ⟨y, hy, ?_, hxy⟩
          rcases hm with hm | hm
          · rcases List.mem_append.1 hm with hm | hm
            · exact Or.inl hm
            · simp only [List.mem_singleton] at hm
              subst hm
              exact Or.inr (List.mem_cons_self _ _)
          · exact Or.inr (List.mem_cons_of_mem _ hm)

theorem distinct_loop_spec (expression : T → T → bool_t) (out b0 : Nat) :
    ∀ (rest : List (Nat × T)) (m : Mem T) (pv : nodePointer) (oc : List (Nat × T))
      (ko fuel : Nat),
      Seg m.node pv rest none → (∀ c ∈ rest, c.1 < b0) →
      Rep m out oc ko → b0 ≤ out → (∀ d ∈ oc, b0 ≤ d.1) → rest.length < fuel →
      ∃ m1 oc1 k1,
        collect_loop (fun m v => (LIST_CONTAINS expression out m v).map not) (some out) fuel m
            (firstOr rest none) = some m1
        ∧ Rep m1 out oc1 k1
        ∧ oc1.map Prod.snd = distinctFold expression (oc.map Prod.snd) (rest.map Prod.snd)
        ∧ (∀ d ∈ oc1, b0 ≤ d.1)
        ∧ Agree b0 m m1 := by
  intro rest
  induction rest with
  | nil =>
    intro m pv oc ko fuel _ _ hr _ hoc _
    refine ⟨m, oc, ko, ?_, hr, by simp [distinctFold], hoc, Agree.refl _ _⟩
    cases fuel <;> simp [collect_loop]
  | cons c cs ih =>
    intro m pv oc ko fuel hs hlt hr ho hoc hf
    obtain ⟨f, rfl⟩ : ∃ f, fuel = f + 1 := ⟨fuel - 1, by simp at hf; omega⟩
    obtain ⟨hc, hs1⟩ := hs
    have hcb : c.1 < b0 := hlt c (List.mem_cons_self _ _)
    have ht := LIST_CONTAINS_spec expression c.2 hr
    by_cases hp : (oc.map Prod.snd).any (fun y => decide (expression c.2 y ≠ 0)) = true
    · obtain ⟨m2, oc2, k2, e2, hr2, hv2, hoc2, ha2⟩ := ih m (some c.1) oc ko f hs1
        (fun d hd => hlt d (List.mem_cons_of_mem _ hd)) hr ho hoc (by simp at hf; omega)
      refine ⟨m2, oc2, k2, ?_, hr2, ?_, hoc2, ha2⟩
      · simp only [firstOr_cons, collect_loop, infoOf_some hc, Option.bind_eq_bind,
          Option.some_bind, ht, hp, Option.map_some', Bool.not_true, Bool.false_eq_true,
          if_false, nextOf_some hc]
        exact e2
      · rw [hv2, List.map_cons, distinctFold, if_pos hp]
    · obtain ⟨m1, e1, hr1, ha1, hoc1⟩ := add_agree c.2 hr ho hoc
      have hc1 : m1.node c.1 = some ⟨pv, c.2, firstOr cs none⟩ := (ha1.2.1 c.1 hcb).trans hc
      obtain ⟨m2, oc2, k2, e2, hr2, hv2, hoc2, ha2⟩ := ih m1 (some c.1) _ _ f
        (Seg_agree ha1 (fun d hd => hlt d (List.mem_cons_of_mem _ hd)) hs1)
        (fun d hd => hlt d (List.mem_cons_of_mem _ hd)) hr1 ho hoc1 (by simp at hf; omega)
      refine ⟨m2, oc2, k2, ?_, hr2, ?_, hoc2, ha1.trans ha2⟩
      · have hp' : (oc.map Prod.snd).any (fun y => decide (expression c.2 y ≠ 0)) = false := by
          simpa using hp
        simp only [firstOr_cons, collect_loop, infoOf_some hc, Option.bind_eq_bind,
          Option.some_bind, ht, hp', Option.map_some', Bool.not_false, if_true, e1,
          nextOf_some hc1]
        exact e2
      · rw [hv2, List.map_cons, distinctFold, if_neg hp]
        simp

theorem GET_DISTINCT_LIST_rep {m : Mem T} {l k : Nat} {cells : List (Nat × T)}
    (expression : T → T → bool_t) (h : Rep m l cells k) :
    ∃ m1 oc k1, GET_DISTINCT_LIST expression l m = some (some m.brk, m1)
      ∧ Rep m1 m.brk oc k1
      ∧ oc.map Prod.snd = distinctFold expression [] (cells.map Prod.snd)
      ∧ Agree m.brk m m1
      ∧ Rep m1 l cells k := by
  obtain ⟨-, hr0, ha0, hk0⟩ := create_agree m
  have hlen := h.length_le
  have hl : l < m.brk := h.2.2.2.2.2
  have hc : ∀ c ∈ cells, c.1 < m.brk := h.2.2.2.2.1
  have h1 := h.agree hl hc ha0
  obtain ⟨m1, oc, k1, e1, hr1, hv1, -, ha1⟩ := distinct_loop_spec expression m.brk m.brk
    cells (create m).2 none [] 0 ((create m).2.brk + 1) h1.2.2.1 hc hr0 (le_refl _)
    (by simp) (by omega)
  refine ⟨m1, oc, k1, ?_, hr1, by simpa using hv1, ha0.trans ha1,
    h.agree hl hc (ha0.trans ha1)⟩
  have hb1 := h1.1
  have e2 : (create m).2.brk = m.brk + 1 := rfl
  rw [e2] at e1
  show (some m.brk >>= fun o => (create m).2.base l >>= fun L =>
    collect_loop (fun m v => (LIST_CONTAINS expression o m v).map not) (some m.brk)
      ((create m).2.brk + 1) (create m).2 L.head >>= fun m1 => some (some m.brk, m1)) = _
  simp only [Option.bind_eq_bind, Option.some_bind, hb1, e2, e1]

end ListT

namespace ListT

variable {T : Type}

/-- C26. For every non-empty list (holding `s`) and every predicate `eq`,
`distinct` returns a new list holding a sub-sequence `d` of `s` (order kept) in
which `eq later earlier` is false for every pair of output elements; every
element of `s` is in `d` or is `eq`-equivalent to an element of `d` that
precedes it in `s`; `count_distinct` returns the length of `d`; the input is as
before. -/
theorem distinct_deduplicates (m : Mem T) (l k : Nat) (cells : List (Nat × T))
    (eq : T → T → bool_t) (h : Rep m l cells k) (hne : cells ≠ []) :
    ∃ out m1 d, distinct (some l) eq m = some (some out, m1)
      ∧ out ≠ l
      ∧ elements (some out) m1 = some d
      ∧ d.Sublist (cells.map Prod.snd)
      ∧ d.Pairwise (fun earlier later => eq later earlier = 0)
      ∧ (∀ pre x post, cells.map Prod.snd = pre ++ x :: post →
          x ∈ d ∨ ∃ y ∈ d, y ∈ pre ∧ eq x y ≠ 0)
      ∧ (∃ m2, count_distinct (some l) eq m = some ((d.length : Int), m2)
          ∧ elements (some l) m2 = some (cells.map Prod.snd))
      ∧ elements (some l) m1 = some (cells.map Prod.snd)
      ∧ sync_of (some l) m1 = some k := by
  obtain ⟨m1, oc, k1, e1, hr1, hv1, -, hs1⟩ := GET_DISTINCT_LIST_rep eq h
  have hl : l < m.brk := h.2.2.2.2.2
  have hz := length_cast_ne_zero hne
  obtain ⟨D, eD, hD⟩ := distinctFold_append eq (cells.map Prod.snd) []
  refine ⟨m.brk, m1, oc.map Prod.snd, ?_, by omega, hr1.elements, ?_, ?_, ?_, ?_,
    hs1.elements, hs1.sync_of⟩
  · simp only [distinct, h.1, Option.bind_eq_bind, Option.some_bind, hz, if_false, e1]
  · rw [hv1, eD]
    simpa using hD
  · rw [hv1]
    exact distinctFold_pairwise eq _ [] List.Pairwise.nil
  · intro pre x post e
    rw [hv1]
    rcases distinctFold_covers eq _ [] pre x post e with hx | ⟨y, hy, hm, hxy⟩
    · exact Or.inl hx
    · refine Or.inr ⟨y, hy, ?_, hxy⟩
      rcases hm with hm | hm
      · simp at hm
      · exact hm
  · refine ⟨m1, ?_, hs1.elements⟩
    simp only [count_distinct, h.1, Option.bind_eq_bind, Option.some_bind, hz, if_false, e1,
      hr1.1, List.length_map]

/-- Witness for C26: the list `[1, 2, 1, 3, 2]` under the equality predicate. -/
theorem distinct_deduplicates_witness :
    Rep (built [1, 2, 1, 3, 2]) 0 [(1, 1), (2, 2), (3, 1), (4, 3), (5, 2)] 5
      ∧ (∃ out m1 d, distinct (some 0) equalsInt (built [1, 2, 1, 3, 2]) = some (some out, m1)
          ∧ elements (some out) m1 = some d
          ∧ d.Sublist [1, 2, 1, 3, 2]
          ∧ d.Pairwise (fun earlier later => equalsInt later earlier = 0))
      ∧ (distinct (some 0) equalsInt (built [1, 2, 1, 3, 2])).bind
          (fun r => elements r.1 r.2) = some [1, 2, 3]
      ∧ (count_distinct (some 0) equalsInt (built [1, 2, 1, 3, 2])).map Prod.fst = some 3 := by
  obtain ⟨out, m1, d, e1, -, h2, h3, h4, -⟩ := distinct_deduplicates (built [1, 2, 1, 3, 2]) 0 5
    [(1, 1), (2, 2), (3, 1), (4, 3), (5, 2)] equalsInt (by decide) (by decide)
  exact ⟨by decide, ⟨out, m1, d, e1, h2, h3, h4⟩, by decide, by decide⟩

end ListT

namespace ListT

variable {T : Type}

/-! ## Termination of the exchange sort -/

theorem greater_ascending (cmp : T → T → comparation) (a b : T) :
    ((if FALSE ≠ 0 ∧ cmp a b ≠ comparation.EQUAL then
        (if cmp a b = comparation.GREATER then comparation.LOWER else comparation.GREATER)
      else cmp a b) = comparation.GREATER)
      ↔ decide (cmp a b = comparation.GREATER) = true := by
  simp [FALSE]

theorem greater_descending (cmp : T → T → comparation) (a b : T) :
    ((if TRUE ≠ 0 ∧ cmp a b ≠ comparation.EQUAL then
        (if cmp a b = comparation.GREATER then comparation.LOWER else comparation.GREATER)
      else cmp a b) = comparation.GREATER)
      ↔ decide (cmp a b = comparation.LOWER) = true := by
  cases hc : cmp a b <;> simp [TRUE, hc]

theorem orderHelper_loop_returns (expression : T → T → comparation) (reverse : bool_t)
    (gt : T → T → Bool)
    (hgt : ∀ a b, ((if reverse ≠ 0 ∧ expression a b ≠ comparation.EQUAL then
        (if expression a b = comparation.GREATER then comparation.LOWER
          else comparation.GREATER)
        else expression a b) = comparation.GREATER) ↔ gt a b = true)
    (hasym : ∀ a b, gt a b = true → gt b a = false)
    {m : Mem T} {l k : Nat} {cells : List (Nat × T)} (h : Rep m l cells k)
    (h2 : 2 ≤ cells.length) (fuel : Nat)
    (hf : (cells.length - 1) * (1 + inversions gt (cells.map Prod.snd)) ≤ fuel) :
    ∃ m1, orderHelper_loop expression reverse l fuel m (firstOr cells none) false = some m1 := by
  obtain ⟨c, d, post, rfl⟩ := two_cells cells h2
  have h' : Rep m l ([] ++ c :: d :: post) k := h
  obtain ⟨m1, oc1, e1, -⟩ := orderHelper_loop_spec expression reverse l 0 gt hgt hasym k
    (post.length + 1) fuel m [] c d post false h' (fun _ _ => Nat.zero_le _) (by simp)
    (by intro _; simp)
    (by
      simp only [Bool.false_eq_true, if_false, Nat.add_zero, List.nil_append]
      simp only [List.length_cons, Nat.add_sub_cancel, Nat.mul_add, Nat.mul_one] at hf
      rw [Nat.mul_comm] at hf
      omega)
  exact ⟨m1, e1⟩

/-- C27. For every non-empty list and every three-way comparator under which `a`
compares GREATER than `b` exactly when `b` compares LOWER than `a`, the loop of
`orderHelper` returns, in the ascending and in the descending direction: with
`n >= 2` elements it returns within `(n - 1) * (1 + inversions)` rounds, because
exchanging an adjacent pair that is out of order lowers the number of inverted
pairs by one; so `in_place_order_by` and `in_place_order_by_descending` return. -/
theorem exchange_sort_terminates (m : Mem T) (l k : Nat) (cells : List (Nat × T))
    (cmp : T → T → comparation) (h : Rep m l cells k) (hne : cells ≠ [])
    (hanti : ∀ a b, cmp a b = comparation.GREATER ↔ cmp b a = comparation.LOWER) :
    (2 ≤ cells.length → ∀ fuel,
        (cells.length - 1) * (1 + inversions (fun a b => decide (cmp a b = comparation.GREATER))
          (cells.map Prod.snd)) ≤ fuel →
        ∃ m1, orderHelper_loop cmp FALSE l fuel m (firstOr cells none) false = some m1)
    ∧ (2 ≤ cells.length → ∀ fuel,
        (cells.length - 1) * (1 + inversions (fun a b => decide (cmp a b = comparation.LOWER))
          (cells.map Prod.snd)) ≤ fuel →
        ∃ m1, orderHelper_loop cmp TRUE l fuel m (firstOr cells none) false = some m1)
    ∧ (∀ (pre : List T) (a b : T) (post : List T), cmp a b = comparation.GREATER →
        inversions (fun a b => decide (cmp a b = comparation.GREATER)) (pre ++ b :: a :: post) + 1
          = inversions (fun a b => decide (cmp a b = comparation.GREATER))
              (pre ++ a :: b :: post))
    ∧ (∀ (pre : List T) (a b : T) (post : List T), cmp a b = comparation.LOWER →
        inversions (fun a b => decide (cmp a b = comparation.LOWER)) (pre ++ b :: a :: post) + 1
          = inversions (fun a b => decide (cmp a b = comparation.LOWER))
              (pre ++ a :: b :: post))
    ∧ (∃ r, in_place_order_by (some l) cmp m = some r)
    ∧ (∃ r, in_place_order_by_descending (some l) cmp m = some r) := by
  have asymG : ∀ a b, decide (cmp a b = comparation.GREATER) = true →
      decide (cmp b a = comparation.GREATER) = false := by
    intro a b hab
    have h1 : cmp a b = comparation.GREATER := by simpa using hab
    have h2 := (hanti a b).1 h1
    simp [h2]
  have asymL : ∀ a b, decide (cmp a b = comparation.LOWER) = true →
      decide (cmp b a = comparation.LOWER) = false := by
    intro a b hab
    have h1 : cmp a b = comparation.LOWER := by simpa using hab
    have h2 := (hanti b a).2 h1
    simp [h2]
  refine ⟨?_, ?_, ?_, ?_, ?_, ?_⟩
  · intro h2 fuel hf
    exact orderHelper_loop_returns cmp FALSE _ (greater_ascending cmp) asymG h h2 fuel hf
  · intro h2 fuel hf
    exact orderHelper_loop_returns cmp TRUE _ (greater_descending cmp) asymL h h2 fuel hf
  · intro pre a b post hab
    exact inversions_swap _ a b (by simpa using hab) (asymG a b (by simpa using hab)) pre post
  · intro pre a b post hab
    exact inversions_swap _ a b (by simpa using hab) (asymL a b (by simpa using hab)) pre post
  · obtain ⟨m1, oc, ko, e1, -⟩ := in_place_order_by_rep cmp hanti h hne
    exact ⟨_, e1⟩
  · obtain ⟨m1, oc, ko, e1, -⟩ := in_place_order_by_descending_rep cmp hanti h hne
    exact ⟨_, e1⟩

/-- Witness for C27: the list `[5, 3, 1, 4, 2]` under the numeric comparison, whose
7 inversions give the bound of 32 rounds. -/
theorem exchange_sort_terminates_witness :
    Rep (built [5, 3, 1, 4, 2]) 0 [(1, 5), (2, 3), (3, 1), (4, 4), (5, 2)] 5
      ∧ (∀ a b, compareInt a b = comparation.GREATER ↔ compareInt b a = comparation.LOWER)
      ∧ (∃ m1, orderHelper_loop compareInt FALSE 0 32 (built [5, 3, 1, 4, 2]) (some 1) false
          = some m1)
      ∧ (∃ r, in_place_order_by_descending (some 0) compareInt (built [5, 3, 1, 4, 2])
          = some r) := by
  have hanti : ∀ a b : Int,
      compareInt a b = comparation.GREATER ↔ compareInt b a = comparation.LOWER := by
    intro a b
    unfold compareInt
    constructor
    · intro hab
      split at hab
      · cases hab
      · split at hab
        · cases hab
        · rw [if_pos (by omega)]
    · intro hba
      split at hba
      · rw [if_neg (by omega), if_neg (by omega)]
      · split at hba <;> cases hba
  obtain ⟨h1, -, -, -, -, h6⟩ := exchange_sort_terminates (built [5, 3, 1, 4, 2]) 0 5
    [(1, 5), (2, 3), (3, 1), (4, 4), (5, 2)] compareInt (by decide) (by decide) hanti
  exact ⟨by decide, hanti, h1 (by decide) 32 (by decide), h6⟩

end ListT

namespace ListT

variable {T : Type}

/-! ## The stack functions -/

theorem push_rep {m : Mem T} {l k : Nat} {cells : List (Nat × T)} (x : T)
    (h : Rep m l cells k) :
    ∃ m1, push x (some l) m = some (TRUE, m1)
      ∧ Rep m1 l ((m.brk, x) :: cells) (syncPlus k) := by
  cases cells with
  | nil =>
    obtain ⟨m1, e1, h1, -⟩ := add_rep x h
    refine ⟨m1, ?_, by simpa using h1⟩
    simp only [push, h.1, Option.bind_eq_bind, Option.some_bind, List.length_nil, Nat.cast_zero,
      if_true, e1]
  | cons c cs =>
    obtain ⟨hb, hk, hs, hn, hlt, hl⟩ := h
    obtain ⟨hc, hs1⟩ := hs
    have hcb : c.1 < m.brk := hlt c (by simp)
    have hne : c.1 ≠ m.brk := by omega
    have hz : ¬ (((c :: cs).length : Int) = 0) := by simp; omega
    simp only [push, hb, Mem.malloc, Mem.setNext, Mem.setPrevious, Option.bind_eq_bind,
      Option.some_bind, Function.update_same, hz, if_false, firstOr_cons,
      Function.update_noteq hne, hc, Function.update_noteq (Ne.symm hne)]
    refine ⟨_, rfl, ?_, syncPlus_lt k, ?_, ?_, ?_, ?_⟩
    · simp [Mem.setBase]
    · refine ⟨?_, ?_, Seg_congr ?_ hs1⟩
      · simp [Mem.setBase]
      · simp [Mem.setBase, Function.update_noteq hne]
      · intro d hd
        have hd1 : d.1 < m.brk := hlt d (by simp [hd])
        have hd2 : d.1 ≠ m.brk := by omega
        have hd3 : d.1 ≠ c.1 := by
          intro e
          have := (List.nodup_cons.1 (by simpa using hn : ((c :: cs).map Prod.fst).Nodup)).1
          exact this (by rw [← e]; exact List.mem_map_of_mem _ hd)
        simp [Mem.setBase, Function.update_noteq hd2, Function.update_noteq hd3]
    · rw [List.map_cons, List.nodup_cons]
      refine ⟨?_, hn⟩
      intro hmem
      obtain ⟨d, hd, e⟩ := List.mem_map.1 hmem
      have := hlt d hd
      simp only at e
      omega
    · intro d hd
      simp only [Mem.setBase]
      rcases List.mem_cons.1 hd with rfl | hd
      · simp
      · have := hlt d hd; omega
    · simp only [Mem.setBase]; omega

theorem pop_rep {m : Mem T} {l k : Nat} (c : Nat × T) (cs : List (Nat × T))
    (h : Rep m l (c :: cs) k) :
    ∃ m1, pop (some l) m = some (TRUE, some c.2, m1)
      ∧ Rep m1 l cs (syncPlus k)
      ∧ m1.brk = m.brk := by
  have hlen := h.length_le
  obtain ⟨hb, hk, hs, hn, hlt, hl⟩ := h
  obtain ⟨hc, hs1⟩ := hs
  have n3 : (cs.map Prod.fst).Nodup := (List.nodup_cons.1 (by simpa using hn)).2
  have n2 : ∀ d ∈ cs, d.1 ≠ c.1 := by
    intro d hd e
    have := (List.nodup_cons.1 (by simpa using hn : ((c :: cs).map Prod.fst).Nodup)).1
    exact this (by rw [← e]; exact List.mem_map_of_mem _ hd)
  have hlt1 : ∀ d ∈ cs, d.1 < m.brk := fun d hd => hlt d (List.mem_cons_of_mem _ hd)
  have hz : ¬ (((c :: cs).length : Int) = 0) := by simp; omega
  cases cs with
  | nil =>
    have h1 : (([c] : List (Nat × T)).length : Int) = 1 := rfl
    simp only [pop, hb, Option.bind_eq_bind, Option.some_bind, hz, if_false, firstOr_cons,
      infoOf_some hc, h1, if_true, free_some hc]
    refine ⟨_, rfl, ⟨?_, syncPlus_lt k, ?_, ?_, ?_, ?_⟩, rfl⟩
    · simp [Mem.setBase]
    · simp
    · simp
    · simp
    · simpa [Mem.setBase] using hl
  | cons d post =>
    have h1 : ¬ (((c :: d :: post).length : Int) = 1) := by simp; omega
    obtain ⟨hd, hs2⟩ := hs1
    have hcd : c.1 ≠ d.1 := (n2 d (by simp)).symm
    simp only [firstOr_cons] at hc
    simp only [pop, hb, Option.bind_eq_bind, Option.some_bind, hz, if_false, firstOr_cons,
      infoOf_some hc, h1, nextOf_some hc, Mem.setPrevious, hd, Mem.free,
      Function.update_noteq hcd, hc]
    refine ⟨_, rfl, ⟨?_, syncPlus_lt k, ?_, ?_, ?_, ?_⟩, rfl⟩
    · simp [Mem.setBase]
    · refine ⟨?_, Seg_congr ?_ hs2⟩
      · simp [Mem.setBase, Function.update_noteq hcd.symm]
      · intro e he
        have e1 : e.1 ≠ c.1 := n2 e (by simp [he])
        have e2 : e.1 ≠ d.1 := by
          have := (List.nodup_cons.1 (by simpa using n3 : ((d :: post).map Prod.fst).Nodup)).1
          intro h
          exact this (by rw [← h]; exact List.mem_map_of_mem _ he)
        simp [Mem.setBase, Function.update_noteq e1, Function.update_noteq e2]
    · simpa using n3
    · simpa [Mem.setBase] using hlt1
    · simpa [Mem.setBase] using hl

theorem peek_rep {m : Mem T} {l k : Nat} (c : Nat × T) (cs : List (Nat × T))
    (h : Rep m l (c :: cs) k) : peek (some l) m = some (TRUE, some c.2) := by
  have hz : ¬ (((c :: cs).length : Int) = 0) := by simp; omega
  simp only [peek, GetFirst, h.1, Option.bind_eq_bind, Option.some_bind, hz, if_false,
    firstOr_cons, infoOf_some h.2.2.1.1]

end ListT

namespace ListT

variable {T : Type}

/-- C28. For every list (holding `s`, of length `n`) and every item `x`, `push`
returns `TRUE` and the list then holds `x` followed by `s`: `peek` yields `x` and
the length is `n + 1`; a following `pop` returns `TRUE` with `x` and the list is
again made of the same nodes holding `s`, with length `n`.  `pop` on an empty
stack returns `FALSE`, stores nothing and leaves the heap as it is. -/
theorem stack_discipline (m : Mem T) (l k : Nat) (cells : List (Nat × T)) (x : T)
    (h : Rep m l cells k) :
    (∃ m1, push x (some l) m = some (TRUE, m1)
      ∧ elements (some l) m1 = some (x :: cells.map Prod.snd)
      ∧ peek (some l) m1 = some (TRUE, some x)
      ∧ size (some l) m1 = some ((cells.length : Int) + 1)
      ∧ ∃ m2, pop (some l) m1 = some (TRUE, some x, m2)
        ∧ Rep m2 l cells (syncPlus (syncPlus k))
        ∧ elements (some l) m2 = some (cells.map Prod.snd)
        ∧ size (some l) m2 = some (cells.length : Int))
    ∧ (cells = [] → pop (some l) m = some (FALSE, none, m))
    ∧ elements (some l) m = some (cells.map Prod.snd)
    ∧ size (some l) m = some (cells.length : Int) := by
  obtain ⟨m1, e1, h1⟩ := push_rep x h
  obtain ⟨m2, e2, h2, -⟩ := pop_rep (m.brk, x) cells h1
  refine ⟨⟨m1, e1, ?_, peek_rep _ _ h1, ?_, m2, e2, h2, h2.elements, h2.size⟩, ?_,
    h.elements, h.size⟩
  · rw [h1.elements]
    rfl
  · rw [h1.size]
    simp
  · rintro rfl
    simp only [pop, h.1, Option.bind_eq_bind, Option.some_bind, List.length_nil, Nat.cast_zero,
      if_true]

/-- Witness for C28: pushing 9 on `[1, 2, 3]` and popping it again. -/
theorem stack_discipline_witness :
    Rep (built [1, 2, 3]) 0 [(1, 1), (2, 2), (3, 3)] 3
      ∧ ∃ m1, push 9 (some 0) (built [1, 2, 3]) = some (TRUE, m1)
        ∧ elements (some 0) m1 = some [9, 1, 2, 3]
        ∧ peek (some 0) m1 = some (TRUE, some 9)
        ∧ ∃ m2, pop (some 0) m1 = some (TRUE, some 9, m2)
          ∧ elements (some 0) m2 = some [1, 2, 3] := by
  obtain ⟨⟨m1, e1, h1, h2, -, m2, e2, -, h3, -⟩, -⟩ := stack_discipline (built [1, 2, 3]) 0 3
    [(1, 1), (2, 2), (3, 3)] 9 (by decide)
  exact ⟨by decide, m1, e1, h1, h2, m2, e2, h3⟩

end ListT
